import Mathlib

/-!
Verification development for the debugger core (nnd): shallow embedding of the
relevant parts of `src/debugger.rs`, `src/expr.rs` and `src/search.rs`, and
theorems settling the specification claims about them.

Strings and byte buffers are modelled as `List Nat` of byte values; machine
integers are `Nat` with explicit masking/`% 2^w` where the source relies on
fixed width.
-/

set_option maxHeartbeats 1600000

namespace Nnd

/-! ## search.rs: `PaddedString` and `SearchQuery` -/

/-- `PaddedString` (search.rs): a string with 32 bytes of readable memory before
and after it, unless empty.  Strings are modelled as lists of byte values. -/
structure PaddedString where
  s : List Nat
deriving DecidableEq

/-- `PaddedString::new`: pad with 32 zero bytes on both sides. -/
def PaddedString.new (a : List Nat) : PaddedString :=
  { s := List.replicate 32 0 ++ a ++ List.replicate 32 0 }

/-- `PaddedString::get`: the unpadded middle part (`s[32..len-32]`), or the
string itself when empty. -/
def PaddedString.get (p : PaddedString) : List Nat :=
  if p.s.isEmpty then p.s else (p.s.drop 32).take (p.s.length - 64)

/-- `u8::is_ascii_uppercase` at byte level (ASCII uppercase letters are exactly
the bytes 65..=90; in valid UTF-8 these bytes occur exactly at ASCII uppercase
characters, so the byte-level test agrees with the char-level test in the
source). -/
def isAsciiUppercase (b : Nat) : Bool :=
  65 ≤ b && b ≤ 90

/-- `SearchQuery` (search.rs). -/
structure SearchQuery where
  s : PaddedString
  case_sensitive : Bool
deriving DecidableEq

/-- `SearchQuery::parse`: smart case — the query is case sensitive iff it
contains an ASCII uppercase character. -/
def SearchQuery.parse (s : List Nat) : SearchQuery :=
  let case_sensitive := s.any (fun c => isAsciiUppercase c)
  { s := PaddedString.new s, case_sensitive }

/-! ## debugger.rs: step kinds, step state, `handle_step_stop` (C1) -/

/-- `StepKind` (debugger.rs). -/
inductive StepKind
  | Into
  | Over
  | Out
  | Cursor
deriving DecidableEq

/-- A half-open address range `start..stop` (Rust `Range<usize>`; `end` is a
Lean keyword, so the field is named `stop`). -/
structure NRange where
  start : Nat
  stop : Nat
deriving DecidableEq

/-- `StepState` (debugger.rs). -/
structure StepState where
  tid : Nat
  keep_other_threads_suspended : Bool
  disable_breakpoints : Bool
  internal_kind : StepKind
  by_instructions : Bool
  addr_ranges : List NRange
  cfa : Nat
  single_steps : Bool
  stack_digest : List Nat
deriving DecidableEq

/-- `slice::partition_point` on a partitioned slice: the number of leading
elements satisfying the predicate (the source uses binary search, which agrees
with this on partitioned input; `handle_step_stop` only calls it with
`addr_ranges` sorted, where the predicate is monotone). -/
def partitionPoint (l : List NRange) (p : NRange → Bool) : Nat :=
  (l.takeWhile p).length

/-- `Debugger::handle_step_stop` (debugger.rs:2167).  The current thread's
instruction pointer `addr` is read from the registers by the source; the CFA
lookup `get_cfa_for_step` consults external unwind tables, so its result is
passed in as `cfaForStep` (`none` = lookup failed). Returns whether the step
completed. -/
def handle_step_stop (step : StepState) (spurious_stop hit_step_breakpoint : Bool)
    (addr : Nat) (cfaForStep : Option Nat) : Bool :=
  if step.internal_kind = StepKind.Cursor then
    hit_step_breakpoint
  else
    let i := partitionPoint step.addr_ranges (fun r => decide (r.stop ≤ addr))
    let in_ranges : Bool :=
      decide (i < step.addr_ranges.length) &&
        decide ((step.addr_ranges.getD i ⟨0, 0⟩).start ≤ addr)
    if step.internal_kind = StepKind.Into ∧ step.by_instructions = true then
      if step.addr_ranges.isEmpty ∧ spurious_stop = true then
        false
      else
        !in_ranges
    else
      match cfaForStep with
      | none => decide (step.internal_kind = StepKind.Into)
      | some cfa =>
        match step.internal_kind with
        | StepKind.Into => decide (cfa ≠ step.cfa) || !in_ranges
        | StepKind.Over => decide (cfa > step.cfa) || (decide (cfa = step.cfa) && !in_ranges)
        | StepKind.Out => decide (cfa > step.cfa)
        | StepKind.Cursor => false  -- unreachable: handled by the first branch (source panics)

/-- The instruction pointer lies inside one of the recorded ranges. -/
def inSomeRange (ranges : List NRange) (addr : Nat) : Prop :=
  ∃ r ∈ ranges, r.start ≤ addr ∧ addr < r.stop

instance (ranges : List NRange) (addr : Nat) : Decidable (inSomeRange ranges addr) := by
  unfold inSomeRange; infer_instance

/-- The step's address ranges are sorted and pairwise disjoint (the `StepState`
invariant). -/
def rangesSorted (l : List NRange) : Prop :=
  l.Pairwise (fun a b => a.stop ≤ b.start)

theorem inRanges_iff (l : List NRange) (addr : Nat) (h : rangesSorted l) :
    ((l.takeWhile (fun r => decide (r.stop ≤ addr))).length < l.length ∧
      (l.getD (l.takeWhile (fun r => decide (r.stop ≤ addr))).length ⟨0, 0⟩).start ≤ addr)
      ↔ inSomeRange l addr := by
  induction l with
  | nil => simp [inSomeRange]
  | cons r rs ih =>
    rw [rangesSorted, List.pairwise_cons] at h
    obtain ⟨hr, hrs⟩ := h
    by_cases hstop : r.stop ≤ addr
    · have htw : (r :: rs).takeWhile (fun r => decide (r.stop ≤ addr))
          = r :: rs.takeWhile (fun r => decide (r.stop ≤ addr)) := by
        simp [List.takeWhile, hstop]
      have hget : (r :: rs).getD ((rs.takeWhile (fun r => decide (r.stop ≤ addr))).length + 1) ⟨0, 0⟩
          = rs.getD ((rs.takeWhile (fun r => decide (r.stop ≤ addr))).length) ⟨0, 0⟩ := by
        simp [List.getD]
      have hmem : inSomeRange (r :: rs) addr ↔ inSomeRange rs addr := by
        constructor
        · rintro ⟨x, hx, hx1, hx2⟩
          rcases List.mem_cons.mp hx with hx0 | hx0
          · subst hx0; exact absurd hx2 (by omega)
          · exact ⟨x, hx0, hx1, hx2⟩
        · rintro ⟨x, hx, hx1, hx2⟩
          exact ⟨x, List.mem_cons_of_mem _ hx, hx1, hx2⟩
      rw [htw, hmem, ← ih hrs]
      simp only [List.length_cons, hget]
      exact and_congr_left' (by omega)
    · have htw : (r :: rs).takeWhile (fun r => decide (r.stop ≤ addr)) = [] := by
        simp [List.takeWhile, hstop]
      rw [htw]
      have hmem : inSomeRange (r :: rs) addr ↔ r.start ≤ addr := by
        constructor
        · rintro ⟨x, hx, hx1, hx2⟩
          rcases List.mem_cons.mp hx with hx0 | hx0
          · subst hx0; exact hx1
          · have := hr x hx0
            omega
        · intro hs
          exact ⟨r, List.mem_cons_self r rs, hs, by omega⟩
      simp only [List.length_nil, List.getD, List.length_cons, hmem]
      constructor
      · rintro ⟨-, h2⟩; simpa using h2
      · intro h2; exact ⟨by omega, by simpa using h2⟩

theorem inRanges_check_iff (l : List NRange) (addr : Nat) (h : rangesSorted l) :
    (decide ((l.takeWhile (fun r => decide (r.stop ≤ addr))).length < l.length) &&
      decide ((l.getD (l.takeWhile (fun r => decide (r.stop ≤ addr))).length ⟨0, 0⟩).start ≤ addr))
      = decide (inSomeRange l addr) := by
  rw [← Bool.decide_and, decide_eq_decide]
  exact inRanges_iff l addr h

/-- C1: for a trap handled during a step, `handle_step_stop` reports completion
exactly as follows — a Cursor step is complete iff a Cursor step-marker
breakpoint was hit; a by-instruction Into step is complete iff the instruction
pointer leaves the recorded ranges, and when the ranges are empty a spurious
hardware-breakpoint stop is not treated as completion; an Into step is complete
iff the current CFA differs from the CFA recorded at step start or the
instruction pointer lies outside the ranges; an Over step is complete iff
CFA > start CFA, or CFA = start CFA and the instruction pointer is outside the
ranges; an Out step is complete iff CFA > start CFA. -/
theorem handle_step_stop_spec (step : StepState) (spurious hit : Bool) (addr : Nat)
    (hsorted : rangesSorted step.addr_ranges) :
    (step.internal_kind = StepKind.Cursor →
      ∀ cfaO, handle_step_stop step spurious hit addr cfaO = hit) ∧
    (step.internal_kind = StepKind.Into → step.by_instructions = true →
      ((step.addr_ranges = [] ∧ spurious = true) →
          ∀ cfaO, handle_step_stop step spurious hit addr cfaO = false) ∧
      (¬(step.addr_ranges = [] ∧ spurious = true) →
          ∀ cfaO, handle_step_stop step spurious hit addr cfaO
            = !decide (inSomeRange step.addr_ranges addr))) ∧
    (step.internal_kind = StepKind.Into → step.by_instructions = false → ∀ cfa,
      handle_step_stop step spurious hit addr (some cfa)
        = (decide (cfa ≠ step.cfa) || !decide (inSomeRange step.addr_ranges addr))) ∧
    (step.internal_kind = StepKind.Over → ∀ cfa,
      handle_step_stop step spurious hit addr (some cfa)
        = (decide (step.cfa < cfa)
            || (decide (cfa = step.cfa) && !decide (inSomeRange step.addr_ranges addr)))) ∧
    (step.internal_kind = StepKind.Out → ∀ cfa,
      handle_step_stop step spurious hit addr (some cfa) = decide (step.cfa < cfa)) := by
  have hin := inRanges_check_iff step.addr_ranges addr hsorted
  refine ⟨?_, ?_, ?_, ?_, ?_⟩
  · intro hk cfaO
    simp [handle_step_stop, hk]
  · intro hk hbi
    constructor
    · rintro ⟨hempty, hspur⟩ cfaO
      simp [handle_step_stop, hk, hbi, hempty, hspur]
    · intro hne cfaO
      rcases Decidable.not_and_iff_or_not.mp hne with hne | hne
      · have hnonempty : step.addr_ranges.isEmpty = false := by
          cases h : step.addr_ranges with
          | nil => exact absurd h hne
          | cons a l => simp
        simp only [handle_step_stop, hk, hbi, partitionPoint]
        rw [hin]
        simp [hnonempty]
      · have hspur : spurious = false := by
          cases spurious with
          | false => rfl
          | true => exact absurd rfl hne
        simp only [handle_step_stop, hk, hbi, partitionPoint]
        rw [hin]
        simp [hspur]
  · intro hk hbi cfa
    simp only [handle_step_stop, hk, hbi, partitionPoint]
    rw [hin]
    simp
  · intro hk cfa
    have hnotinto : ¬(step.internal_kind = StepKind.Into ∧ step.by_instructions = true) := by
      rintro ⟨h1, -⟩
      rw [hk] at h1
      exact StepKind.noConfusion h1
    simp only [handle_step_stop, hk, partitionPoint]
    rw [hin]
    simp [Nat.lt_iff_add_one_le]
  · intro hk cfa
    simp [handle_step_stop, hk]

/-- Sample step state used to instantiate `handle_step_stop_spec`. -/
def c1StepEx : StepState :=
  { tid := 7, keep_other_threads_suspended := false, disable_breakpoints := true,
    internal_kind := StepKind.Over, by_instructions := false,
    addr_ranges := [⟨10, 20⟩, ⟨30, 40⟩], cfa := 100, single_steps := false,
    stack_digest := [] }

/-- Witness for C1: the completion rule evaluated at a concrete Over step. -/
theorem handle_step_stop_spec_witness :
    handle_step_stop c1StepEx false false 25 (some 100) = true := by
  have h := (handle_step_stop_spec c1StepEx false false 25
    (by norm_num [c1StepEx, rangesSorted, List.pairwise_cons])).2.2.2.1 rfl 100
  rw [h]
  decide

/-! ## debugger.rs: trap diagnosis (C2) -/

/-- The observable effects of the trap-diagnosis part of
`Debugger::handle_breakpoint_trap` (debugger.rs:2259-2298): which cause was
diagnosed, the value written back to debug-status register DR6 (if any), the
corrected address, and the value written back to the thread's RIP (if any).
`reassert_debug_registers` records whether `set_debug_registers_for_thread`
was invoked. -/
structure TrapDiag where
  stopped_on_hw_breakpoint : Bool
  reassert_debug_registers : Bool
  dr6_write : Option Nat
  stopped_on_sw_breakpoint : Bool
  addr : Nat
  rip_write : Option Nat
  spurious_stop : Bool
deriving DecidableEq

/-- Trap diagnosis from `Debugger::handle_breakpoint_trap`: `rip` and `dr6` are
the values read from the thread (both 64-bit). -/
def diagnose_trap (single_stepping : Bool) (ignore_next_hw_breakpoint_hit_at_addr : Option Nat)
    (rip dr6 : Nat) : TrapDiag :=
  let addr := rip
  let stopped_on_hw_breakpoint : Bool := decide (dr6 &&& 15 ≠ 0)
  -- on a hardware hit: re-assert debug registers and clear the low 4 status bits
  let dr6_write : Option Nat :=
    if stopped_on_hw_breakpoint then some (dr6 &&& 0xfffffffffffffff0) else none
  let stopped_on_sw_breakpoint : Bool := !single_stepping && !stopped_on_hw_breakpoint
  let addr := if stopped_on_sw_breakpoint then addr - 1 else addr
  let rip_write : Option Nat := if stopped_on_sw_breakpoint then some addr else none
  let spurious_stop : Bool :=
    stopped_on_hw_breakpoint && decide (ignore_next_hw_breakpoint_hit_at_addr = some addr)
  { stopped_on_hw_breakpoint, reassert_debug_registers := stopped_on_hw_breakpoint,
    dr6_write, stopped_on_sw_breakpoint, addr, rip_write, spurious_stop }

theorem land15_ne_zero_iff (n : Nat) : (n &&& 15 ≠ 0) ↔ ∃ i, i < 4 ∧ n.testBit i = true := by
  have h15 : (15 : Nat) = 2 ^ 4 - 1 := by norm_num
  constructor
  · intro h
    by_contra hc
    push_neg at hc
    refine h (Nat.eq_of_testBit_eq fun i => ?_)
    rw [Nat.testBit_and, Nat.zero_testBit, h15, Nat.testBit_two_pow_sub_one]
    by_cases hi : i < 4
    · simp [hc i hi]
    · simp [hi]
  · rintro ⟨i, hi, hbit⟩ h0
    have hb := congrArg (fun x => Nat.testBit x i) h0
    simp only [Nat.testBit_and, Nat.zero_testBit] at hb
    rw [h15, Nat.testBit_two_pow_sub_one] at hb
    simp [hbit, hi] at hb

theorem mask_f0_testBit (i : Nat) :
    (0xfffffffffffffff0 : Nat).testBit i = (decide (4 ≤ i) && decide (i < 64)) := by
  have hmask : (0xfffffffffffffff0 : Nat) = (2 ^ 60 - 1) <<< 4 := by norm_num [Nat.shiftLeft_eq]
  rw [hmask, Nat.testBit_shiftLeft, Nat.testBit_two_pow_sub_one]
  by_cases h4 : 4 ≤ i
  · simp [h4]
    omega
  · simp [h4]

/-- C2: when a thread stops with a SIGTRAP carrying no ptrace event code, the
diagnosis is by elimination — with `single_stepping` set the stop is the
expected step trap (not a software trap, no RIP correction); otherwise, if any
of bits 0..3 of DR6 is set, a hardware breakpoint fired, those bits are cleared
(other bits preserved) and the thread's debug registers are re-asserted; only
otherwise is the stop treated as a software trap, and in exactly that case the
instruction pointer is decremented by one and written back. -/
theorem diagnose_trap_spec (ss : Bool) (ign : Option Nat) (rip dr6 : Nat)
    (h64 : dr6 < 2 ^ 64) :
    ((diagnose_trap ss ign rip dr6).stopped_on_sw_breakpoint = true
        ↔ (ss = false ∧ ¬∃ i, i < 4 ∧ dr6.testBit i = true)) ∧
    (ss = true →
        (diagnose_trap ss ign rip dr6).stopped_on_sw_breakpoint = false ∧
        (diagnose_trap ss ign rip dr6).rip_write = none ∧
        (diagnose_trap ss ign rip dr6).addr = rip) ∧
    ((∃ i, i < 4 ∧ dr6.testBit i = true) →
        (diagnose_trap ss ign rip dr6).stopped_on_hw_breakpoint = true ∧
        (diagnose_trap ss ign rip dr6).reassert_debug_registers = true ∧
        ∃ w, (diagnose_trap ss ign rip dr6).dr6_write = some w ∧
          (∀ i, i < 4 → w.testBit i = false) ∧
          (∀ i, 4 ≤ i → w.testBit i = dr6.testBit i)) ∧
    (ss = false → ¬(∃ i, i < 4 ∧ dr6.testBit i = true) →
        (diagnose_trap ss ign rip dr6).stopped_on_sw_breakpoint = true ∧
        (diagnose_trap ss ign rip dr6).addr = rip - 1 ∧
        (diagnose_trap ss ign rip dr6).rip_write = some (rip - 1)) ∧
    (∀ v, (diagnose_trap ss ign rip dr6).rip_write = some v →
        (diagnose_trap ss ign rip dr6).stopped_on_sw_breakpoint = true ∧ v = rip - 1) := by
  refine ⟨?_, ?_, ?_, ?_, ?_⟩
  · simp only [diagnose_trap, Bool.and_eq_true, Bool.not_eq_true']
    rw [decide_eq_false_iff_not, land15_ne_zero_iff]
  · intro hss
    simp [diagnose_trap, hss]
  · intro hex
    have hb : decide (dr6 &&& 15 ≠ 0) = true :=
      decide_eq_true ((land15_ne_zero_iff dr6).mpr hex)
    have hbits : ∀ i, i < 4 → (dr6 &&& 0xfffffffffffffff0).testBit i = false := by
      intro i hi
      rw [Nat.testBit_and, mask_f0_testBit]
      simp [show ¬(4 ≤ i) by omega]
    have hkeep : ∀ i, 4 ≤ i → (dr6 &&& 0xfffffffffffffff0).testBit i = dr6.testBit i := by
      intro i hi
      rw [Nat.testBit_and, mask_f0_testBit]
      by_cases h64i : i < 64
      · simp [hi, h64i]
      · have hz : dr6.testBit i = false := by
          refine Nat.testBit_lt_two_pow (lt_of_lt_of_le h64 ?_)
          exact Nat.pow_le_pow_right (by norm_num) (by omega)
        simp [hz]
    refine ⟨?_, ?_, ?_⟩
    · simp [diagnose_trap, hb]
    · simp [diagnose_trap, hb]
    · refine ⟨dr6 &&& 0xfffffffffffffff0, ?_, hbits, hkeep⟩
      simp [diagnose_trap, hb]
  · intro hss hnex
    have hb : decide (dr6 &&& 15 ≠ 0) = false :=
      decide_eq_false (fun h => hnex ((land15_ne_zero_iff dr6).mp h))
    simp [diagnose_trap, hss, hb]
  · intro v
    cases hb : (!ss && !decide (dr6 &&& 15 ≠ 0)) with
    | false =>
      intro hv
      simp only [diagnose_trap, hb] at hv
      simp at hv
    | true =>
      intro hv
      simp only [diagnose_trap, hb] at hv ⊢
      simp at hv
      exact ⟨trivial, hv.symm⟩

/-- Witness for C2: a software-trap diagnosis at RIP `0x400601`, DR6 clear. -/
theorem diagnose_trap_spec_witness :
    (diagnose_trap false none 0x400601 0).stopped_on_sw_breakpoint = true ∧
    (diagnose_trap false none 0x400601 0).rip_write = some 0x400600 := by
  have h := (diagnose_trap_spec false none 0x400601 0 (by norm_num)).2.2.2.1 rfl
    (by rintro ⟨i, -, hbit⟩; simp [Nat.zero_testBit] at hbit)
  exact ⟨h.1, by rw [h.2.2]⟩

/-- C10: `SearchQuery::parse` sets `case_sensitive` iff the query contains an
ASCII uppercase character, so an all-lowercase query is matched
case-insensitively (smart case). -/
theorem searchQuery_parse_smart_case (s : List Nat) :
    (SearchQuery.parse s).case_sensitive = true ↔ ∃ b ∈ s, 65 ≤ b ∧ b ≤ 90 := by
  simp [SearchQuery.parse, isAsciiUppercase, List.any_eq_true]

/-! ## debugger.rs: breakpoint manager (C3) -/

/-- `StepBreakpointType` (debugger.rs). -/
inductive StepBreakpointType
  | Call
  | JumpOut
  | AfterRet
  | AfterRange
  | Catch
  | Cursor (subfunction_level : Nat)
deriving DecidableEq

/-- `BreakpointRef` (debugger.rs): a reference from a location to either a
temporary step marker or a user breakpoint id with inline depth. -/
inductive BreakpointRef
  | Step (t : StepBreakpointType)
  | Id (id : Nat) (subfunction_level : Nat)
deriving DecidableEq

/-- `BreakpointLocation` (debugger.rs). -/
structure BreakpointLocation where
  addr : Nat
  original_byte : Nat
  hardware : Bool
  active : Bool
  breakpoints : List BreakpointRef
  error : Option String
deriving DecidableEq

/-- `HardwareBreakpoint` (debugger.rs): one of the four debug-register slots. -/
structure HardwareBreakpoint where
  active : Bool
  thread_specific : Option Nat
  addr : Nat
deriving DecidableEq

/-- The per-thread state consumed by the breakpoint manager: thread id, the
cached instruction pointer (`none` when `regs.has(Rip)` is false), and the
spurious-hit hint slot. -/
structure ThreadM where
  tid : Nat
  rip : Option Nat
  ignore_next_hw_breakpoint_hit_at_addr : Option Nat
deriving DecidableEq

/-- The debugger state the breakpoint manager reads and writes. -/
structure BPState where
  breakpoint_locations : List BreakpointLocation
  threads : List ThreadM
  hardware_breakpoints : List HardwareBreakpoint
  stepping : Option StepState

/-- The `thread_addresses` map of `handle_breakpoints` (a `HashMap` insert per
thread with a known RIP, later inserts overriding), read back at a given
address.  The source iterates a `HashMap` of threads in unspecified order;
the model fixes the list order. -/
def threadAtAddr (threads : List ThreadM) (a : Nat) : Option Nat :=
  threads.foldl
    (fun acc t =>
      match t.rip with
      | some r => if r = a then some t.tid else acc
      | none => acc)
    none

/-- `Debugger::deactivate_breakpoint_location` (debugger.rs:2039).  The
software-path text write restores the original byte in the tracee (a kernel
side effect outside the model state); the hardware path frees matching
debug-register slots. -/
def deactivate_loc (loc : BreakpointLocation) (slots : List HardwareBreakpoint) :
    BreakpointLocation × List HardwareBreakpoint :=
  if loc.active = false then (loc, slots)
  else if loc.hardware then
    ({loc with active := false},
      slots.map fun h =>
        if h.addr = loc.addr then {h with active := false, addr := 0} else h)
  else
    ({loc with active := false}, slots)

/-- `Debugger::activate_breakpoint_location` (debugger.rs:2000).  `mem` models
the byte of tracee memory at an address (the source reads the containing
8-byte word and extracts the byte); writing the trap word and pushing debug
registers to threads are kernel side effects outside the model state. -/
def activate_loc (mem : Nat → Nat) (stepping : Option StepState)
    (loc : BreakpointLocation) (slots : List HardwareBreakpoint) :
    Except String (BreakpointLocation × List HardwareBreakpoint) :=
  if loc.active then Except.ok (loc, slots)
  else if loc.hardware then
    match slots.findIdx? (fun b => !b.active) with
    | none => Except.error "out of hw breakpoints"
    | some hw_idx =>
      let all_threads := loc.breakpoints.any fun b =>
        match b with
        | BreakpointRef.Step _ => false
        | BreakpointRef.Id _ _ => true
      let thread_specific : Option Nat :=
        match stepping with
        | some s => if all_threads then none else some s.tid
        | none => none
      Except.ok ({loc with active := true},
        slots.set hw_idx ⟨true, thread_specific, loc.addr⟩)
  else
    Except.ok ({loc with original_byte := mem loc.addr, active := true}, slots)

/-- Set a thread's spurious-hit hint (`ignore_next_hw_breakpoint_hit_at_addr`),
keyed by thread id. -/
def setIgnore (threads : List ThreadM) (tid addrV : Nat) : List ThreadM :=
  threads.map fun t =>
    if t.tid = tid then {t with ignore_next_hw_breakpoint_hit_at_addr := some addrV} else t

/-- Phase 1 of `handle_breakpoints` (debugger.rs:2086-2096): deactivate and
drop locations whose refs became empty (the swap compaction of the source is
a stable filter). -/
def dropEmptyStep (acc : List BreakpointLocation × List HardwareBreakpoint)
    (loc : BreakpointLocation) : List BreakpointLocation × List HardwareBreakpoint :=
  if loc.breakpoints.isEmpty then
    (acc.1, (deactivate_loc loc acc.2).2)
  else
    (acc.1 ++ [loc], acc.2)

/-- Phase 2 of `handle_breakpoints` (debugger.rs:2109-2115): demote hardware
locations no thread is standing on. -/
def demoteStep (taddr : Nat → Option Nat)
    (acc : List BreakpointLocation × List HardwareBreakpoint)
    (loc : BreakpointLocation) : List BreakpointLocation × List HardwareBreakpoint :=
  if loc.hardware = true ∧ taddr loc.addr = none then
    let d := deactivate_loc loc acc.2
    (acc.1 ++ [{d.1 with hardware := false}], d.2)
  else
    (acc.1 ++ [loc], acc.2)

/-- Phase 3 of `handle_breakpoints` (debugger.rs:2116-2125): promote locations
some thread stands on, setting that thread's spurious-hit hint. -/
def promoteStep (taddr : Nat → Option Nat)
    (acc : List BreakpointLocation × List HardwareBreakpoint × List ThreadM)
    (loc : BreakpointLocation) :
    List BreakpointLocation × List HardwareBreakpoint × List ThreadM :=
  match taddr loc.addr with
  | some tid =>
    if loc.hardware = false then
      let d := deactivate_loc loc acc.2.1
      (acc.1 ++ [{d.1 with hardware := true}], d.2, setIgnore acc.2.2 tid loc.addr)
    else
      (acc.1 ++ [loc], acc.2.1, acc.2.2)
  | none => (acc.1 ++ [loc], acc.2.1, acc.2.2)

/-- Phase 4 of `handle_breakpoints` (debugger.rs:2127-2140): try to activate
every location, recording the error (if any) on the location. -/
def activateStep (mem : Nat → Nat) (stepping : Option StepState)
    (acc : List BreakpointLocation × List HardwareBreakpoint)
    (loc : BreakpointLocation) : List BreakpointLocation × List HardwareBreakpoint :=
  match activate_loc mem stepping loc acc.2 with
  | Except.ok d => (acc.1 ++ [{d.1 with error := none}], d.2)
  | Except.error e => (acc.1 ++ [{loc with error := some e}], acc.2)

/-- `Debugger::handle_breakpoints` (debugger.rs:2085); runs only with all
threads suspended. -/
def handle_breakpoints (mem : Nat → Nat) (st : BPState) : BPState :=
  let p1 := st.breakpoint_locations.foldl dropEmptyStep ([], st.hardware_breakpoints)
  let taddr := threadAtAddr st.threads
  let p2 := p1.1.foldl (demoteStep taddr) ([], p1.2)
  let p3 := p2.1.foldl (promoteStep taddr) ([], p2.2, st.threads)
  let p4 := p3.1.foldl (activateStep mem st.stepping) ([], p3.2.1)
  { st with
    breakpoint_locations := p4.1
    hardware_breakpoints := p4.2
    threads := p3.2.2 }

/-- The location part of a deactivation does not depend on the slots. -/
def deactivateLocOnly (loc : BreakpointLocation) : BreakpointLocation :=
  if loc.active = false then loc else {loc with active := false}

theorem deactivate_loc_fst (loc : BreakpointLocation) (slots : List HardwareBreakpoint) :
    (deactivate_loc loc slots).1 = deactivateLocOnly loc := by
  rw [deactivate_loc, deactivateLocOnly]
  split_ifs <;> rfl

/-- Per-location effect of the demote phase. -/
def demoteLocFn (taddr : Nat → Option Nat) (loc : BreakpointLocation) : BreakpointLocation :=
  if loc.hardware = true ∧ taddr loc.addr = none then
    {deactivateLocOnly loc with hardware := false}
  else loc

/-- Per-location effect of the promote phase. -/
def promoteLocFn (taddr : Nat → Option Nat) (loc : BreakpointLocation) : BreakpointLocation :=
  match taddr loc.addr with
  | some _ =>
    if loc.hardware = false then {deactivateLocOnly loc with hardware := true} else loc
  | none => loc

theorem dropEmpty_fst (locs : List BreakpointLocation) :
    ∀ (acc : List BreakpointLocation) (slots : List HardwareBreakpoint),
    (locs.foldl dropEmptyStep (acc, slots)).1
      = acc ++ locs.filter (fun loc => !loc.breakpoints.isEmpty) := by
  induction locs with
  | nil => intro acc slots; simp
  | cons loc locs ih =>
    intro acc slots
    by_cases h : loc.breakpoints.isEmpty
    · simp only [List.foldl_cons, dropEmptyStep, h, if_true, List.filter_cons,
        Bool.not_true, ih]
      simp [h]
    · have h' : loc.breakpoints.isEmpty = false := by
        cases hb : loc.breakpoints.isEmpty
        · rfl
        · exact absurd hb h
      simp only [List.foldl_cons, dropEmptyStep, h', Bool.false_eq_true, if_false,
        List.filter_cons, Bool.not_false, ih]
      simp [h']

theorem demote_fst (taddr : Nat → Option Nat) (locs : List BreakpointLocation) :
    ∀ (acc : List BreakpointLocation) (slots : List HardwareBreakpoint),
    (locs.foldl (demoteStep taddr) (acc, slots)).1 = acc ++ locs.map (demoteLocFn taddr) := by
  induction locs with
  | nil => intro acc slots; simp
  | cons loc locs ih =>
    intro acc slots
    by_cases h : loc.hardware = true ∧ taddr loc.addr = none
    · simp only [List.foldl_cons, demoteStep, h, if_true, List.map_cons, demoteLocFn, ih,
        deactivate_loc_fst]
      simp
    · simp only [List.foldl_cons, demoteStep, h, if_false, List.map_cons, demoteLocFn, ih]
      simp

theorem promote_fst (taddr : Nat → Option Nat) (locs : List BreakpointLocation) :
    ∀ (acc : List BreakpointLocation) (slots : List HardwareBreakpoint)
      (threads : List ThreadM),
    (locs.foldl (promoteStep taddr) (acc, slots, threads)).1
      = acc ++ locs.map (promoteLocFn taddr) := by
  induction locs with
  | nil => intro acc slots threads; simp
  | cons loc locs ih =>
    intro acc slots threads
    rcases ht : taddr loc.addr with _ | tid
    · simp only [List.foldl_cons, promoteStep, ht, List.map_cons, promoteLocFn, ih]
      simp
    · by_cases h : loc.hardware = false
      · simp only [List.foldl_cons, promoteStep, ht, h, if_true, List.map_cons, promoteLocFn,
          ih, deactivate_loc_fst]
        simp
      · simp only [List.foldl_cons, promoteStep, ht, h, if_false, List.map_cons, promoteLocFn,
          ih]
        simp

theorem activate_mem (mem : Nat → Nat) (stepping : Option StepState)
    (locs : List BreakpointLocation) :
    ∀ (acc : List BreakpointLocation) (slots : List HardwareBreakpoint),
    ∀ y ∈ (locs.foldl (activateStep mem stepping) (acc, slots)).1,
      y ∈ acc ∨ ∃ x ∈ locs, y.addr = x.addr ∧ y.hardware = x.hardware := by
  induction locs with
  | nil =>
    intro acc slots y hy
    simp at hy
    exact Or.inl hy
  | cons loc locs ih =>
    intro acc slots y hy
    rw [List.foldl_cons] at hy
    rcases hact : activate_loc mem stepping loc slots with e | d
    · rw [activateStep, hact] at hy
      rcases ih _ _ y hy with hy | ⟨x, hx, hxa, hxh⟩
      · rcases List.mem_append.mp hy with hy | hy
        · exact Or.inl hy
        · simp at hy
          subst hy
          exact Or.inr ⟨loc, List.mem_cons_self _ _, rfl, rfl⟩
      · exact Or.inr ⟨x, List.mem_cons_of_mem _ hx, hxa, hxh⟩
    · rw [activateStep, hact] at hy
      have hd : d.1.addr = loc.addr ∧ d.1.hardware = loc.hardware := by
        rw [activate_loc] at hact
        split_ifs at hact with h1 h2
        · injection hact with hact
          subst hact
          exact ⟨rfl, rfl⟩
        · rcases hidx : List.findIdx? (fun b => !b.active) slots with _ | i
          · rw [hidx] at hact
            exact absurd hact (by simp)
          · rw [hidx] at hact
            simp only [] at hact
            injection hact with hact
            subst hact
            exact ⟨rfl, rfl⟩
        · injection hact with hact
          subst hact
          exact ⟨rfl, rfl⟩
      rcases ih _ _ y hy with hy | ⟨x, hx, hxa, hxh⟩
      · rcases List.mem_append.mp hy with hy | hy
        · exact Or.inl hy
        · simp at hy
          subst hy
          exact Or.inr ⟨loc, List.mem_cons_self _ _, hd.1, hd.2⟩
      · exact Or.inr ⟨x, List.mem_cons_of_mem _ hx, hxa, hxh⟩

theorem threadAtAddr_isSome_of_acc (a : Nat) (threads : List ThreadM) :
    ∀ (acc : Option Nat), acc.isSome = true →
    (threads.foldl
      (fun acc t =>
        match t.rip with
        | some r => if r = a then some t.tid else acc
        | none => acc)
      acc).isSome = true := by
  induction threads with
  | nil => intro acc h; simpa using h
  | cons t ts ih =>
    intro acc h
    rw [List.foldl_cons]
    rcases hr : t.rip with _ | r
    · exact ih acc h
    · by_cases he : r = a
      · exact ih _ (by simp [he])
      · simp only [he, if_false]
        exact ih acc h

theorem threadAtAddr_mem (a : Nat) (threads : List ThreadM) :
    ∀ (acc : Option Nat) (tid : Nat),
    (threads.foldl
      (fun acc t =>
        match t.rip with
        | some r => if r = a then some t.tid else acc
        | none => acc)
      acc) = some tid →
    (∃ th ∈ threads, th.tid = tid ∧ th.rip = some a) ∨ acc = some tid := by
  induction threads with
  | nil => intro acc tid h; exact Or.inr (by simpa using h)
  | cons t ts ih =>
    intro acc tid h
    rw [List.foldl_cons] at h
    rcases hr : t.rip with _ | r
    · rw [hr] at h
      rcases ih acc tid h with ⟨th, hm, h1, h2⟩ | h0
      · exact Or.inl ⟨th, List.mem_cons_of_mem _ hm, h1, h2⟩
      · exact Or.inr h0
    · rw [hr] at h
      by_cases he : r = a
      · simp only [he, if_true] at h
        rcases ih _ tid h with ⟨th, hm, h1, h2⟩ | h0
        · exact Or.inl ⟨th, List.mem_cons_of_mem _ hm, h1, h2⟩
        · injection h0 with h0
          exact Or.inl ⟨t, List.mem_cons_self _ _, h0, by rw [hr, he]⟩
      · simp only [he, if_false] at h
        rcases ih acc tid h with ⟨th, hm, h1, h2⟩ | h0
        · exact Or.inl ⟨th, List.mem_cons_of_mem _ hm, h1, h2⟩
        · exact Or.inr h0

theorem threadAtAddr_isSome_of_mem (a : Nat) (threads : List ThreadM) :
    ∀ (acc : Option Nat), (∃ th ∈ threads, th.rip = some a) →
    (threads.foldl
      (fun acc t =>
        match t.rip with
        | some r => if r = a then some t.tid else acc
        | none => acc)
      acc).isSome = true := by
  induction threads with
  | nil =>
    rintro acc ⟨th, hm, -⟩
    exact absurd hm (List.not_mem_nil th)
  | cons t ts ih =>
    rintro acc ⟨th, hm, hr⟩
    rw [List.foldl_cons]
    rcases List.mem_cons.mp hm with hm0 | hm0
    · subst hm0
      rw [hr]
      simp only [if_pos rfl]
      exact threadAtAddr_isSome_of_acc a ts _ (by simp)
    · exact ih _ ⟨th, hm0, hr⟩

/-- If some thread stands at `a`, `threadAtAddr` yields the id of a thread
standing at `a`. -/
theorem threadAtAddr_exists (threads : List ThreadM) (a : Nat)
    (h : ∃ th ∈ threads, th.rip = some a) :
    ∃ tid, threadAtAddr threads a = some tid ∧
      ∃ th ∈ threads, th.tid = tid ∧ th.rip = some a := by
  have hsome : (threadAtAddr threads a).isSome = true :=
    threadAtAddr_isSome_of_mem a threads none h
  obtain ⟨tid, htid⟩ := Option.isSome_iff_exists.mp hsome
  refine ⟨tid, htid, ?_⟩
  rcases threadAtAddr_mem a threads none tid htid with hth | h0
  · exact hth
  · exact absurd h0 (by simp)

/-- `threadAtAddr` only yields ids of threads standing at the address. -/
theorem threadAtAddr_sound (threads : List ThreadM) (a tid : Nat)
    (h : threadAtAddr threads a = some tid) :
    ∃ th ∈ threads, th.tid = tid ∧ th.rip = some a := by
  rcases threadAtAddr_mem a threads none tid h with hth | h0
  · exact hth
  · exact absurd h0 (by simp)

theorem threadAtAddr_isSome_iff (threads : List ThreadM) (a : Nat) :
    (threadAtAddr threads a).isSome = true ↔ ∃ t ∈ threads, t.rip = some a := by
  constructor
  · intro h
    obtain ⟨tid, htid⟩ := Option.isSome_iff_exists.mp h
    obtain ⟨th, hm, -, hr⟩ := threadAtAddr_sound threads a tid htid
    exact ⟨th, hm, hr⟩
  · intro h
    exact threadAtAddr_isSome_of_mem a threads none h

theorem nodup_map_inj {α β : Type} (f : α → β) (l : List α)
    (h : (l.map f).Nodup) : ∀ a ∈ l, ∀ b ∈ l, f a = f b → a = b := by
  induction l with
  | nil => intro a ha; exact absurd ha (List.not_mem_nil a)
  | cons x xs ih =>
    rw [List.map_cons, List.nodup_cons] at h
    obtain ⟨hx, hxs⟩ := h
    intro a ha b hb hf
    rcases List.mem_cons.mp ha with ha0 | ha0 <;> rcases List.mem_cons.mp hb with hb0 | hb0
    · rw [ha0, hb0]
    · subst ha0
      exact absurd (hf ▸ List.mem_map_of_mem f hb0) hx
    · subst hb0
      exact absurd (hf ▸ List.mem_map_of_mem f ha0) hx
    · exact ih hxs a ha0 b hb0 hf

theorem deactivateLocOnly_fields (loc : BreakpointLocation) :
    (deactivateLocOnly loc).addr = loc.addr ∧ (deactivateLocOnly loc).hardware = loc.hardware := by
  rw [deactivateLocOnly]
  split_ifs <;> exact ⟨rfl, rfl⟩

/-- Composite per-location effect of the demote and promote phases on the
`hardware` flag and the address. -/
theorem promote_demote_hardware (taddr : Nat → Option Nat) (loc : BreakpointLocation) :
    (promoteLocFn taddr (demoteLocFn taddr loc)).hardware = (taddr loc.addr).isSome ∧
    (promoteLocFn taddr (demoteLocFn taddr loc)).addr = loc.addr := by
  rw [demoteLocFn]
  by_cases hd : loc.hardware = true ∧ taddr loc.addr = none
  · rw [if_pos hd, promoteLocFn]
    have ha : ({deactivateLocOnly loc with hardware := false} : BreakpointLocation).addr
        = loc.addr := (deactivateLocOnly_fields loc).1
    rw [ha, hd.2]
    exact ⟨rfl, ha⟩
  · rw [if_neg hd, promoteLocFn]
    rcases ht : taddr loc.addr with _ | tid
    · have hhw : loc.hardware = false := by
        cases hv : loc.hardware
        · rfl
        · exact absurd ⟨hv, ht⟩ hd
      simp [hhw]
    · by_cases hhw : loc.hardware = false
      · rw [if_pos hhw]
        exact ⟨rfl, (deactivateLocOnly_fields loc).1⟩
      · rw [if_neg hhw]
        have : loc.hardware = true := by
          cases hv : loc.hardware
          · exact absurd hv hhw
          · rfl
        simp [this, ht]

theorem setIgnore_mem (threads : List ThreadM) (tid aV : Nat) {u : ThreadM}
    (hu : u ∈ threads) :
    ∃ v ∈ setIgnore threads tid aV, v.tid = u.tid ∧
      v.ignore_next_hw_breakpoint_hit_at_addr
        = (if u.tid = tid then some aV else u.ignore_next_hw_breakpoint_hit_at_addr) := by
  by_cases h : u.tid = tid
  · refine ⟨{u with ignore_next_hw_breakpoint_hit_at_addr := some aV}, ?_, rfl, by rw [if_pos h]⟩
    rw [setIgnore]
    have he : (fun t => if t.tid = tid
          then ({t with ignore_next_hw_breakpoint_hit_at_addr := some aV} : ThreadM) else t) u
        = {u with ignore_next_hw_breakpoint_hit_at_addr := some aV} := by
      simp only [if_pos h]
    rw [← he]
    exact List.mem_map_of_mem _ hu
  · refine ⟨u, ?_, rfl, by rw [if_neg h]⟩
    rw [setIgnore]
    have he : (fun t => if t.tid = tid
          then ({t with ignore_next_hw_breakpoint_hit_at_addr := some aV} : ThreadM) else t) u
        = u := by
      simp only [if_neg h]
    rw [← he]
    exact List.mem_map_of_mem _ hu

theorem promote_threads_sets (taddr : Nat → Option Nat) (locs : List BreakpointLocation) :
    ∀ (accL : List BreakpointLocation) (slots : List HardwareBreakpoint)
      (threads : List ThreadM) (tidS addrS : Nat),
    (∀ loc ∈ locs, loc.hardware = false → taddr loc.addr = some tidS → loc.addr = addrS) →
    ((∃ u ∈ threads, u.tid = tidS ∧ u.ignore_next_hw_breakpoint_hit_at_addr = some addrS) ∨
      ((∃ loc ∈ locs, loc.hardware = false ∧ taddr loc.addr = some tidS ∧ loc.addr = addrS) ∧
        (∃ u ∈ threads, u.tid = tidS))) →
    ∃ u ∈ (locs.foldl (promoteStep taddr) (accL, slots, threads)).2.2,
      u.tid = tidS ∧ u.ignore_next_hw_breakpoint_hit_at_addr = some addrS := by
  induction locs with
  | nil =>
    intro accL slots threads tidS addrS hconf hdisj
    rcases hdisj with h | ⟨⟨loc, hm, -⟩, -⟩
    · simpa using h
    · exact absurd hm (List.not_mem_nil loc)
  | cons loc locs ih =>
    intro accL slots threads tidS addrS hconf hdisj
    rw [List.foldl_cons]
    rcases ht : taddr loc.addr with _ | tid
    · simp only [promoteStep, ht]
      refine ih _ _ _ _ _ (fun l hl => hconf l (List.mem_cons_of_mem _ hl)) ?_
      rcases hdisj with h | ⟨⟨loc0, hm0, hh0, hta0, ha0⟩, hu⟩
      · exact Or.inl h
      · rcases List.mem_cons.mp hm0 with h0 | h0
        · subst h0
          rw [ht] at hta0
          exact absurd hta0 (by simp)
        · exact Or.inr ⟨⟨loc0, h0, hh0, hta0, ha0⟩, hu⟩
    · by_cases hw : loc.hardware = false
      · simp only [promoteStep, ht]
        rw [if_pos hw]
        refine ih _ _ _ _ _ (fun l hl => hconf l (List.mem_cons_of_mem _ hl)) ?_
        rcases hdisj with ⟨u, hu, hut, hui⟩ | ⟨⟨loc0, hm0, hh0, hta0, ha0⟩, ⟨u, hu, hut⟩⟩
        · left
          obtain ⟨v, hv, hvt, hvi⟩ := setIgnore_mem threads tid loc.addr hu
          refine ⟨v, hv, by rw [hvt, hut], ?_⟩
          by_cases hut2 : u.tid = tid
          · have htid : tid = tidS := by rw [← hut2, hut]
            have haddr : loc.addr = addrS :=
              hconf loc (List.mem_cons_self _ _) hw (by rw [ht, htid])
            rw [if_pos hut2] at hvi
            rw [hvi, haddr]
          · rw [if_neg hut2] at hvi
            rw [hvi, hui]
        · by_cases h0 : loc0 = loc
          · subst h0
            rw [ht] at hta0
            injection hta0 with hta0
            left
            obtain ⟨v, hv, hvt, hvi⟩ := setIgnore_mem threads tid loc0.addr hu
            have hut2 : u.tid = tid := by rw [hut, hta0]
            rw [if_pos hut2] at hvi
            exact ⟨v, hv, by rw [hvt, hut], by rw [hvi, ha0]⟩
          · right
            have hm0' : loc0 ∈ locs := by
              rcases List.mem_cons.mp hm0 with h | h
              · exact absurd h h0
              · exact h
            obtain ⟨v, hv, hvt, -⟩ := setIgnore_mem threads tid loc.addr hu
            exact ⟨⟨loc0, hm0', hh0, hta0, ha0⟩, ⟨v, hv, by rw [hvt, hut]⟩⟩
      · simp only [promoteStep, ht]
        rw [if_neg hw]
        refine ih _ _ _ _ _ (fun l hl => hconf l (List.mem_cons_of_mem _ hl)) ?_
        rcases hdisj with h | ⟨⟨loc0, hm0, hh0, hta0, ha0⟩, hu⟩
        · exact Or.inl h
        · rcases List.mem_cons.mp hm0 with h0 | h0
          · subst h0
            exact absurd hh0 hw
          · exact Or.inr ⟨⟨loc0, h0, hh0, hta0, ha0⟩, hu⟩

/-- C3: postcondition of `handle_breakpoints` (which runs only when all
threads are suspended) — every surviving breakpoint location ends up hardware
iff its address equals some thread's instruction pointer (promotion and
demotion), and when a software location at a thread's instruction pointer is
converted to hardware, that thread's `ignore_next_hw_breakpoint_hit_at_addr`
slot is set to that address. -/
theorem handle_breakpoints_post (mem : Nat → Nat) (st : BPState)
    (hTid : (st.threads.map (fun t => t.tid)).Nodup)
    (hRip : ∀ t1 ∈ st.threads, ∀ t2 ∈ st.threads,
        t1.rip.isSome = true → t1.rip = t2.rip → t1 = t2) :
    (∀ loc ∈ (handle_breakpoints mem st).breakpoint_locations,
       (loc.hardware = true ↔ ∃ t ∈ st.threads, t.rip = some loc.addr)) ∧
    (∀ loc ∈ st.breakpoint_locations, loc.breakpoints ≠ [] → loc.hardware = false →
       ∀ t ∈ st.threads, t.rip = some loc.addr →
       ∃ u ∈ (handle_breakpoints mem st).threads,
         u.tid = t.tid ∧ u.ignore_next_hw_breakpoint_hit_at_addr = some loc.addr) := by
  constructor
  · intro loc hloc
    simp only [handle_breakpoints] at hloc
    rw [dropEmpty_fst, List.nil_append, demote_fst, List.nil_append, promote_fst,
      List.nil_append, List.map_map] at hloc
    rcases activate_mem mem st.stepping _ _ _ loc hloc with h0 | ⟨x, hx, hxa, hxh⟩
    · exact absurd h0 (List.not_mem_nil loc)
    · obtain ⟨loc0, hm0, hval⟩ := List.mem_map.mp hx
      have hc := promote_demote_hardware (threadAtAddr st.threads) loc0
      rw [Function.comp_apply] at hval
      rw [hval] at hc
      rw [hxh, hc.1, hxa, hc.2]
      exact threadAtAddr_isSome_iff st.threads loc0.addr
  · intro loc hloc hrefs hhw t ht htr
    have hex : ∃ th ∈ st.threads, th.rip = some loc.addr := ⟨t, ht, htr⟩
    obtain ⟨tid, htaddr, th', hm', htid', hrip'⟩ := threadAtAddr_exists st.threads loc.addr hex
    have hth : th' = t := by
      refine hRip th' hm' t ht (by rw [hrip']; rfl) ?_
      rw [hrip', htr]
    have htaddr' : threadAtAddr st.threads loc.addr = some t.tid := by
      rw [htaddr, ← htid', hth]
    simp only [handle_breakpoints]
    rw [dropEmpty_fst, List.nil_append, demote_fst, List.nil_append]
    apply promote_threads_sets (threadAtAddr st.threads) _ _ _ _ t.tid loc.addr
    · intro l hl hlw hlt
      obtain ⟨t0, hm0, ht0tid, ht0rip⟩ := threadAtAddr_sound st.threads l.addr t.tid hlt
      have ht0 : t0 = t := nodup_map_inj (fun t => t.tid) st.threads hTid t0 hm0 t ht ht0tid
      rw [ht0] at ht0rip
      rw [ht0rip] at htr
      injection htr
    · right
      constructor
      · refine ⟨demoteLocFn (threadAtAddr st.threads) loc, List.mem_map_of_mem _ ?_, ?_⟩
        · rw [List.mem_filter]
          refine ⟨hloc, ?_⟩
          cases hb : loc.breakpoints.isEmpty
          · rfl
          · exact absurd (List.isEmpty_iff.mp hb) hrefs
        · have hd : demoteLocFn (threadAtAddr st.threads) loc = loc := by
            rw [demoteLocFn, if_neg]
            rintro ⟨h1, -⟩
            rw [hhw] at h1
            exact Bool.noConfusion h1
          rw [hd]
          exact ⟨hhw, htaddr', rfl⟩
      · exact ⟨t, ht, rfl⟩

/-- Concrete state for the C3 witness: one thread standing at `100`, a
software location at `100` and a hardware location at `200`. -/
def c3St : BPState :=
  { breakpoint_locations :=
      [⟨100, 0, false, true, [BreakpointRef.Id 5 0], none⟩,
       ⟨200, 0, true, true, [BreakpointRef.Id 6 0], none⟩]
    threads := [⟨1, some 100, none⟩]
    hardware_breakpoints :=
      [⟨true, none, 200⟩, ⟨false, none, 0⟩, ⟨false, none, 0⟩, ⟨false, none, 0⟩]
    stepping := none }

/-- Witness for C3: the thread standing on the software breakpoint at `100`
gets its spurious-hit hint set to `100`. -/
theorem handle_breakpoints_post_witness :
    ∃ u ∈ (handle_breakpoints (fun _ => 144) c3St).threads,
      u.tid = 1 ∧ u.ignore_next_hw_breakpoint_hit_at_addr = some 100 := by
  have h := (handle_breakpoints_post (fun _ => 144) c3St (by decide) (by decide)).2
    ⟨100, 0, false, true, [BreakpointRef.Id 5 0], none⟩ (by decide) (by decide) rfl
    ⟨1, some 100, none⟩ (by decide) rfl
  exact h

/-! ## debugger.rs: user breakpoints and the trap path (C4, C7) -/

/-- `ProcessState` (debugger.rs). -/
inductive ProcessState
  | NoProcess
  | Starting
  | Exiting
  | Running
  | Suspended
  | Stepping
deriving DecidableEq

/-- `StopReason` (debugger.rs). -/
inductive StopReason
  | Breakpoint (id : Nat)
  | Step
  | Signal (sig : Nat)
  | Exception
deriving DecidableEq

/-- Modelled from the spec: `FileVersionInfo` is defined outside `src/`
(util.rs); the spec only calls it the file "version" persisted with a line
breakpoint, so it is modelled as one numeric version serialized as a usize. -/
structure FileVersionInfo where
  version : Nat
deriving DecidableEq

/-- Modelled from the spec: `FunctionLocator` is defined outside `src/`
(symbols.rs); per the spec a function anchor is "mangled name + last-known
static address", serialized as such. -/
structure FunctionLocator where
  mangled_name : List Nat
  addr : Nat
deriving DecidableEq

/-- Modelled from the spec: `PointOfInterest` is defined outside `src/`; per
the spec it is a named pre-resolved address, persisted by name. -/
structure PointOfInterest where
  name : List Nat
deriving DecidableEq

/-- `LineBreakpoint` (debugger.rs). Paths and strings are byte lists. -/
structure LineBreakpoint where
  path : List Nat
  file_version : FileVersionInfo
  line : Nat
  adjusted_line : Option Nat
deriving DecidableEq

/-- `AddressBreakpoint` (debugger.rs). -/
structure AddressBreakpoint where
  function : Option (FunctionLocator × Nat)
  addr : Nat
  subfunction_level : Nat
deriving DecidableEq

/-- `BreakpointOn` (debugger.rs). -/
inductive BreakpointOn
  | Line (b : LineBreakpoint)
  | Address (b : AddressBreakpoint)
  | InitialExec
  | PointOfInterest (p : PointOfInterest)
deriving DecidableEq

/-- The condition triple of a breakpoint: source text, whether
`parse_watch_expression` succeeded, and the last evaluation error. -/
structure CondState where
  src : List Nat
  parse_ok : Bool
  last_error : Option String
deriving DecidableEq

/-- `Breakpoint` (debugger.rs).  The resolved-addresses cache (`addrs`) is not
consumed by the paths modelled here.  The trigger field is named `on` in the
source (`on` is a Lean keyword, hence `on'`). -/
structure Breakpoint where
  on' : BreakpointOn
  condition : Option CondState
  hits : Nat
  enabled : Bool
  active : Bool
deriving DecidableEq

/-- Point update of the breakpoint pool (`Pool<Breakpoint>` keyed by id). -/
def updPool (pool : Nat → Breakpoint) (id : Nat) (bp : Breakpoint) : Nat → Breakpoint :=
  fun i => if i = id then bp else pool i

/-- `Debugger::find_breakpoint_location` (debugger.rs:2062): binary search in
the sorted location list (`partition_point` agrees with `takeWhile` length on
sorted input). -/
def find_breakpoint_location (locs : List BreakpointLocation) (addr : Nat) : Option Nat :=
  let idx := (locs.takeWhile (fun b => decide (b.addr < addr))).length
  if h : idx < locs.length then
    if (locs.get ⟨idx, h⟩).addr = addr then some idx else none
  else none

/-- `Debugger::handle_step_breakpoint_hit` (debugger.rs:2159): request a
single step after Call/JumpOut step breakpoints. -/
def handle_step_breakpoint_hit (t : StepBreakpointType) (request_single_step : Bool) : Bool :=
  match t with
  | StepBreakpointType.Call | StepBreakpointType.JumpOut => true
  | _ => request_single_step

/-- Mutable state threaded through the breakpoint-refs loop of
`handle_breakpoint_trap` (debugger.rs:2300-2387). -/
structure TrapLoopState where
  pool : Nat → Breakpoint
  hit : Bool
  request_single_step : Bool
  stop_reasons : List StopReason
  stack_digest_to_select : Option (List Nat × Bool × Nat)
  hit_step_breakpoint : Option StepBreakpointType

/-- One iteration of the refs loop of `handle_breakpoint_trap`
(debugger.rs:2318-2387).  `condOracle` is the result of
`eval_breakpoint_condition` (it reads registers, stack and memory, which are
external to this state).  `65535` is `u16::MAX`. -/
def trapRefStep (tid : Nat) (spurious_stop : Bool) (stepping : Option StepState)
    (pending_step : Bool) (target_state : ProcessState)
    (condOracle : Nat → Except String Bool)
    (ls : TrapLoopState) (b : BreakpointRef) : TrapLoopState :=
  match b with
  | BreakpointRef.Step t =>
    match stepping with
    | some step =>
      if tid = step.tid then
        let rss := handle_step_breakpoint_hit t ls.request_single_step
        let sds := match t with
          | StepBreakpointType.Cursor lvl =>
            if lvl ≠ 65535 then some (([] : List Nat), false, lvl)
            else ls.stack_digest_to_select
          | _ => ls.stack_digest_to_select
        { ls with
          request_single_step := rss
          hit_step_breakpoint := some t
          stack_digest_to_select := sds }
      else ls
    | none => ls  -- the source unwraps `self.stepping`: step markers exist only during a step
  | BreakpointRef.Id id lvl =>
    let bp := ls.pool id
    let bp := {bp with hits := bp.hits + 1}
    let ls := {ls with pool := updPool ls.pool id bp}
    if spurious_stop then ls  -- spurious stop after sw→hw conversion or adding a bp at current line
    else if (match stepping with
             | some s => s.disable_breakpoints
             | none => false) then ls  -- ignore regular breakpoints when stepping
    else if pending_step then ls
    else if target_state = ProcessState.Suspended then ls
    else
      let proceed : Bool × TrapLoopState :=
        match bp.condition with
        | some cond =>
          if cond.parse_ok then
            match condOracle id with
            | Except.ok hitv =>
              let bp2 := {bp with condition := some {cond with last_error := none}}
              (hitv, {ls with pool := updPool ls.pool id bp2})
            | Except.error e =>
              -- put the error into the breakpoint for the UI, and stop
              let bp2 := {bp with condition := some {cond with last_error := some e}}
              (true, {ls with pool := updPool ls.pool id bp2})
          else (true, ls)
        | none => (true, ls)
      if proceed.1 = false then proceed.2
      else
        let ls := proceed.2
        { ls with
          stop_reasons := ls.stop_reasons ++ [StopReason.Breakpoint id]
          stack_digest_to_select :=
            if lvl ≠ 65535 then some (([] : List Nat), false, lvl)
            else ls.stack_digest_to_select
          hit := true }

/-- `Debugger::cancel_stepping` (debugger.rs:888): remove step markers from
all locations, drop the step and any pending step. -/
def cancel_stepping (locations : List BreakpointLocation) (stepping : Option StepState)
    (_pending_step : Bool) : List BreakpointLocation × Option StepState × Bool :=
  let locations :=
    if stepping.isSome then
      locations.map fun loc =>
        {loc with breakpoints := loc.breakpoints.filter fun b =>
          match b with
          | BreakpointRef.Step _ => false
          | _ => true}
    else locations
  (locations, none, false)

/-- Result of the trap handling path modelled by `handle_trap_core`. -/
structure TrapOut where
  locations : List BreakpointLocation
  slots : List HardwareBreakpoint
  stepping : Option StepState
  pending_step : Bool
  pool : Nat → Breakpoint
  hit : Bool
  stop_reasons : List StopReason
  stopping_to_handle_breakpoints : Bool
  single_stepping_set : Bool
  stack_digest_to_select : Option (List Nat × Bool × Nat)

/-- The step-completion section of `handle_breakpoint_trap`
(debugger.rs:2403-2416): if a user breakpoint was hit, cancel the step;
otherwise ask `handle_step_stop` whether the step completed and, if so,
record the `Step`/`Exception` stop reason and cancel the step. -/
def trap_step_section (tid addr : Nat) (spurious_stop : Bool)
    (locations : List BreakpointLocation) (stepping : Option StepState)
    (pending_step : Bool) (cfaForStep : Option Nat) (ls : TrapLoopState) :
    List BreakpointLocation × Option StepState × Bool × TrapLoopState :=
  match stepping with
  | some step =>
    if ls.hit then
      let c := cancel_stepping locations stepping pending_step
      (c.1, c.2.1, c.2.2, ls)
    else if tid = step.tid ∧ handle_step_stop step spurious_stop
        ls.hit_step_breakpoint.isSome addr cfaForStep = true then
      let sds := if step.internal_kind ≠ StepKind.Cursor
        then some (step.stack_digest, decide (step.internal_kind = StepKind.Into), 65535)
        else ls.stack_digest_to_select
      let reason := if ls.hit_step_breakpoint = some StepBreakpointType.Catch
        then StopReason.Exception else StopReason.Step
      let c := cancel_stepping locations stepping pending_step
      (c.1, c.2.1, c.2.2,
        { ls with
          stop_reasons := ls.stop_reasons ++ [reason]
          hit := true
          stack_digest_to_select := sds })
    else (locations, stepping, pending_step, ls)
  | none => (locations, stepping, pending_step, ls)

/-- The breakpoint-dispatch part of `Debugger::handle_breakpoint_trap`
(debugger.rs:2300-2422): find the location at the corrected address, walk its
refs, then decide step completion.  `addr` is the corrected address and
`spurious_stop` the flag from the trap diagnosis (`diagnose_trap`);
`cfaForStep` is the external CFA lookup used by `handle_step_stop`.  The
resulting stop reasons are what gets appended to the thread's
`stop_reasons`. -/
def handle_trap_core (tid addr : Nat) (spurious_stop : Bool)
    (locations : List BreakpointLocation) (slots : List HardwareBreakpoint)
    (stepping : Option StepState) (pending_step : Bool) (target_state : ProcessState)
    (condOracle : Nat → Except String Bool) (pool : Nat → Breakpoint)
    (cfaForStep : Option Nat) : TrapOut :=
  let ls0 : TrapLoopState := ⟨pool, false, false, [], none, none⟩
  let found := find_breakpoint_location locations addr
  let afterRefs :
      List BreakpointLocation × List HardwareBreakpoint × TrapLoopState × Bool × Bool :=
    match found with
    | some idx =>
      let location := locations.getD idx ⟨0, 0, false, false, [], none⟩
      -- lazily deactivate an obsolete location if we hit it
      let lazydeact := location.breakpoints.isEmpty
      let d := if lazydeact then deactivate_loc location slots else (location, slots)
      let locations := if lazydeact then locations.set idx d.1 else locations
      let ls := d.1.breakpoints.foldl
        (trapRefStep tid spurious_stop stepping pending_step target_state condOracle) ls0
      -- stop all threads to convert a software breakpoint to hardware
      (locations, d.2, ls, location.hardware = false, ls.request_single_step)
    | none => (locations, slots, ls0, false, false)
  let stepRes := trap_step_section tid addr spurious_stop afterRefs.1 stepping
    pending_step cfaForStep afterRefs.2.2.1
  { locations := stepRes.1
    slots := afterRefs.2.1
    stepping := stepRes.2.1
    pending_step := stepRes.2.2.1
    pool := stepRes.2.2.2.pool
    hit := stepRes.2.2.2.hit
    stop_reasons := stepRes.2.2.2.stop_reasons
    stopping_to_handle_breakpoints := afterRefs.2.2.2.1
    single_stepping_set := afterRefs.2.2.2.2
    stack_digest_to_select := stepRes.2.2.2.stack_digest_to_select }

theorem trapRefs_suppressed (tid : Nat) (spurious : Bool) (step : StepState)
    (hdis : step.disable_breakpoints = true) (pending : Bool) (ts : ProcessState)
    (condOracle : Nat → Except String Bool) (refs : List BreakpointRef) :
    ∀ ls : TrapLoopState, ls.stop_reasons = [] → ls.hit = false →
    (refs.foldl (trapRefStep tid spurious (some step) pending ts condOracle) ls).stop_reasons = []
      ∧ (refs.foldl (trapRefStep tid spurious (some step) pending ts condOracle) ls).hit
          = false := by
  induction refs with
  | nil => intro ls h1 h2; exact ⟨h1, h2⟩
  | cons b refs ih =>
    intro ls h1 h2
    rw [List.foldl_cons]
    have hpres : (trapRefStep tid spurious (some step) pending ts condOracle ls b).stop_reasons
        = ls.stop_reasons ∧
        (trapRefStep tid spurious (some step) pending ts condOracle ls b).hit = ls.hit := by
      cases b with
      | Step t =>
        simp only [trapRefStep]
        by_cases htid : tid = step.tid
        · rw [if_pos htid]
          exact ⟨rfl, rfl⟩
        · rw [if_neg htid]
          exact ⟨rfl, rfl⟩
      | Id id lvl =>
        simp only [trapRefStep]
        cases spurious
        · simp [hdis]
        · simp
    exact ih _ (by rw [hpres.1, h1]) (by rw [hpres.2, h2])

/-- C4: while a step with `disable_breakpoints` is in progress, a trap at a
location referenced by user breakpoints records no `Breakpoint` stop reason
and produces no user-visible stop on account of those breakpoints: the only
way the trap yields a stop is the step itself completing (reason `Step` or
`Exception`), which ends the step; otherwise nothing is recorded, the step
stays in progress, and the thread is resumed.  Suppression is keyed on
`self.stepping`, which is cleared exactly when the step completes or is
cancelled, so user-breakpoint hits become reportable again only then. -/
theorem step_disable_breakpoints_suppresses (tid addr : Nat) (spurious : Bool)
    (locations : List BreakpointLocation) (slots : List HardwareBreakpoint)
    (step : StepState) (pending : Bool) (ts : ProcessState)
    (condOracle : Nat → Except String Bool) (pool : Nat → Breakpoint)
    (cfaO : Option Nat) (hdis : step.disable_breakpoints = true) :
    (∀ id, StopReason.Breakpoint id ∉
      (handle_trap_core tid addr spurious locations slots (some step) pending ts
        condOracle pool cfaO).stop_reasons) ∧
    ((handle_trap_core tid addr spurious locations slots (some step) pending ts
        condOracle pool cfaO).hit = false →
      (handle_trap_core tid addr spurious locations slots (some step) pending ts
        condOracle pool cfaO).stepping = some step) ∧
    ((handle_trap_core tid addr spurious locations slots (some step) pending ts
        condOracle pool cfaO).hit = true →
      (handle_trap_core tid addr spurious locations slots (some step) pending ts
        condOracle pool cfaO).stepping = none ∧
      ((handle_trap_core tid addr spurious locations slots (some step) pending ts
          condOracle pool cfaO).stop_reasons = [StopReason.Step] ∨
       (handle_trap_core tid addr spurious locations slots (some step) pending ts
          condOracle pool cfaO).stop_reasons = [StopReason.Exception])) := by
  have hout : ∀ (ls : TrapLoopState), ls.stop_reasons = [] → ls.hit = false →
      ∀ (locs2 : List BreakpointLocation),
      (∀ id, StopReason.Breakpoint id ∉
        (trap_step_section tid addr spurious locs2 (some step) pending cfaO ls).2.2.2.stop_reasons) ∧
      ((trap_step_section tid addr spurious locs2 (some step) pending cfaO ls).2.2.2.hit = false →
        (trap_step_section tid addr spurious locs2 (some step) pending cfaO ls).2.1 = some step) ∧
      ((trap_step_section tid addr spurious locs2 (some step) pending cfaO ls).2.2.2.hit = true →
        (trap_step_section tid addr spurious locs2 (some step) pending cfaO ls).2.1 = none ∧
        ((trap_step_section tid addr spurious locs2 (some step) pending cfaO ls).2.2.2.stop_reasons
            = [StopReason.Step] ∨
         (trap_step_section tid addr spurious locs2 (some step) pending cfaO ls).2.2.2.stop_reasons
            = [StopReason.Exception])) := by
    intro ls h1 h2 locs2
    simp only [trap_step_section, h2, Bool.false_eq_true, if_false]
    by_cases hcomp : tid = step.tid ∧ handle_step_stop step spurious
        ls.hit_step_breakpoint.isSome addr cfaO = true
    · rw [if_pos hcomp]
      refine ⟨?_, ?_, ?_⟩
      · intro id hmem
        simp only [h1, List.nil_append] at hmem
        by_cases hc : ls.hit_step_breakpoint = some StepBreakpointType.Catch
        · rw [if_pos hc] at hmem
          simp at hmem
        · rw [if_neg hc] at hmem
          simp at hmem
      · intro hf
        simp at hf
      · intro _
        refine ⟨rfl, ?_⟩
        simp only [h1, List.nil_append]
        by_cases hc : ls.hit_step_breakpoint = some StepBreakpointType.Catch
        · rw [if_pos hc]
          exact Or.inr rfl
        · rw [if_neg hc]
          exact Or.inl rfl
    · rw [if_neg hcomp]
      refine ⟨?_, fun _ => rfl, ?_⟩
      · intro id hmem
        rw [h1] at hmem
        exact List.not_mem_nil _ hmem
      · intro ht
        rw [h2] at ht
        exact absurd ht (by simp)
  rcases hfind : find_breakpoint_location locations addr with _ | idx
  · have h := hout ⟨pool, false, false, [], none, none⟩ rfl rfl locations
    simp only [handle_trap_core, hfind]
    exact h
  · have hfold := trapRefs_suppressed tid spurious step hdis pending ts condOracle
      ((if (locations.getD idx ⟨0, 0, false, false, [], none⟩).breakpoints.isEmpty
          then deactivate_loc (locations.getD idx ⟨0, 0, false, false, [], none⟩) slots
          else (locations.getD idx ⟨0, 0, false, false, [], none⟩, slots)).1).breakpoints
      ⟨pool, false, false, [], none, none⟩ rfl rfl
    have h := hout _ hfold.1 hfold.2
      (if (locations.getD idx ⟨0, 0, false, false, [], none⟩).breakpoints.isEmpty
        then locations.set idx (if (locations.getD idx ⟨0, 0, false, false, [], none⟩).breakpoints.isEmpty
          then deactivate_loc (locations.getD idx ⟨0, 0, false, false, [], none⟩) slots
          else (locations.getD idx ⟨0, 0, false, false, [], none⟩, slots)).1
        else locations)
    simp only [handle_trap_core, hfind]
    exact h

/-- Witness for C4: a trap on a user breakpoint during a disabled-breakpoints
step records no `Breakpoint` stop reason and leaves the step in progress. -/
theorem step_disable_breakpoints_suppresses_witness :
    StopReason.Breakpoint 3 ∉
      (handle_trap_core 7 15 false [⟨15, 0, false, true, [BreakpointRef.Id 3 65535], none⟩]
        [] (some c1StepEx) false ProcessState.Stepping (fun _ => Except.ok true)
        (fun _ => ⟨BreakpointOn.InitialExec, none, 0, true, true⟩)
        (some 100)).stop_reasons := by
  exact (step_disable_breakpoints_suppresses 7 15 false
    [⟨15, 0, false, true, [BreakpointRef.Id 3 65535], none⟩] [] c1StepEx false
    ProcessState.Stepping (fun _ => Except.ok true)
    (fun _ => ⟨BreakpointOn.InitialExec, none, 0, true, true⟩) (some 100) rfl).1 3

/-! ## debugger.rs: breakpoint persistence (C7) -/

/-- Modelled from the spec: the serialization primitives (`write_u8`,
`write_u16`, `write_usize`, `write_str`, `write_path` and their readers) live
outside `src/` (util.rs); integers are modelled as little-endian fixed-width
and strings/paths as length-prefixed raw bytes.  The source writers append to
an output buffer; the model produces the appended bytes. -/
def serU8 (b : Nat) : List Nat := [b % 256]

/-- Little-endian encoding of `v` in `w` bytes. -/
def natToLE : Nat → Nat → List Nat
  | 0, _ => []
  | w + 1, v => v % 256 :: natToLE w (v / 256)

def serU16 (v : Nat) : List Nat := natToLE 2 v

def serUsize (v : Nat) : List Nat := natToLE 8 v

def serStr (s : List Nat) : List Nat := serUsize s.length ++ s

def readU8 : List Nat → Except String (Nat × List Nat)
  | [] => Except.error "unexpected end of save file"
  | b :: rest => Except.ok (b, rest)

def readBytes : Nat → List Nat → Except String (List Nat × List Nat)
  | 0, inp => Except.ok ([], inp)
  | _ + 1, [] => Except.error "unexpected end of save file"
  | n + 1, b :: rest =>
    match readBytes n rest with
    | Except.ok (bs, rem) => Except.ok (b :: bs, rem)
    | Except.error e => Except.error e

/-- Little-endian decoding. -/
def leDecode (bs : List Nat) : Nat := bs.foldr (fun b acc => b + 256 * acc) 0

def readUsize (inp : List Nat) : Except String (Nat × List Nat) :=
  match readBytes 8 inp with
  | Except.ok (bs, rest) => Except.ok (leDecode bs, rest)
  | Except.error e => Except.error e

def readU16 (inp : List Nat) : Except String (Nat × List Nat) :=
  match readBytes 2 inp with
  | Except.ok (bs, rest) => Except.ok (leDecode bs, rest)
  | Except.error e => Except.error e

def readStr (inp : List Nat) : Except String (List Nat × List Nat) :=
  match readUsize inp with
  | Except.ok (n, rest) => readBytes n rest
  | Except.error e => Except.error e

/-- Modelled from the spec: `FileVersionInfo::save_state` is outside `src/`;
one numeric version, one usize. -/
def FileVersionInfo.save_state (f : FileVersionInfo) : List Nat := serUsize f.version

def FileVersionInfo.load_state (inp : List Nat) : Except String (FileVersionInfo × List Nat) :=
  match readUsize inp with
  | Except.ok (v, rest) => Except.ok (⟨v⟩, rest)
  | Except.error e => Except.error e

/-- Modelled from the spec: `FunctionLocator::save_state` is outside `src/`;
mangled name plus last-known static address. -/
def FunctionLocator.save_state (f : FunctionLocator) : List Nat :=
  serStr f.mangled_name ++ serUsize f.addr

def FunctionLocator.load_state (inp : List Nat) : Except String (FunctionLocator × List Nat) :=
  match readStr inp with
  | Except.ok (name, rest) =>
    match readUsize rest with
    | Except.ok (a, rest2) => Except.ok (⟨name, a⟩, rest2)
    | Except.error e => Except.error e
  | Except.error e => Except.error e

/-- Modelled from the spec: `PointOfInterest::save_state` is outside `src/`;
persisted by name. -/
def PointOfInterest.save_state (p : PointOfInterest) : List Nat := serStr p.name

def PointOfInterest.load_state (inp : List Nat) : Except String (PointOfInterest × List Nat) :=
  match readStr inp with
  | Except.ok (name, rest) => Except.ok (⟨name⟩, rest)
  | Except.error e => Except.error e

/-- `Breakpoint::save_state` (debugger.rs:284). -/
def Breakpoint.save_state (bp : Breakpoint) : List Nat :=
  (match bp.on' with
   | BreakpointOn.Line b =>
     serU8 0 ++ serStr b.path ++ b.file_version.save_state ++ serUsize b.line
   | BreakpointOn.Address b =>
     serU8 1 ++
     (match b.function with
      | none => serU8 0
      | some (f, off) => serU8 1 ++ f.save_state ++ serUsize off) ++
     serUsize b.addr ++ serU16 b.subfunction_level
   | BreakpointOn.InitialExec => serU8 2
   | BreakpointOn.PointOfInterest p => serU8 3 ++ p.save_state) ++
  (match bp.condition with
   | some c => serU8 1 ++ serStr c.src
   | none => serU8 0)

/-- The trigger part of `Breakpoint::load_state` (debugger.rs:321-334). -/
def loadBreakpointOn (inp : List Nat) : Except String (BreakpointOn × List Nat) :=
  match readU8 inp with
  | Except.error e => Except.error e
  | Except.ok (tag, inp) =>
    if tag = 0 then
      match readStr inp with
      | Except.error e => Except.error e
      | Except.ok (path, inp) =>
        match FileVersionInfo.load_state inp with
        | Except.error e => Except.error e
        | Except.ok (fv, inp) =>
          match readUsize inp with
          | Except.error e => Except.error e
          | Except.ok (line, inp) =>
            Except.ok (BreakpointOn.Line ⟨path, fv, line, none⟩, inp)
    else if tag = 1 then
      match readU8 inp with
      | Except.error e => Except.error e
      | Except.ok (fl, inp) =>
        match (if fl = 0 then Except.ok ((none : Option (FunctionLocator × Nat)), inp)
          else if fl = 1 then
            match FunctionLocator.load_state inp with
            | Except.error e => Except.error e
            | Except.ok (f, inp) =>
              match readUsize inp with
              | Except.error e => Except.error e
              | Except.ok (off, inp) => Except.ok (some (f, off), inp)
          else Except.error "unexpected AddressBreakpoint function flag") with
        | Except.error e => Except.error e
        | Except.ok (function, inp) =>
          match readUsize inp with
          | Except.error e => Except.error e
          | Except.ok (a, inp) =>
            match readU16 inp with
            | Except.error e => Except.error e
            | Except.ok (lvl, inp) =>
              Except.ok (BreakpointOn.Address ⟨function, a, lvl⟩, inp)
    else if tag = 2 then Except.ok (BreakpointOn.InitialExec, inp)
    else if tag = 3 then
      match PointOfInterest.load_state inp with
      | Except.error e => Except.error e
      | Except.ok (p, inp) => Except.ok (BreakpointOn.PointOfInterest p, inp)
    else Except.error "unexpected breakpoint type in save file"

/-- `Breakpoint::load_state` (debugger.rs:320).  `parseOk` models
`parse_watch_expression` succeeding on the condition source (the parser lives
in the watch-expression component). -/
def Breakpoint.load_state (parseOk : List Nat → Bool) (inp : List Nat) :
    Except String (Breakpoint × List Nat) :=
  match loadBreakpointOn inp with
  | Except.error e => Except.error e
  | Except.ok (on1, inp) =>
    match readU8 inp with
    | Except.error e => Except.error e
    | Except.ok (ctag, inp) =>
      if ctag = 0 then
        Except.ok (⟨on1, none, 0, false, false⟩, inp)
      else if ctag = 1 then
        match readStr inp with
        | Except.error e => Except.error e
        | Except.ok (s, inp) =>
          Except.ok (⟨on1, some ⟨s, parseOk s, none⟩, 0, false, false⟩, inp)
      else Except.error "unexpected breakpoint condition flag in save file"

/-- `Debugger::save_state` (debugger.rs:378): a `1` byte before each
breakpoint, a terminating `0`. -/
def Debugger.save_state (bps : List Breakpoint) : List Nat :=
  (bps.map (fun bp => serU8 1 ++ bp.save_state)).flatten ++ serU8 0

theorem readU8_ok_length {inp : List Nat} {b : Nat} {rest : List Nat}
    (h : readU8 inp = Except.ok (b, rest)) : rest.length < inp.length := by
  cases inp with
  | nil => exact absurd h (by simp [readU8])
  | cons x xs =>
    rw [readU8] at h
    injection h with h
    injection h with h1 h2
    rw [← h2]
    simp

theorem readBytes_ok_length : ∀ (n : Nat) (inp bs rest : List Nat),
    readBytes n inp = Except.ok (bs, rest) → rest.length ≤ inp.length := by
  intro n
  induction n with
  | zero =>
    intro inp bs rest h
    rw [readBytes] at h
    injection h with h
    injection h with h1 h2
    rw [← h2]
  | succ n ih =>
    intro inp bs rest h
    cases inp with
    | nil => exact absurd h (by rw [readBytes]; simp)
    | cons x xs =>
      rw [readBytes] at h
      rcases hr : readBytes n xs with e | p
      · rw [hr] at h
        exact absurd h (by simp)
      · rw [hr] at h
        injection h with h
        injection h with h1 h2
        have := ih xs p.1 p.2 (by rw [hr])
        rw [← h2]
        simp
        omega

theorem readUsize_ok_length {inp : List Nat} {v : Nat} {rest : List Nat}
    (h : readUsize inp = Except.ok (v, rest)) : rest.length ≤ inp.length := by
  rw [readUsize] at h
  rcases hr : readBytes 8 inp with e | p
  · rw [hr] at h
    exact absurd h (by simp)
  · rw [hr] at h
    injection h with h
    injection h with h1 h2
    have := readBytes_ok_length 8 inp p.1 p.2 (by rw [hr])
    rw [← h2]
    exact this

theorem readU16_ok_length {inp : List Nat} {v : Nat} {rest : List Nat}
    (h : readU16 inp = Except.ok (v, rest)) : rest.length ≤ inp.length := by
  rw [readU16] at h
  rcases hr : readBytes 2 inp with e | p
  · rw [hr] at h
    exact absurd h (by simp)
  · rw [hr] at h
    injection h with h
    injection h with h1 h2
    have := readBytes_ok_length 2 inp p.1 p.2 (by rw [hr])
    rw [← h2]
    exact this

theorem readStr_ok_length {inp : List Nat} {s rest : List Nat}
    (h : readStr inp = Except.ok (s, rest)) : rest.length ≤ inp.length := by
  rw [readStr] at h
  rcases hr : readUsize inp with e | p
  · rw [hr] at h
    exact absurd h (by simp)
  · rw [hr] at h
    have h1 := @readUsize_ok_length inp p.1 p.2 (by rw [hr])
    have h2 := readBytes_ok_length p.1 p.2 s rest h
    omega

theorem fileVersion_load_ok_length {inp : List Nat} {f : FileVersionInfo} {rest : List Nat}
    (h : FileVersionInfo.load_state inp = Except.ok (f, rest)) : rest.length ≤ inp.length := by
  rw [FileVersionInfo.load_state] at h
  rcases hr : readUsize inp with e | p
  · rw [hr] at h
    exact absurd h (by simp)
  · rw [hr] at h
    injection h with h
    injection h with h1 h2
    have := @readUsize_ok_length inp p.1 p.2 (by rw [hr])
    rw [← h2]
    exact this

theorem functionLocator_load_ok_length {inp : List Nat} {f : FunctionLocator} {rest : List Nat}
    (h : FunctionLocator.load_state inp = Except.ok (f, rest)) : rest.length ≤ inp.length := by
  rw [FunctionLocator.load_state] at h
  rcases hr : readStr inp with e | p
  · rw [hr] at h
    exact absurd h (by simp)
  · simp only [hr] at h
    rcases hu : readUsize p.2 with e | q
    · rw [hu] at h
      exact absurd h (by simp)
    · simp only [hu] at h
      injection h with h
      injection h with h1 h2
      have ha := @readStr_ok_length inp p.1 p.2 (by rw [hr])
      have hb := @readUsize_ok_length p.2 q.1 q.2 (by rw [hu])
      rw [← h2]
      omega

theorem pointOfInterest_load_ok_length {inp : List Nat} {p : PointOfInterest} {rest : List Nat}
    (h : PointOfInterest.load_state inp = Except.ok (p, rest)) : rest.length ≤ inp.length := by
  rw [PointOfInterest.load_state] at h
  rcases hr : readStr inp with e | q
  · rw [hr] at h
    exact absurd h (by simp)
  · rw [hr] at h
    injection h with h
    injection h with h1 h2
    have := @readStr_ok_length inp q.1 q.2 (by rw [hr])
    rw [← h2]
    exact this

theorem loadBreakpointOn_ok_length {inp : List Nat} {o : BreakpointOn} {rest : List Nat}
    (h : loadBreakpointOn inp = Except.ok (o, rest)) : rest.length < inp.length := by
  rw [loadBreakpointOn] at h
  rcases h8 : readU8 inp with e | t
  · rw [h8] at h
    exact absurd h (by simp)
  · simp only [h8] at h
    have htop := @readU8_ok_length inp t.1 t.2 (by rw [h8])
    by_cases h0 : t.1 = 0
    · rw [if_pos h0] at h
      rcases hs : readStr t.2 with e | p
      · rw [hs] at h
        exact absurd h (by simp)
      · simp only [hs] at h
        rcases hf : FileVersionInfo.load_state p.2 with e | q
        · rw [hf] at h
          exact absurd h (by simp)
        · simp only [hf] at h
          rcases hl : readUsize q.2 with e | r
          · rw [hl] at h
            exact absurd h (by simp)
          · simp only [hl] at h
            injection h with h
            injection h with h1 h2
            have ha := @readStr_ok_length t.2 p.1 p.2 (by rw [hs])
            have hb := @fileVersion_load_ok_length p.2 q.1 q.2 (by rw [hf])
            have hc := @readUsize_ok_length q.2 r.1 r.2 (by rw [hl])
            rw [← h2]
            omega
    · rw [if_neg h0] at h
      by_cases h1t : t.1 = 1
      · rw [if_pos h1t] at h
        rcases h8b : readU8 t.2 with e | u
        · rw [h8b] at h
          exact absurd h (by simp)
        · simp only [h8b] at h
          have hu8 := @readU8_ok_length t.2 u.1 u.2 (by rw [h8b])
          have hfun : ∀ (fo : Option (FunctionLocator × Nat)) (rem : List Nat),
              (if u.1 = 0 then Except.ok ((none : Option (FunctionLocator × Nat)), u.2)
                else if u.1 = 1 then
                  match FunctionLocator.load_state u.2 with
                  | Except.error e => Except.error e
                  | Except.ok (f, inp) =>
                    match readUsize inp with
                    | Except.error e => Except.error e
                    | Except.ok (off, inp) => Except.ok (some (f, off), inp)
                else Except.error "unexpected AddressBreakpoint function flag")
                = Except.ok (fo, rem) → rem.length ≤ u.2.length := by
            intro fo rem hh
            by_cases hu0 : u.1 = 0
            · rw [if_pos hu0] at hh
              injection hh with hh
              injection hh with hh1 hh2
              rw [← hh2]
            · rw [if_neg hu0] at hh
              by_cases hu1 : u.1 = 1
              · rw [if_pos hu1] at hh
                rcases hfl : FunctionLocator.load_state u.2 with e | v
                · rw [hfl] at hh
                  exact absurd hh (by simp)
                · simp only [hfl] at hh
                  rcases hof : readUsize v.2 with e | w
                  · rw [hof] at hh
                    exact absurd hh (by simp)
                  · simp only [hof] at hh
                    injection hh with hh
                    injection hh with hh1 hh2
                    have ha := @functionLocator_load_ok_length u.2 v.1 v.2 (by rw [hfl])
                    have hb := @readUsize_ok_length v.2 w.1 w.2 (by rw [hof])
                    rw [← hh2]
                    omega
              · rw [if_neg hu1] at hh
                exact absurd hh (by simp)
          rcases hfo : (if u.1 = 0 then Except.ok ((none : Option (FunctionLocator × Nat)), u.2)
              else if u.1 = 1 then
                match FunctionLocator.load_state u.2 with
                | Except.error e => Except.error e
                | Except.ok (f, inp) =>
                  match readUsize inp with
                  | Except.error e => Except.error e
                  | Except.ok (off, inp) => Except.ok (some (f, off), inp)
              else Except.error "unexpected AddressBreakpoint function flag") with e | fo
          · rw [hfo] at h
            exact absurd h (by simp)
          · simp only [hfo] at h
            have hfol := hfun fo.1 fo.2 (by rw [hfo])
            rcases ha : readUsize fo.2 with e | v
            · rw [ha] at h
              exact absurd h (by simp)
            · simp only [ha] at h
              rcases hb : readU16 v.2 with e | w
              · rw [hb] at h
                exact absurd h (by simp)
              · simp only [hb] at h
                injection h with h
                injection h with hh1 hh2
                have hc := @readUsize_ok_length fo.2 v.1 v.2 (by rw [ha])
                have hdl := @readU16_ok_length v.2 w.1 w.2 (by rw [hb])
                rw [← hh2]
                omega
      · rw [if_neg h1t] at h
        by_cases h2t : t.1 = 2
        · rw [if_pos h2t] at h
          injection h with h
          injection h with hh1 hh2
          rw [← hh2]
          exact htop
        · rw [if_neg h2t] at h
          by_cases h3t : t.1 = 3
          · rw [if_pos h3t] at h
            rcases hp : PointOfInterest.load_state t.2 with e | q
            · rw [hp] at h
              exact absurd h (by simp)
            · simp only [hp] at h
              injection h with h
              injection h with hh1 hh2
              have := @pointOfInterest_load_ok_length t.2 q.1 q.2 (by rw [hp])
              rw [← hh2]
              omega
          · rw [if_neg h3t] at h
            exact absurd h (by simp)

theorem breakpoint_load_ok_length {parseOk : List Nat → Bool} {inp : List Nat}
    {bp : Breakpoint} {rest : List Nat}
    (h : Breakpoint.load_state parseOk inp = Except.ok (bp, rest)) :
    rest.length < inp.length := by
  rw [Breakpoint.load_state] at h
  rcases ho : loadBreakpointOn inp with e | o
  · rw [ho] at h
    exact absurd h (by simp)
  · simp only [ho] at h
    have hol := @loadBreakpointOn_ok_length inp o.1 o.2 (by rw [ho])
    rcases hc : readU8 o.2 with e | c
    · rw [hc] at h
      exact absurd h (by simp)
    · simp only [hc] at h
      have hcl := @readU8_ok_length o.2 c.1 c.2 (by rw [hc])
      by_cases hc0 : c.1 = 0
      · rw [if_pos hc0] at h
        injection h with h
        injection h with h1 h2
        rw [← h2]
        omega
      · rw [if_neg hc0] at h
        by_cases hc1 : c.1 = 1
        · rw [if_pos hc1] at h
          rcases hs : readStr c.2 with e | s
          · rw [hs] at h
            exact absurd h (by simp)
          · simp only [hs] at h
            injection h with h
            injection h with h1 h2
            have := @readStr_ok_length c.2 s.1 s.2 (by rw [hs])
            rw [← h2]
            omega
        · rw [if_neg hc1] at h
          exact absurd h (by simp)

/-- `Debugger::load_state` (debugger.rs:387): read breakpoints until the
terminating `0` byte.  The source loop terminates because every iteration
consumes at least one byte; the recursion is on the input length. -/
def Debugger.load_state (parseOk : List Nat → Bool) (inp : List Nat) :
    Except String (List Breakpoint × List Nat) :=
  match hr : readU8 inp with
  | Except.error e => Except.error e
  | Except.ok (tag, inp2) =>
    if tag = 0 then Except.ok ([], inp2)
    else if tag = 1 then
      match hb : Breakpoint.load_state parseOk inp2 with
      | Except.error e => Except.error e
      | Except.ok (bp, inp3) =>
        match Debugger.load_state parseOk inp3 with
        | Except.error e => Except.error e
        | Except.ok (bps, inp4) => Except.ok (bp :: bps, inp4)
    else Except.error "unexpected bool in save file"
termination_by inp.length
decreasing_by
  have h1 := readU8_ok_length hr
  have h2 := breakpoint_load_ok_length hb
  omega

theorem natToLE_length : ∀ (w v : Nat), (natToLE w v).length = w := by
  intro w
  induction w with
  | zero => intro v; rfl
  | succ w ih =>
    intro v
    rw [natToLE]
    simp [ih]

theorem leDecode_natToLE : ∀ (w v : Nat), leDecode (natToLE w v) = v % 256 ^ w := by
  intro w
  induction w with
  | zero =>
    intro v
    simp [natToLE, leDecode, Nat.mod_one]
  | succ w ih =>
    intro v
    rw [natToLE, pow_succ']
    rw [Nat.mod_mul]
    have hfold : leDecode (v % 256 :: natToLE w (v / 256))
        = v % 256 + 256 * leDecode (natToLE w (v / 256)) := by
      rw [leDecode, List.foldr_cons]
      rfl
    rw [hfold, ih]

theorem readBytes_append : ∀ (l rest : List Nat),
    readBytes l.length (l ++ rest) = Except.ok (l, rest) := by
  intro l
  induction l with
  | nil => intro rest; rfl
  | cons b l ih =>
    intro rest
    rw [List.length_cons, List.cons_append, readBytes, ih]

theorem readU8_ser (b : Nat) (rest : List Nat) :
    readU8 (serU8 b ++ rest) = Except.ok (b % 256, rest) := rfl

theorem readUsize_ser (v : Nat) (rest : List Nat) (hv : v < 256 ^ 8) :
    readUsize (serUsize v ++ rest) = Except.ok (v, rest) := by
  have hb : readBytes 8 (natToLE 8 v ++ rest) = Except.ok (natToLE 8 v, rest) := by
    have h := readBytes_append (natToLE 8 v) rest
    rwa [natToLE_length] at h
  rw [readUsize, serUsize]
  simp only [hb]
  rw [leDecode_natToLE, Nat.mod_eq_of_lt hv]

theorem readU16_ser (v : Nat) (rest : List Nat) (hv : v < 256 ^ 2) :
    readU16 (serU16 v ++ rest) = Except.ok (v, rest) := by
  have hb : readBytes 2 (natToLE 2 v ++ rest) = Except.ok (natToLE 2 v, rest) := by
    have h := readBytes_append (natToLE 2 v) rest
    rwa [natToLE_length] at h
  rw [readU16, serU16]
  simp only [hb]
  rw [leDecode_natToLE, Nat.mod_eq_of_lt hv]

theorem readStr_ser (s : List Nat) (rest : List Nat) (hs : s.length < 256 ^ 8) :
    readStr (serStr s ++ rest) = Except.ok (s, rest) := by
  rw [readStr, serStr, List.append_assoc]
  simp only [readUsize_ser s.length (s ++ rest) hs]
  exact readBytes_append s rest

theorem fileVersion_roundtrip (f : FileVersionInfo) (rest : List Nat)
    (hv : f.version < 256 ^ 8) :
    FileVersionInfo.load_state (f.save_state ++ rest) = Except.ok (f, rest) := by
  rw [FileVersionInfo.load_state, FileVersionInfo.save_state]
  simp only [readUsize_ser f.version rest hv]

theorem functionLocator_roundtrip (f : FunctionLocator) (rest : List Nat)
    (hn : f.mangled_name.length < 256 ^ 8) (ha : f.addr < 256 ^ 8) :
    FunctionLocator.load_state (f.save_state ++ rest) = Except.ok (f, rest) := by
  rw [FunctionLocator.load_state, FunctionLocator.save_state, List.append_assoc]
  simp only [readStr_ser f.mangled_name (serUsize f.addr ++ rest) hn]
  simp only [readUsize_ser f.addr rest ha]

theorem pointOfInterest_roundtrip (p : PointOfInterest) (rest : List Nat)
    (hn : p.name.length < 256 ^ 8) :
    PointOfInterest.load_state (p.save_state ++ rest) = Except.ok (p, rest) := by
  rw [PointOfInterest.load_state, PointOfInterest.save_state]
  simp only [readStr_ser p.name rest hn]

/-- The trigger with the UI-only `adjusted_line` annotation dropped (it is not
persisted; `load_state` always sets it to `none`). -/
def normOn : BreakpointOn → BreakpointOn
  | BreakpointOn.Line b => BreakpointOn.Line {b with adjusted_line := none}
  | o => o

/-- Numeric fields fit the fixed-width encodings (usize/u16). -/
def onWf : BreakpointOn → Prop
  | BreakpointOn.Line b =>
    b.path.length < 256 ^ 8 ∧ b.file_version.version < 256 ^ 8 ∧ b.line < 256 ^ 8
  | BreakpointOn.Address b =>
    b.addr < 256 ^ 8 ∧ b.subfunction_level < 256 ^ 2 ∧
      (match b.function with
       | some (f, off) =>
         f.mangled_name.length < 256 ^ 8 ∧ f.addr < 256 ^ 8 ∧ off < 256 ^ 8
       | none => True)
  | BreakpointOn.InitialExec => True
  | BreakpointOn.PointOfInterest p => p.name.length < 256 ^ 8

def BreakpointWf (bp : Breakpoint) : Prop :=
  onWf bp.on' ∧
    (match bp.condition with
     | some c => c.src.length < 256 ^ 8
     | none => True)

/-- Breakpoint equivalence per the claim: same trigger description (up to the
unpersisted `adjusted_line`) and same condition source text. -/
def bpEquiv (a b : Breakpoint) : Prop :=
  normOn a.on' = normOn b.on' ∧
    a.condition.map (fun c => c.src) = b.condition.map (fun c => c.src)

/-- The trigger part of `Breakpoint::save_state` (the first match of
debugger.rs:285-310). -/
def BreakpointOn.save_state : BreakpointOn → List Nat
  | BreakpointOn.Line b =>
    serU8 0 ++ serStr b.path ++ b.file_version.save_state ++ serUsize b.line
  | BreakpointOn.Address b =>
    serU8 1 ++
    (match b.function with
     | none => serU8 0
     | some (f, off) => serU8 1 ++ f.save_state ++ serUsize off) ++
    serUsize b.addr ++ serU16 b.subfunction_level
  | BreakpointOn.InitialExec => serU8 2
  | BreakpointOn.PointOfInterest p => serU8 3 ++ p.save_state

theorem breakpoint_save_split (bp : Breakpoint) :
    bp.save_state = bp.on'.save_state ++
      (match bp.condition with
       | some c => serU8 1 ++ serStr c.src
       | none => serU8 0) := by
  rw [Breakpoint.save_state]
  cases bp.on' <;> rfl

theorem loadBreakpointOn_roundtrip (o : BreakpointOn) (rest : List Nat) (hwf : onWf o) :
    loadBreakpointOn (o.save_state ++ rest) = Except.ok (normOn o, rest) := by
  cases o with
  | Line b =>
    obtain ⟨h1, h2, h3⟩ := hwf
    rw [BreakpointOn.save_state, loadBreakpointOn]
    simp only [List.append_assoc, readU8_ser, Nat.zero_mod, if_pos rfl]
    simp only [readStr_ser b.path (b.file_version.save_state ++ (serUsize b.line ++ rest)) h1]
    simp only [fileVersion_roundtrip b.file_version (serUsize b.line ++ rest) h2]
    simp only [readUsize_ser b.line rest h3]
    rfl
  | Address b =>
    obtain ⟨bf, ba, bs⟩ := b
    obtain ⟨h1, h2, h3⟩ := hwf
    rw [BreakpointOn.save_state, loadBreakpointOn]
    simp only [List.append_assoc, readU8_ser]
    rw [if_neg (by norm_num), if_pos (by norm_num)]
    rcases bf with _ | ⟨f, off⟩
    · simp only [List.append_assoc, readU8_ser, Nat.zero_mod, if_true]
      simp only [readUsize_ser ba (serU16 bs ++ rest) h1]
      simp only [readU16_ser bs rest h2]
      simp [normOn]
    · obtain ⟨hn, ha, ho⟩ := h3
      simp only [List.append_assoc, readU8_ser]
      rw [if_neg (by norm_num), if_pos (by norm_num)]
      simp only [functionLocator_roundtrip f
        (serUsize off ++ (serUsize ba ++ (serU16 bs ++ rest))) hn ha]
      simp only [readUsize_ser off (serUsize ba ++ (serU16 bs ++ rest)) ho]
      simp only [readUsize_ser ba (serU16 bs ++ rest) h1]
      simp only [readU16_ser bs rest h2]
      simp [normOn]
  | InitialExec =>
    rw [BreakpointOn.save_state, loadBreakpointOn]
    simp only [readU8_ser]
    norm_num [normOn]
  | PointOfInterest p =>
    rw [BreakpointOn.save_state, loadBreakpointOn]
    simp only [List.append_assoc, readU8_ser]
    rw [if_neg (by norm_num), if_neg (by norm_num), if_neg (by norm_num),
      if_pos (by norm_num)]
    simp only [pointOfInterest_roundtrip p rest hwf]
    rfl

theorem normOn_idem (o : BreakpointOn) : normOn (normOn o) = normOn o := by
  cases o <;> rfl

theorem breakpoint_roundtrip (parseOk : List Nat → Bool) (bp : Breakpoint)
    (rest : List Nat) (hwf : BreakpointWf bp) :
    ∃ bp', Breakpoint.load_state parseOk (bp.save_state ++ rest) = Except.ok (bp', rest) ∧
      bpEquiv bp bp' := by
  obtain ⟨bon, bcond, bhits, ben, bact⟩ := bp
  obtain ⟨hon, hcond⟩ := hwf
  rw [breakpoint_save_split, List.append_assoc, Breakpoint.load_state]
  rcases bcond with _ | c
  · simp only [loadBreakpointOn_roundtrip bon (serU8 0 ++ rest) hon]
    simp only [readU8_ser, Nat.zero_mod, if_true]
    exact ⟨_, rfl, by simp [bpEquiv, normOn_idem]⟩
  · simp only [List.append_assoc]
    simp only [loadBreakpointOn_roundtrip bon (serU8 1 ++ (serStr c.src ++ rest)) hon]
    simp only [readU8_ser]
    rw [if_neg (by norm_num), if_pos (by norm_num)]
    simp only [readStr_ser c.src rest hcond]
    refine ⟨_, rfl, ?_, ?_⟩
    · exact (normOn_idem bon).symm
    · simp

/-- C7: round trip of breakpoint persistence — serializing any breakpoint
list with `Debugger::save_state` and deserializing with
`Debugger::load_state` succeeds, consumes exactly the produced bytes, and
yields an equivalent list: same `BreakpointOn` trigger (same
path/file-version/line, or function anchor/offset/literal address/inline
depth, or initial-exec, or named point of interest) and the same condition
source text (or no condition).  Numeric fields must fit their fixed-width
encodings (`usize`/`u16`). -/
theorem save_load_roundtrip (parseOk : List Nat → Bool) (bps : List Breakpoint)
    (hwf : ∀ bp ∈ bps, BreakpointWf bp) :
    ∃ bps', Debugger.load_state parseOk (Debugger.save_state bps) = Except.ok (bps', []) ∧
      List.Forall₂ bpEquiv bps bps' := by
  induction bps with
  | nil =>
    refine ⟨[], ?_, List.Forall₂.nil⟩
    rw [Debugger.save_state]
    simp only [List.map_nil, List.flatten_nil, List.nil_append]
    rw [Debugger.load_state]
    rfl
  | cons bp bps ih =>
    obtain ⟨bps', hload, hequiv⟩ := ih (fun b hb => hwf b (List.mem_cons_of_mem _ hb))
    obtain ⟨bp', hbload, hbequiv⟩ := breakpoint_roundtrip parseOk bp
      (Debugger.save_state bps) (hwf bp (List.mem_cons_self _ _))
    refine ⟨bp' :: bps', ?_, List.Forall₂.cons hbequiv hequiv⟩
    have hser : Debugger.save_state (bp :: bps)
        = serU8 1 ++ (bp.save_state ++ Debugger.save_state bps) := by
      rw [Debugger.save_state, Debugger.save_state]
      simp [List.append_assoc]
    rw [hser, Debugger.load_state]
    simp only [readU8_ser]
    rw [if_neg (by norm_num), if_pos (by norm_num)]
    split
    next e heq =>
      rw [hbload] at heq
      exact absurd heq (by simp)
    next bp2 inp3 heq =>
      rw [hbload] at heq
      simp only [Except.ok.injEq, Prod.mk.injEq] at heq
      obtain ⟨h1, h2⟩ := heq
      subst h1
      subst h2
      simp only [hload]

/-- Witness for C7: a two-breakpoint list (a line breakpoint with a condition
and an address breakpoint) round-trips to an equivalent list. -/
theorem save_load_roundtrip_witness :
    ∃ bps', Debugger.load_state (fun _ => true)
        (Debugger.save_state
          [⟨BreakpointOn.Line ⟨[97, 46, 114, 115], ⟨7⟩, 42, some 43⟩,
              some ⟨[120], true, none⟩, 3, true, true⟩,
           ⟨BreakpointOn.Address ⟨some (⟨[95, 90], 4096⟩, 16), 4112, 1⟩,
              none, 0, false, false⟩])
      = Except.ok (bps', []) ∧
      List.Forall₂ bpEquiv
        [⟨BreakpointOn.Line ⟨[97, 46, 114, 115], ⟨7⟩, 42, some 43⟩,
            some ⟨[120], true, none⟩, 3, true, true⟩,
         ⟨BreakpointOn.Address ⟨some (⟨[95, 90], 4096⟩, 16), 4112, 1⟩,
            none, 0, false, false⟩] bps' := by
  apply save_load_roundtrip
  intro bp hbp
  rcases List.mem_cons.mp hbp with h | h
  · subst h
    constructor
    · exact ⟨by norm_num, by norm_num, by norm_num⟩
    · norm_num
  · rcases List.mem_cons.mp h with h | h
    · subst h
      constructor
      · exact ⟨by norm_num, by norm_num, ⟨by norm_num, by norm_num, by norm_num⟩⟩
      · trivial
    · exact absurd h (List.not_mem_nil _)

/-! ## debugger.rs: `unwind_stack` (C6) -/

/-- The sparse register view used during unwinding: only the slots relevant to
the frame loop (`Rip`, `Rsp`); `none` models `regs.has(r) = false`. -/
structure URegisters where
  rip : Option Nat
  rsp : Option Nat
deriving DecidableEq

/-- A stack frame as produced by `unwind_stack` (only the fields the frame
loop itself reads: `addr`, `pseudo_addr`, `regs`; symbolization fills the
rest from external symbol views). -/
structure StackFrame where
  addr : Nat
  pseudo_addr : Nat
  regs : URegisters
deriving DecidableEq

/-- Adjacent-frame property: the next frame never repeats the previous
instruction pointer with an unchanged (known) stack pointer. -/
def frameStepOk (f : StackFrame) (a : Nat) (r : URegisters) : Prop :=
  ¬(a = f.addr ∧ r.rsp.isSome ∧ f.regs.rsp.isSome ∧ r.rsp = f.regs.rsp)

/-- The no-cycle relation between consecutive frames of a stack trace. -/
def frameStep (f g : StackFrame) : Prop :=
  frameStepOk f g.addr g.regs

/-- The frame loop of `Debugger::unwind_stack` (debugger.rs:1571-1622).
`binLookup` models `addr_to_binary` plus the unwind-table presence check
(lines 1585, 1590); `stepFn` models `unwind.step` (line 1591); both consult
external symbol views, so they are oracles.  `firstFrameOnly` is the
`partial` flag of the source (renamed).  Returns the accumulated frames and
the error recorded in `stack.truncated`, if any. -/
def unwind_loop (binLookup : Nat → Except String Unit)
    (stepFn : Nat → URegisters → Except String (URegisters × Bool))
    (firstFrameOnly : Bool) (regs : URegisters) (pseudo_addr : Nat)
    (frames : List StackFrame) : List StackFrame × Option String :=
  if _h : frames.length > 1000 then
    (frames, some "stack too deep")
  else
    let addr := regs.rip.getD 0  -- the source unwraps; RIP is always present here
    match binLookup pseudo_addr with
    | Except.error e => (frames ++ [⟨addr, pseudo_addr, regs⟩], some e)
    | Except.ok _ =>
      let step_result := stepFn pseudo_addr regs
      -- signal trampoline: un-decrement the pseudo-address of the current frame
      let frame : StackFrame :=
        match step_result with
        | Except.ok (_, true) => ⟨addr, regs.rip.getD 0, regs⟩
        | _ => ⟨addr, pseudo_addr, regs⟩
      let frames := frames ++ [frame]
      if firstFrameOnly then (frames, none)
      else
        match step_result with
        | Except.error e => (frames, some e)
        | Except.ok (next_regs, is_signal_trampoline) =>
          match hrip : next_regs.rip with
          | none => (frames, none)  -- this is how stacks usually end
          | some next_addr =>
            if next_addr = 0 then (frames, some "zero return address")
            else if next_addr = addr ∧ next_regs.rsp.isSome ∧ regs.rsp.isSome
                ∧ next_regs.rsp = regs.rsp then
              (frames, some "cycle")
            else
              unwind_loop binLookup stepFn firstFrameOnly next_regs
                (if is_signal_trampoline then next_addr else next_addr - 1) frames
termination_by 1002 - frames.length
decreasing_by
  simp only [List.length_append, List.length_cons, List.length_nil]
  omega

/-- `Debugger::unwind_stack` (debugger.rs:1560): state check, initial
pseudo-address from RIP, then the frame loop starting from an empty trace. -/
def unwind_stack (binLookup : Nat → Except String Unit)
    (stepFn : Nat → URegisters → Except String (URegisters × Bool))
    (threadSuspended firstFrameOnly : Bool) (regs : URegisters) :
    List StackFrame × Option String :=
  if threadSuspended = false then ([], some "running")
  else
    match regs.rip with
    | none => ([], some "register Rip is not known")
    | some rip => unwind_loop binLookup stepFn firstFrameOnly regs rip []

theorem unwind_loop_invariants (binLookup : Nat → Except String Unit)
    (stepFn : Nat → URegisters → Except String (URegisters × Bool))
    (firstFrameOnly : Bool) :
    ∀ n (regs : URegisters) (pseudo_addr : Nat) (frames : List StackFrame),
      1002 - frames.length = n →
      List.Chain' frameStep frames →
      (∀ f, frames.getLast? = some f → frameStepOk f (regs.rip.getD 0) regs) →
      List.Chain' frameStep
          (unwind_loop binLookup stepFn firstFrameOnly regs pseudo_addr frames).1 ∧
      (unwind_loop binLookup stepFn firstFrameOnly regs pseudo_addr frames).1.length
          ≤ max frames.length 1001 := by
  intro n
  induction n using Nat.strong_induction_on with
  | _ n ih =>
    intro regs pseudo_addr frames hn hchain hlast
    rw [unwind_loop]
    by_cases hlen : frames.length > 1000
    · simp only [hlen, dite_true]
      exact ⟨hchain, by omega⟩
    · simp only [hlen, dite_false]
      have hpush : ∀ (fr : StackFrame), fr.addr = regs.rip.getD 0 → fr.regs = regs →
          List.Chain' frameStep (frames ++ [fr]) := by
        intro fr ha hr
        rw [List.chain'_append]
        refine ⟨hchain, List.chain'_singleton fr, ?_⟩
        intro x hx y hy
        simp only [List.head?_cons, Option.mem_def, Option.some.injEq] at hy
        subst hy
        have := hlast x (by simpa using hx)
        rw [frameStep, ha, hr]
        exact this
      cases hbl : binLookup pseudo_addr with
      | error e =>
        simp only []
        refine ⟨hpush _ rfl rfl, ?_⟩
        simp
        omega
      | ok u =>
        simp only []
        cases hsr : stepFn pseudo_addr regs with
        | error e =>
          simp only []
          cases firstFrameOnly with
          | true =>
            simp only [if_true]
            refine ⟨hpush _ rfl rfl, by simp; omega⟩
          | false =>
            simp only [Bool.false_eq_true, if_false]
            refine ⟨hpush _ rfl rfl, by simp; omega⟩
        | ok p =>
          obtain ⟨next_regs, is_tramp⟩ := p
          cases is_tramp with
          | false =>
            simp only []
            cases firstFrameOnly with
            | true =>
              simp only [if_true]
              refine ⟨hpush _ rfl rfl, by simp; omega⟩
            | false =>
              simp only [Bool.false_eq_true, if_false]
              rcases hrip : next_regs.rip with _ | next_addr
              · simp only [hrip]
                refine ⟨hpush _ rfl rfl, by simp; omega⟩
              · simp only [hrip]
                by_cases h0 : next_addr = 0
                · simp only [h0, if_pos rfl]
                  refine ⟨hpush _ rfl rfl, by simp; omega⟩
                · rw [if_neg h0]
                  by_cases hcyc : next_addr = regs.rip.getD 0 ∧ next_regs.rsp.isSome
                      ∧ regs.rsp.isSome ∧ next_regs.rsp = regs.rsp
                  · rw [if_pos hcyc]
                    refine ⟨hpush _ rfl rfl, by simp; omega⟩
                  · rw [if_neg hcyc]
                    have hrec := ih (1002 - (frames ++ [(⟨regs.rip.getD 0, pseudo_addr, regs⟩ : StackFrame)]).length)
                      (by simp; omega) next_regs (next_addr - 1)
                      (frames ++ [⟨regs.rip.getD 0, pseudo_addr, regs⟩]) rfl
                      (hpush _ rfl rfl) ?_
                    · refine ⟨hrec.1, le_trans hrec.2 ?_⟩
                      simp
                      omega
                    · intro f hf
                      rw [List.getLast?_concat] at hf
                      injection hf with hf
                      subst hf
                      rw [frameStepOk, hrip]
                      simpa using hcyc
          | true =>
            simp only []
            cases firstFrameOnly with
            | true =>
              simp only [if_true]
              refine ⟨hpush _ rfl rfl, by simp; omega⟩
            | false =>
              simp only [Bool.false_eq_true, if_false]
              rcases hrip : next_regs.rip with _ | next_addr
              · simp only [hrip]
                refine ⟨hpush _ rfl rfl, by simp; omega⟩
              · simp only [hrip]
                by_cases h0 : next_addr = 0
                · simp only [h0, if_pos rfl]
                  refine ⟨hpush _ rfl rfl, by simp; omega⟩
                · rw [if_neg h0]
                  by_cases hcyc : next_addr = regs.rip.getD 0 ∧ next_regs.rsp.isSome
                      ∧ regs.rsp.isSome ∧ next_regs.rsp = regs.rsp
                  · rw [if_pos hcyc]
                    refine ⟨hpush _ rfl rfl, by simp; omega⟩
                  · rw [if_neg hcyc]
                    have hrec := ih (1002 - (frames ++ [(⟨regs.rip.getD 0, regs.rip.getD 0, regs⟩ : StackFrame)]).length)
                      (by simp; omega) next_regs next_addr
                      (frames ++ [⟨regs.rip.getD 0, regs.rip.getD 0, regs⟩]) rfl
                      (hpush _ rfl rfl) ?_
                    · refine ⟨hrec.1, le_trans hrec.2 ?_⟩
                      simp
                      omega
                    · intro f hf
                      rw [List.getLast?_concat] at hf
                      injection hf with hf
                      subst hf
                      rw [frameStepOk, hrip]
                      simpa using hcyc

/-- C6: `unwind_stack` always terminates with a finite trace — for every
behaviour of the external binary/unwind lookup and unwind step, the frame loop
produces at most 1001 frames (it stops once more than 1000 frames exist, on a
zero or unmappable next instruction pointer, or on an unchanged
instruction/stack pointer pair), and consequently the trace never contains a
frame followed by one with the same instruction pointer and unchanged stack
pointer. -/
theorem unwind_stack_finite_no_cycle (binLookup : Nat → Except String Unit)
    (stepFn : Nat → URegisters → Except String (URegisters × Bool))
    (threadSuspended firstFrameOnly : Bool) (regs : URegisters) :
    (unwind_stack binLookup stepFn threadSuspended firstFrameOnly regs).1.length ≤ 1001 ∧
    List.Chain' frameStep
      (unwind_stack binLookup stepFn threadSuspended firstFrameOnly regs).1 := by
  rw [unwind_stack]
  cases threadSuspended with
  | false => simp
  | true =>
    simp only [Bool.true_eq_false, if_false]
    rcases hrip : regs.rip with _ | rip
    · simp
    · simp only []
      have h := unwind_loop_invariants binLookup stepFn firstFrameOnly
        (1002 - ([] : List StackFrame).length) regs rip [] rfl List.chain'_nil
        (by intro f hf; simp at hf)
      refine ⟨le_trans h.2 (by simp), h.1⟩

/-! ## expr.rs: `ValueBlob` bit-string operations (C5) -/

/-- `ValueBlob` (expr.rs:14): a byte array that avoids heap allocation when
at most 24 bytes suffice.  `Small` holds the 24 bytes of the `[usize; 3]`
as seen through `as_slice`; `Big` holds a byte vector. -/
inductive ValueBlob where
  | Small (a : List Nat)
  | Big (v : List Nat)

/-- `ValueBlob::as_slice` (expr.rs:44): the byte view of the blob. -/
def ValueBlob.slice : ValueBlob → List Nat
  | .Small a => a
  | .Big v => v

/-- `ValueBlob::capacity` (expr.rs:90): 24 for `Small`, the vector length
for `Big`. -/
def ValueBlob.capacity : ValueBlob → Nat
  | .Small _ => 24
  | .Big v => v.length

/-- Mutation through `as_mut_slice`: replace the byte view, keeping the
variant. -/
def ValueBlob.withSlice : ValueBlob → List Nat → ValueBlob
  | .Small _, s => .Small s
  | .Big _, s => .Big s

/-- `Vec::resize(n, 0)`: truncate, or extend with zeros, to length `n`. -/
def vecResize (v : List Nat) (n : Nat) : List Nat :=
  v.take n ++ List.replicate (n - v.length) 0

/-- `ValueBlob::resize` (expr.rs:66): a `Small` is kept as is when 24
bytes suffice and otherwise its 24 bytes move into a zero-extended
vector; a `Big` is resized in place when more than 24 bytes are wanted
and otherwise its first `bytes` bytes move into a fresh `Small` whose
upper bytes are zero. -/
def ValueBlob.resize (self : ValueBlob) (bytes : Nat) : ValueBlob :=
  match self with
  | .Small a =>
    if bytes ≤ 24 then .Small a
    else .Big (vecResize a bytes)
  | .Big v =>
    if 24 < bytes then .Big (vecResize v bytes)
    else .Small (v.take bytes ++ List.replicate (24 - bytes) 0)

/-- `slice::copy_within(srcStart..srcEnd, dest)`: bytes
`[srcStart, srcEnd)` are copied to positions starting at `dest`; all
other positions keep their old value. -/
def copyWithin (s : List Nat) (srcStart srcEnd dest : Nat) : List Nat :=
  (List.range s.length).map fun j =>
    if dest ≤ j ∧ j < dest + (srcEnd - srcStart) then s.getD (srcStart + (j - dest)) 0
    else s.getD j 0

/-- The byte loop of `ValueBlob::shl` (expr.rs:128-132), run for
`i = n-1, n-2, …, 0`: first `slice[i+sh8+1] |= slice[i] >> (8-shm)`,
then `slice[i+sh8] = slice[i] << shm` truncated to a byte. -/
def shlLoop (sh8 shm : Nat) : Nat → List Nat → List Nat
  | 0, s => s
  | n + 1, s =>
    let b := s.getD n 0
    let s1 := s.set (n + sh8 + 1) ((s.getD (n + sh8 + 1) 0) ||| (b >>> (8 - shm)))
    shlLoop sh8 shm n (s1.set (n + sh8) ((b <<< shm) % 256))

/-- `ValueBlob::shl` (expr.rs:121): grow by `(bits+7)/8` bytes, then move
bit `i` to bit `i + bits`.  Bytes below `bits/8` keep their old contents:
neither the `copy_within` of the aligned path nor the byte loop clears
them. -/
def ValueBlob.shl (self : ValueBlob) (bits : Nat) : ValueBlob :=
  let bytes := self.capacity
  let self2 := self.resize (bytes + (bits + 7) / 8)
  if bits % 8 = 0 then
    self2.withSlice (copyWithin self2.slice 0 bytes (bits / 8))
  else
    self2.withSlice (shlLoop (bits / 8) (bits % 8) bytes self2.slice)

/-- `ValueBlob::bitwise_or` (expr.rs:153):
`slice[self_start+i] |= other[other_start+i]` for `i < count`. -/
def ValueBlob.bitwise_or (self : ValueBlob) (self_start : Nat) (other : ValueBlob)
    (other_start count : Nat) : ValueBlob :=
  self.withSlice ((List.range count).foldl
    (fun s i => s.set (self_start + i)
      ((s.getD (self_start + i) 0) ||| (other.slice.getD (other_start + i) 0)))
    self.slice)

/-- `ValueBlob::zero_upper_bits` (expr.rs:160): zero every byte from
index `(bits_to_keep+7)/8` on and mask the partial byte, leaving bits
below `bits_to_keep` unchanged. -/
def ValueBlob.zero_upper_bits (self : ValueBlob) (bits_to_keep : Nat) : ValueBlob :=
  let s := self.slice
  let s1 := (List.range s.length).map fun j =>
    if j < (bits_to_keep + 7) / 8 then s.getD j 0 else 0
  let s2 := if bits_to_keep % 8 ≠ 0 then
      s1.set (bits_to_keep / 8) ((s1.getD (bits_to_keep / 8) 0) &&& (2 ^ (bits_to_keep % 8) - 1))
    else s1
  self.withSlice s2

/-- `dest[pos..pos+src.len()].copy_from_slice(src)`. -/
def copyFromSlice (dest : List Nat) (pos : Nat) (src : List Nat) : List Nat :=
  (List.range dest.length).map fun j =>
    if pos ≤ j ∧ j < pos + src.length then src.getD (j - pos) 0 else dest.getD j 0

/-- `ValueBlob::append_bits` (expr.rs:98): concatenate bits
`[bit_offset, bit_offset+size_in_bits)` of `other` after the first
`self_bits` bits of `self`, via the aligned fast path or the
shift-and-or slow path. -/
def ValueBlob.append_bits (self : ValueBlob) (self_bits : Nat) (other : ValueBlob)
    (size_in_bits bit_offset : Nat) : ValueBlob :=
  let other2 := other.zero_upper_bits (bit_offset + size_in_bits)
  let total_bytes := (self_bits + size_in_bits + 7) / 8
  let self2 := self.resize total_bytes
  if self_bits % 8 = 0 ∧ bit_offset = 0 then
    let src := other2.slice.take ((size_in_bits + 7) / 8)
    self2.withSlice (copyFromSlice self2.slice (self_bits / 8) src)
  else
    let shift := 16 - bit_offset % 8 + self_bits % 8
    let other3 := other2.shl shift
    let self_whole_bytes := self_bits / 8
    let skip_bytes := 2 + bit_offset / 8
    self2.bitwise_or self_whole_bytes other3 skip_bytes (total_bytes - self_whole_bytes)

/-- Bit `i` of a blob's byte view, little-endian within each byte. -/
def blobBit (v : ValueBlob) (i : Nat) : Bool :=
  Nat.testBit (v.slice.getD (i / 8) 0) (i % 8)

/-- Wellformedness maintained by every blob the source constructs: a
`Small` stores exactly 24 bytes, a `Big` more than 24, and every entry
fits in a byte. -/
def blobWf : ValueBlob → Prop
  | .Small a => a.length = 24 ∧ ∀ x ∈ a, x < 256
  | .Big v => 24 < v.length ∧ ∀ x ∈ v, x < 256

theorem getD_set_self (s : List Nat) (i x : Nat) (h : i < s.length) :
    (s.set i x).getD i 0 = x := by
  rw [List.getD_eq_getElem?_getD, List.getElem?_set_self h]
  rfl

theorem getD_set_ne (s : List Nat) (i j x : Nat) (h : i ≠ j) :
    (s.set i x).getD j 0 = s.getD j 0 := by
  rw [List.getD_eq_getElem?_getD, List.getElem?_set_ne h, ← List.getD_eq_getElem?_getD]

theorem getD_eq_zero_of_le (s : List Nat) (j : Nat) (h : s.length ≤ j) :
    s.getD j 0 = 0 := by
  rw [List.getD_eq_getElem?_getD, List.getElem?_eq_none (by omega : s.length ≤ j)]
  rfl

theorem getD_map_range (f : Nat → Nat) (n j : Nat) :
    ((List.range n).map f).getD j 0 = if j < n then f j else 0 := by
  rw [List.getD_eq_getElem?_getD, List.getElem?_map]
  by_cases h : j < n
  · rw [List.getElem?_range h, if_pos h]
    rfl
  · rw [if_neg h, List.getElem?_eq_none (by simpa using Nat.le_of_not_lt h)]
    rfl

theorem getD_replicate_zero (m i : Nat) : (List.replicate m 0).getD i 0 = 0 := by
  rw [List.getD_eq_getElem?_getD, List.getElem?_replicate]
  split <;> rfl

theorem getD_mem (s : List Nat) (j : Nat) (h : j < s.length) : s.getD j 0 ∈ s := by
  rw [List.getD_eq_getElem?_getD, List.getElem?_eq_getElem h]
  exact List.getElem_mem h

theorem byte_lt (v : ValueBlob) (hwf : blobWf v) (j : Nat) : v.slice.getD j 0 < 256 := by
  by_cases h : j < v.slice.length
  · cases v with
    | Small a => exact hwf.2 _ (getD_mem _ _ h)
    | Big w => exact hwf.2 _ (getD_mem _ _ h)
  · rw [getD_eq_zero_of_le _ _ (Nat.le_of_not_lt h)]
    norm_num

theorem blobLen_eq (v : ValueBlob) (hwf : blobWf v) : v.slice.length = v.capacity := by
  cases v with
  | Small a => exact hwf.1
  | Big w => rfl

theorem capacity_ge_24 (v : ValueBlob) (hwf : blobWf v) : 24 ≤ v.capacity := by
  cases v with
  | Small a => exact le_refl _
  | Big w => exact le_of_lt hwf.1

theorem slice_withSlice (v : ValueBlob) (s : List Nat) : (v.withSlice s).slice = s := by
  cases v <;> rfl

theorem vecResize_length (v : List Nat) (n : Nat) : (vecResize v n).length = n := by
  simp [vecResize]
  omega

theorem vecResize_getD (v : List Nat) (n j : Nat) :
    (vecResize v n).getD j 0 = if j < n then v.getD j 0 else 0 := by
  rw [vecResize]
  by_cases h : j < (v.take n).length
  · have hn : j < n := by simp [List.length_take] at h; omega
    rw [List.getD_append _ _ _ _ h, if_pos hn, List.getD_eq_getElem?_getD,
      List.getElem?_take, if_pos hn, ← List.getD_eq_getElem?_getD]
  · rw [List.getD_append_right _ _ _ _ (Nat.le_of_not_lt h)]
    by_cases hn : j < n
    · have hlen : v.length ≤ j := by simp [List.length_take] at h; omega
      rw [if_pos hn, getD_eq_zero_of_le v j hlen, getD_replicate_zero]
    · rw [if_neg hn, getD_replicate_zero]

theorem vecResize_mem (v : List Nat) (n : Nat) (hv : ∀ x ∈ v, x < 256) :
    ∀ x ∈ vecResize v n, x < 256 := by
  intro x hx
  rcases List.mem_append.mp hx with h | h
  · exact hv x (List.take_subset _ _ h)
  · rw [List.eq_of_mem_replicate h]
    norm_num

theorem resize_wf (v : ValueBlob) (hwf : blobWf v) (n : Nat) : blobWf (v.resize n) := by
  cases v with
  | Small a =>
    rw [ValueBlob.resize]
    by_cases h : n ≤ 24
    · rw [if_pos h]; exact hwf
    · rw [if_neg h]
      exact ⟨by rw [vecResize_length]; omega, vecResize_mem a n hwf.2⟩
  | Big w =>
    rw [ValueBlob.resize]
    by_cases h : 24 < n
    · rw [if_pos h]
      exact ⟨by rw [vecResize_length]; omega, vecResize_mem w n hwf.2⟩
    · rw [if_neg h]
      refine ⟨?_, ?_⟩
      · have := hwf.1
        simp [List.length_take]
        omega
      · intro x hx
        rcases List.mem_append.mp hx with hh | hh
        · exact hwf.2 x (List.take_subset _ _ hh)
        · rw [List.eq_of_mem_replicate hh]
          norm_num

theorem resize_capacity (v : ValueBlob) (hwf : blobWf v) (n : Nat)
    (hn : v.capacity ≤ n) : (v.resize n).capacity = n := by
  cases v with
  | Small a =>
    rw [ValueBlob.resize]
    by_cases h : n ≤ 24
    · rw [if_pos h]
      have : (24 : Nat) ≤ n := hn
      rw [ValueBlob.capacity]
      omega
    · rw [if_neg h, ValueBlob.capacity, vecResize_length]
  | Big w =>
    rw [ValueBlob.resize]
    have h24 : 24 < n := lt_of_lt_of_le hwf.1 hn
    rw [if_pos h24, ValueBlob.capacity, vecResize_length]

theorem resize_getD_of_le (v : ValueBlob) (hwf : blobWf v) (n j : Nat)
    (hn : v.capacity ≤ n) : (v.resize n).slice.getD j 0 = v.slice.getD j 0 := by
  have hlen : v.slice.length = v.capacity := blobLen_eq v hwf
  cases v with
  | Small a =>
    rw [ValueBlob.resize]
    by_cases h : n ≤ 24
    · rw [if_pos h]
    · rw [if_neg h]
      show (vecResize a n).getD j 0 = a.getD j 0
      rw [vecResize_getD]
      by_cases hj : j < n
      · rw [if_pos hj]
      · rw [if_neg hj,
          getD_eq_zero_of_le a j (by have h1 : a.length = 24 := hwf.1; omega)]
  | Big w =>
    rw [ValueBlob.resize]
    have h24 : 24 < n := lt_of_lt_of_le hwf.1 hn
    rw [if_pos h24]
    show (vecResize w n).getD j 0 = w.getD j 0
    rw [vecResize_getD]
    by_cases hj : j < n
    · rw [if_pos hj]
    · rw [if_neg hj,
        getD_eq_zero_of_le w j (by have h1 : w.length ≤ n := hn; omega)]

theorem resize_bit_lt (v : ValueBlob) (hwf : blobWf v) (n i : Nat) (h : i < 8 * n) :
    blobBit (v.resize n) i = blobBit v i := by
  have hlen : v.slice.length = v.capacity := blobLen_eq v hwf
  have hj : i / 8 < n := by omega
  cases v with
  | Small a =>
    rw [ValueBlob.resize]
    by_cases hc : n ≤ 24
    · rw [if_pos hc]
    · rw [if_neg hc]
      show Nat.testBit ((vecResize a n).getD (i / 8) 0) (i % 8) = _
      rw [vecResize_getD, if_pos hj]
      rfl
  | Big w =>
    rw [ValueBlob.resize]
    by_cases hc : 24 < n
    · rw [if_pos hc]
      show Nat.testBit ((vecResize w n).getD (i / 8) 0) (i % 8) = _
      rw [vecResize_getD, if_pos hj]
      rfl
    · rw [if_neg hc]
      have htl : (w.take n).length = n := by
        have := hwf.1
        simp [List.length_take]
        omega
      simp only [blobBit, ValueBlob.slice]
      rw [List.getD_append _ _ _ _ (by rw [htl]; omega), List.getD_eq_getElem?_getD,
        List.getElem?_take, if_pos hj, ← List.getD_eq_getElem?_getD]

theorem resize_bit_ge (v : ValueBlob) (hwf : blobWf v) (n i : Nat) (h : 8 * n ≤ i)
    (hz : blobBit v i = false) : blobBit (v.resize n) i = false := by
  have hj : n ≤ i / 8 := by omega
  cases v with
  | Small a =>
    rw [ValueBlob.resize]
    by_cases hc : n ≤ 24
    · rw [if_pos hc]
      exact hz
    · rw [if_neg hc]
      show Nat.testBit ((vecResize a n).getD (i / 8) 0) (i % 8) = false
      rw [vecResize_getD, if_neg (by omega)]
      exact Nat.zero_testBit _
  | Big w =>
    rw [ValueBlob.resize]
    by_cases hc : 24 < n
    · rw [if_pos hc]
      show Nat.testBit ((vecResize w n).getD (i / 8) 0) (i % 8) = false
      rw [vecResize_getD, if_neg (by omega)]
      exact Nat.zero_testBit _
    · rw [if_neg hc]
      have htl : (w.take n).length = n := by
        have := hwf.1
        simp [List.length_take]
        omega
      simp only [blobBit, ValueBlob.slice]
      rw [List.getD_append_right _ _ _ _ (by rw [htl]; omega), getD_replicate_zero]
      exact Nat.zero_testBit _

theorem testBit_shl_mod256 (x s r : Nat) :
    Nat.testBit ((x <<< s) % 256) r
      = (decide (s ≤ r) && decide (r < 8) && Nat.testBit x (r - s)) := by
  have h256 : (256 : Nat) = 2 ^ 8 := rfl
  rw [h256, Nat.testBit_mod_two_pow, Nat.testBit_shiftLeft]
  by_cases h1 : s ≤ r <;> by_cases h2 : r < 8 <;>
    simp [h1, h2, ge_iff_le]

theorem testBit_ge_eight (x r : Nat) (hx : x < 256) (hr : 8 ≤ r) :
    Nat.testBit x r = false :=
  Nat.testBit_lt_two_pow (lt_of_lt_of_le hx
    (by
      have h : (256 : Nat) = 2 ^ 8 := rfl
      rw [h]
      exact Nat.pow_le_pow_right (by norm_num) hr))

theorem withSlice_capacity (v : ValueBlob) (s : List Nat) :
    (v.withSlice s).capacity = match v with
      | .Small _ => 24
      | .Big _ => s.length := by
  cases v <;> rfl

theorem getD_set (s : List Nat) (i j x : Nat) :
    (s.set i x).getD j 0 = if i = j ∧ i < s.length then x else s.getD j 0 := by
  rw [List.getD_eq_getElem?_getD, List.getElem?_set]
  by_cases h1 : i = j
  · by_cases h2 : i < s.length
    · rw [if_pos h1, if_pos h2, if_pos ⟨h1, h2⟩]
      rfl
    · rw [if_pos h1, if_neg h2, if_neg (by tauto),
        getD_eq_zero_of_le s j (by omega)]
      rfl
  · rw [if_neg h1, if_neg (by tauto), ← List.getD_eq_getElem?_getD]

theorem zero_upper_bits_bit (v : ValueBlob) (k i : Nat) :
    blobBit (v.zero_upper_bits k) i = (decide (i < k) && blobBit v i) := by
  rw [ValueBlob.zero_upper_bits]
  simp only [blobBit, slice_withSlice]
  have hs1len : ((List.range v.slice.length).map fun j =>
      if j < (k + 7) / 8 then v.slice.getD j 0 else 0).length = v.slice.length := by
    simp
  by_cases hk : k % 8 = 0
  · rw [if_neg (by omega)]
    rw [getD_map_range]
    by_cases hlen : i / 8 < v.slice.length
    · rw [if_pos hlen]
      by_cases hik : i < k
      · rw [if_pos (by omega : i / 8 < (k + 7) / 8)]
        simp [hik]
      · rw [if_neg (by omega : ¬ i / 8 < (k + 7) / 8)]
        simp [hik, Nat.zero_testBit]
    · rw [if_neg hlen, getD_eq_zero_of_le v.slice (i / 8) (by omega)]
      simp [Nat.zero_testBit]
  · rw [if_pos (by omega)]
    rw [getD_set, hs1len]
    by_cases heq : k / 8 = i / 8 ∧ k / 8 < v.slice.length
    · rw [if_pos heq]
      rw [getD_map_range, if_pos (by omega : k / 8 < v.slice.length),
        if_pos (by omega : k / 8 < (k + 7) / 8)]
      rw [Nat.testBit_and, Nat.testBit_two_pow_sub_one]
      rw [heq.1]
      by_cases hik : i < k
      · rw [decide_eq_true (by omega : i % 8 < k % 8), decide_eq_true hik,
          Bool.and_true, Bool.true_and]
      · rw [decide_eq_false (by omega : ¬ i % 8 < k % 8), decide_eq_false hik,
          Bool.and_false, Bool.false_and]
    · rw [if_neg heq]
      rw [getD_map_range]
      by_cases hlen : i / 8 < v.slice.length
      · rw [if_pos hlen]
        by_cases hik : i < k
        · rw [if_pos (by omega : i / 8 < (k + 7) / 8)]
          simp [hik]
        · have hgt : ¬ i / 8 < (k + 7) / 8 := by
            rcases Decidable.not_and_iff_or_not.mp heq with h | h
            · omega
            · omega
          rw [if_neg hgt]
          simp [hik, Nat.zero_testBit]
      · rw [if_neg hlen, getD_eq_zero_of_le v.slice (i / 8) (by omega)]
        simp [Nat.zero_testBit]

theorem zero_upper_bits_length (v : ValueBlob) (k : Nat) :
    (v.zero_upper_bits k).slice.length = v.slice.length := by
  rw [ValueBlob.zero_upper_bits, slice_withSlice]
  by_cases hk : k % 8 ≠ 0 <;> simp [hk]

theorem zero_upper_bits_capacity (v : ValueBlob) (k : Nat) :
    (v.zero_upper_bits k).capacity = v.capacity := by
  cases v with
  | Small a => rfl
  | Big w =>
    have h : (ValueBlob.zero_upper_bits (ValueBlob.Big w) k).capacity
        = ((ValueBlob.Big w).zero_upper_bits k).slice.length := rfl
    rw [h, zero_upper_bits_length]
    rfl

theorem zero_upper_bits_wf (v : ValueBlob) (hwf : blobWf v) (k : Nat) :
    blobWf (v.zero_upper_bits k) := by
  have hlen := zero_upper_bits_length v k
  have hmem : ∀ x ∈ (v.zero_upper_bits k).slice, x < 256 := by
    rw [ValueBlob.zero_upper_bits, slice_withSlice]
    intro x hx
    have hs1 : ∀ y ∈ (List.range v.slice.length).map
        (fun j => if j < (k + 7) / 8 then v.slice.getD j 0 else 0), y < 256 := by
      intro y hy
      obtain ⟨j, _, hj2⟩ := List.mem_map.mp hy
      rw [← hj2]
      by_cases hc : j < (k + 7) / 8
      · rw [if_pos hc]
        exact byte_lt v hwf j
      · rw [if_neg hc]
        norm_num
    by_cases hk : k % 8 ≠ 0
    · rw [if_pos hk] at hx
      rcases List.mem_or_eq_of_mem_set hx with h | h
      · exact hs1 x h
      · rw [h]
        exact lt_of_le_of_lt Nat.and_le_left
          (by
            rw [getD_map_range]
            by_cases hc : k / 8 < v.slice.length
            · rw [if_pos hc]
              by_cases hc2 : k / 8 < (k + 7) / 8
              · rw [if_pos hc2]
                exact byte_lt v hwf _
              · rw [if_neg hc2]
                norm_num
            · rw [if_neg hc]
              norm_num)
    · rw [if_neg hk] at hx
      exact hs1 x hx
  cases v with
  | Small a =>
    exact ⟨hlen.trans hwf.1, hmem⟩
  | Big w =>
    exact ⟨lt_of_lt_of_eq hwf.1 hlen.symm, hmem⟩

theorem shlLoop_length (sh8 shm : Nat) :
    ∀ (n : Nat) (s : List Nat), (shlLoop sh8 shm n s).length = s.length := by
  intro n
  induction n with
  | zero => intro s; rfl
  | succ n ih =>
    intro s
    rw [shlLoop, ih]
    simp

theorem shlLoop_getD (sh8 shm : Nat) :
    ∀ (n : Nat) (s : List Nat), n + sh8 + 1 ≤ s.length → ∀ j,
      (shlLoop sh8 shm n s).getD j 0 =
        if j < sh8 ∨ n + sh8 < j ∨ n = 0 then s.getD j 0
        else if j = n + sh8 then s.getD j 0 ||| (s.getD (n - 1) 0 >>> (8 - shm))
        else if j = sh8 then (s.getD 0 0 <<< shm) % 256
        else ((s.getD (j - sh8) 0 <<< shm) % 256)
          ||| (s.getD (j - sh8 - 1) 0 >>> (8 - shm)) := by
  intro n
  induction n with
  | zero =>
    intro s _ j
    rw [shlLoop, if_pos (Or.inr (Or.inr rfl))]
  | succ n ih =>
    intro s hlen j
    rw [shlLoop]
    have hlen1 : (s.set (n + sh8 + 1)
        ((s.getD (n + sh8 + 1) 0) ||| (s.getD n 0 >>> (8 - shm)))).length = s.length := by
      simp
    have hset1 : n + sh8 + 1 < s.length := by omega
    have ihs := ih ((s.set (n + sh8 + 1)
        ((s.getD (n + sh8 + 1) 0) ||| (s.getD n 0 >>> (8 - shm)))).set (n + sh8)
        ((s.getD n 0 <<< shm) % 256)) (by simp; omega) j
    rw [ihs]
    have hA : ((s.set (n + sh8 + 1)
        ((s.getD (n + sh8 + 1) 0) ||| (s.getD n 0 >>> (8 - shm)))).set (n + sh8)
        ((s.getD n 0 <<< shm) % 256)).getD (n + sh8) 0 = (s.getD n 0 <<< shm) % 256 := by
      rw [getD_set, if_pos ⟨rfl, by simp; omega⟩]
    have hB : ((s.set (n + sh8 + 1)
        ((s.getD (n + sh8 + 1) 0) ||| (s.getD n 0 >>> (8 - shm)))).set (n + sh8)
        ((s.getD n 0 <<< shm) % 256)).getD (n + sh8 + 1) 0
        = s.getD (n + sh8 + 1) 0 ||| (s.getD n 0 >>> (8 - shm)) := by
      rw [getD_set, if_neg (by intro hcon; omega), getD_set, if_pos ⟨rfl, hset1⟩]
    have hC : ∀ m, m ≠ n + sh8 → m ≠ n + sh8 + 1 → ((s.set (n + sh8 + 1)
        ((s.getD (n + sh8 + 1) 0) ||| (s.getD n 0 >>> (8 - shm)))).set (n + sh8)
        ((s.getD n 0 <<< shm) % 256)).getD m 0 = s.getD m 0 := by
      intro m h1 h2
      rw [getD_set, if_neg (by intro hcon; omega), getD_set,
        if_neg (by intro hcon; omega)]
    by_cases hj1 : j < sh8
    · rw [if_pos (Or.inl hj1), if_pos (Or.inl hj1), hC j (by omega) (by omega)]
    · by_cases hj2 : n + 1 + sh8 < j
      · rw [if_pos (Or.inr (Or.inl (by omega : n + sh8 < j))),
          if_pos (Or.inr (Or.inl hj2)), hC j (by omega) (by omega)]
      · by_cases hj3 : j = n + 1 + sh8
        · rw [if_neg (by omega : ¬ (j < sh8 ∨ n + 1 + sh8 < j ∨ n + 1 = 0)),
            if_pos hj3,
            if_pos (show j < sh8 ∨ n + sh8 < j ∨ n = 0 from Or.inr (Or.inl (by omega)))]
          have he : j = n + sh8 + 1 := by omega
          rw [he, hB]
          have he2 : n + 1 - 1 = n := by omega
          rw [he2]
        · by_cases hj4 : j = sh8
          · rw [if_neg (by omega : ¬ (j < sh8 ∨ n + 1 + sh8 < j ∨ n + 1 = 0)),
              if_neg (by omega : ¬ j = n + 1 + sh8), if_pos hj4]
            by_cases hn : n = 0
            · rw [if_pos (Or.inr (Or.inr hn))]
              rw [hj4, hn]
              have h0 : (0 : Nat) + sh8 = sh8 := by omega
              rw [hn] at hA
              rw [h0] at hA ⊢
              rw [hA, if_pos rfl]
            · rw [if_neg (by omega : ¬ (j < sh8 ∨ n + sh8 < j ∨ n = 0)),
                if_neg (by omega : ¬ j = n + sh8), if_pos hj4,
                hC 0 (by omega) (by omega)]
          · rw [if_neg (by omega : ¬ (j < sh8 ∨ n + 1 + sh8 < j ∨ n + 1 = 0)),
              if_neg (by omega : ¬ j = n + 1 + sh8), if_neg hj4]
            by_cases hj5 : j = n + sh8
            · rw [if_neg (by omega : ¬ (j < sh8 ∨ n + sh8 < j ∨ n = 0)),
                if_pos hj5, hj5, hA, hC (n - 1) (by omega) (by omega)]
              have he1 : n + sh8 - sh8 = n := by omega
              rw [he1, if_neg (by omega : ¬ n + sh8 = sh8)]
            · rw [if_neg (by omega : ¬ (j < sh8 ∨ n + sh8 < j ∨ n = 0)),
                if_neg hj5, if_neg hj4,
                hC (j - sh8) (by omega) (by omega),
                hC (j - sh8 - 1) (by omega) (by omega)]

theorem shl_bit (v : ValueBlob) (hwf : blobWf v) (bits i : Nat) :
    blobBit (v.shl bits) i =
      if i < bits / 8 * 8 then blobBit v i
      else if i < bits then false
      else blobBit v (i - bits) := by
  have hc : 24 ≤ v.capacity := capacity_ge_24 v hwf
  have hlenv : v.slice.length = v.capacity := blobLen_eq v hwf
  have hwf2 : blobWf (v.resize (v.capacity + (bits + 7) / 8)) := resize_wf v hwf _
  have hcap2 : (v.resize (v.capacity + (bits + 7) / 8)).capacity
      = v.capacity + (bits + 7) / 8 := resize_capacity v hwf _ (by omega)
  have hlen2 : (v.resize (v.capacity + (bits + 7) / 8)).slice.length
      = v.capacity + (bits + 7) / 8 := (blobLen_eq _ hwf2).trans hcap2
  have hs2 : ∀ j, (v.resize (v.capacity + (bits + 7) / 8)).slice.getD j 0
      = v.slice.getD j 0 := fun j => resize_getD_of_le v hwf _ j (by omega)
  have hunf : v.shl bits =
      if bits % 8 = 0 then
        (v.resize (v.capacity + (bits + 7) / 8)).withSlice
          (copyWithin (v.resize (v.capacity + (bits + 7) / 8)).slice 0 v.capacity (bits / 8))
      else
        (v.resize (v.capacity + (bits + 7) / 8)).withSlice
          (shlLoop (bits / 8) (bits % 8) v.capacity
            (v.resize (v.capacity + (bits + 7) / 8)).slice) := rfl
  rw [hunf]
  by_cases hal : bits % 8 = 0
  · rw [if_pos hal]
    simp only [blobBit, slice_withSlice]
    rw [copyWithin]
    simp only [getD_map_range]
    rw [hlen2]
    by_cases hi : i < bits / 8 * 8
    · rw [if_pos hi, if_pos (by omega : i / 8 < v.capacity + (bits + 7) / 8),
        if_neg (by intro hcon; omega :
          ¬ (bits / 8 ≤ i / 8 ∧ i / 8 < bits / 8 + (v.capacity - 0))),
        hs2 (i / 8)]
    · rw [if_neg hi, if_neg (by omega : ¬ i < bits)]
      by_cases hj : i / 8 < v.capacity + (bits + 7) / 8
      · rw [if_pos hj]
        by_cases hcopy : bits / 8 ≤ i / 8 ∧ i / 8 < bits / 8 + (v.capacity - 0)
        · rw [if_pos hcopy, hs2 (0 + (i / 8 - bits / 8))]
          have e1 : 0 + (i / 8 - bits / 8) = (i - bits) / 8 := by omega
          have e2 : i % 8 = (i - bits) % 8 := by omega
          rw [e1, e2]
        · rw [if_neg hcopy, hs2 (i / 8),
            getD_eq_zero_of_le v.slice (i / 8) (by omega),
            getD_eq_zero_of_le v.slice ((i - bits) / 8) (by omega),
            Nat.zero_testBit, Nat.zero_testBit]
      · rw [if_neg hj,
          getD_eq_zero_of_le v.slice ((i - bits) / 8) (by omega),
          Nat.zero_testBit, Nat.zero_testBit]
  · rw [if_neg hal]
    simp only [blobBit, slice_withSlice]
    rw [shlLoop_getD (bits / 8) (bits % 8) v.capacity
      ((v.resize (v.capacity + (bits + 7) / 8)).slice) (by rw [hlen2]; omega)]
    by_cases hR1 : i / 8 < bits / 8
    · rw [if_pos (show i / 8 < bits / 8 ∨ v.capacity + bits / 8 < i / 8 ∨ v.capacity = 0
          by omega),
        hs2 (i / 8), if_pos (by omega : i < bits / 8 * 8)]
    · by_cases hR2 : v.capacity + bits / 8 < i / 8
      · rw [if_pos (show i / 8 < bits / 8 ∨ v.capacity + bits / 8 < i / 8 ∨ v.capacity = 0
            by omega),
          hs2 (i / 8),
          getD_eq_zero_of_le v.slice (i / 8) (by omega),
          if_neg (by omega : ¬ i < bits / 8 * 8), if_neg (by omega : ¬ i < bits),
          getD_eq_zero_of_le v.slice ((i - bits) / 8) (by omega),
          Nat.zero_testBit, Nat.zero_testBit]
      · by_cases hR3 : i / 8 = v.capacity + bits / 8
        · rw [if_neg (show ¬ (i / 8 < bits / 8 ∨ v.capacity + bits / 8 < i / 8 ∨
              v.capacity = 0) by omega),
            if_pos hR3,
            hs2 (i / 8), hs2 (v.capacity - 1),
            getD_eq_zero_of_le v.slice (i / 8) (by omega),
            Nat.zero_or, Nat.testBit_shiftRight,
            if_neg (by omega : ¬ i < bits / 8 * 8), if_neg (by omega : ¬ i < bits)]
          by_cases hr : i % 8 < bits % 8
          · have e1 : (i - bits) / 8 = v.capacity - 1 := by omega
            have e2 : (i - bits) % 8 = 8 - bits % 8 + i % 8 := by omega
            rw [e1, e2]
          · rw [testBit_ge_eight _ _ (byte_lt v hwf _) (by omega),
              getD_eq_zero_of_le v.slice ((i - bits) / 8) (by omega),
              Nat.zero_testBit]
        · by_cases hR4 : i / 8 = bits / 8
          · rw [if_neg (show ¬ (i / 8 < bits / 8 ∨ v.capacity + bits / 8 < i / 8 ∨
                v.capacity = 0) by omega),
              if_neg (by omega : ¬ i / 8 = v.capacity + bits / 8),
              if_pos hR4,
              hs2 0, testBit_shl_mod256]
            by_cases hr : i % 8 < bits % 8
            · rw [if_neg (by omega : ¬ i < bits / 8 * 8), if_pos (by omega : i < bits),
                decide_eq_false (by omega : ¬ bits % 8 ≤ i % 8), Bool.false_and,
                Bool.false_and]
            · rw [if_neg (by omega : ¬ i < bits / 8 * 8), if_neg (by omega : ¬ i < bits),
                decide_eq_true (by omega : bits % 8 ≤ i % 8),
                decide_eq_true (by omega : i % 8 < 8),
                Bool.true_and, Bool.true_and]
              have e1 : (i - bits) / 8 = 0 := by omega
              have e2 : (i - bits) % 8 = i % 8 - bits % 8 := by omega
              rw [e1, e2]
          · rw [if_neg (show ¬ (i / 8 < bits / 8 ∨ v.capacity + bits / 8 < i / 8 ∨
                v.capacity = 0) by omega),
              if_neg (by omega : ¬ i / 8 = v.capacity + bits / 8),
              if_neg hR4,
              hs2 (i / 8 - bits / 8), hs2 (i / 8 - bits / 8 - 1),
              Nat.testBit_or, testBit_shl_mod256, Nat.testBit_shiftRight,
              if_neg (by omega : ¬ i < bits / 8 * 8), if_neg (by omega : ¬ i < bits)]
            by_cases hr : i % 8 < bits % 8
            · rw [decide_eq_false (by omega : ¬ bits % 8 ≤ i % 8), Bool.false_and,
                Bool.false_and, Bool.false_or]
              have e1 : i / 8 - bits / 8 - 1 = (i - bits) / 8 := by omega
              have e2 : 8 - bits % 8 + i % 8 = (i - bits) % 8 := by omega
              rw [e1, e2]
            · rw [decide_eq_true (by omega : bits % 8 ≤ i % 8),
                decide_eq_true (by omega : i % 8 < 8),
                Bool.true_and, Bool.true_and,
                testBit_ge_eight _ _ (byte_lt v hwf _)
                  (by omega : 8 ≤ 8 - bits % 8 + i % 8),
                Bool.or_false]
              have e1 : i / 8 - bits / 8 = (i - bits) / 8 := by omega
              have e2 : i % 8 - bits % 8 = (i - bits) % 8 := by omega
              rw [e1, e2]

theorem resize_capacity_ge (v : ValueBlob) (hwf : blobWf v) (n : Nat) :
    n ≤ (v.resize n).capacity := by
  cases v with
  | Small a =>
    rw [ValueBlob.resize]
    by_cases h : n ≤ 24
    · rw [if_pos h]
      exact h
    · rw [if_neg h]
      show n ≤ (vecResize a n).length
      rw [vecResize_length]
  | Big w =>
    rw [ValueBlob.resize]
    by_cases h : 24 < n
    · rw [if_pos h]
      show n ≤ (vecResize w n).length
      rw [vecResize_length]
    · rw [if_neg h]
      exact le_trans (by omega) (le_refl 24)

theorem orLoop_length (ss os : Nat) (other : List Nat) :
    ∀ (count : Nat) (s : List Nat),
      ((List.range count).foldl (fun s i => s.set (ss + i)
        ((s.getD (ss + i) 0) ||| (other.getD (os + i) 0))) s).length = s.length := by
  intro count
  induction count with
  | zero => intro s; rfl
  | succ n ih =>
    intro s
    rw [List.range_succ, List.foldl_append]
    simp only [List.foldl_cons, List.foldl_nil]
    rw [List.length_set, ih]

theorem orLoop_getD (ss os : Nat) (other : List Nat) :
    ∀ (count : Nat) (s : List Nat) (j : Nat),
      ((List.range count).foldl (fun s i => s.set (ss + i)
        ((s.getD (ss + i) 0) ||| (other.getD (os + i) 0))) s).getD j 0 =
      if ss ≤ j ∧ j < ss + count ∧ j < s.length
      then s.getD j 0 ||| other.getD (os + (j - ss)) 0
      else s.getD j 0 := by
  intro count
  induction count with
  | zero =>
    intro s j
    rw [if_neg (by intro hcon; omega)]
    rfl
  | succ n ih =>
    intro s j
    rw [List.range_succ, List.foldl_append]
    simp only [List.foldl_cons, List.foldl_nil]
    rw [getD_set, orLoop_length ss os other n s]
    by_cases hj : ss + n = j ∧ ss + n < s.length
    · rw [if_pos hj, ih s (ss + n), if_neg (by intro hcon; omega),
        if_pos (show ss ≤ j ∧ j < ss + (n + 1) ∧ j < s.length by omega)]
      rw [hj.1]
      rw [show os + (j - ss) = os + n by omega]
    · rw [if_neg hj, ih s j]
      by_cases hk : ss ≤ j ∧ j < ss + n ∧ j < s.length
      · rw [if_pos hk,
          if_pos (show ss ≤ j ∧ j < ss + (n + 1) ∧ j < s.length by omega)]
      · rw [if_neg hk, if_neg (by intro hcon; omega)]

/-- Bit-level behaviour of `append_bits` under the corrected precondition:
besides the claimed range condition, bits of `other` in the window
`[bit_offset - self_bits % 8, bit_offset)` must be zero — the slow path
ORs them into the last partial byte of `self`. -/
theorem append_bits_bit (A B : ValueBlob) (a b o : Nat)
    (hAwf : blobWf A) (hBwf : blobWf B)
    (hA : ∀ i, a ≤ i → blobBit A i = false)
    (hob : o + b ≤ 8 * B.capacity)
    (hwin : ∀ i, i < o → o ≤ i + a % 8 → blobBit B i = false)
    (p : Nat) :
    blobBit (A.append_bits a B b o) p =
      if p < a then blobBit A p
      else if p < a + b then blobBit B (p - a + o)
      else false := by
  have hBcap : 24 ≤ B.capacity := capacity_ge_24 B hBwf
  have hB1wf : blobWf (B.zero_upper_bits (o + b)) := zero_upper_bits_wf B hBwf _
  have hB1len : (B.zero_upper_bits (o + b)).slice.length = B.slice.length :=
    zero_upper_bits_length B _
  have hBlen : B.slice.length = B.capacity := blobLen_eq B hBwf
  have hA1wf : blobWf (A.resize ((a + b + 7) / 8)) := resize_wf A hAwf _
  have hA1len : (A.resize ((a + b + 7) / 8)).slice.length
      = (A.resize ((a + b + 7) / 8)).capacity := blobLen_eq _ hA1wf
  have hA1cap : (a + b + 7) / 8 ≤ (A.resize ((a + b + 7) / 8)).capacity :=
    resize_capacity_ge A hAwf _
  have hAlt : ∀ q, q < 8 * ((a + b + 7) / 8) →
      blobBit (A.resize ((a + b + 7) / 8)) q = blobBit A q :=
    fun q h => resize_bit_lt A hAwf _ q h
  have hAge : ∀ q, 8 * ((a + b + 7) / 8) ≤ q → a ≤ q →
      blobBit (A.resize ((a + b + 7) / 8)) q = false :=
    fun q h1 h2 => resize_bit_ge A hAwf _ q h1 (hA q h2)
  have hB1bit : ∀ q, blobBit (B.zero_upper_bits (o + b)) q
      = (decide (q < o + b) && blobBit B q) :=
    fun q => zero_upper_bits_bit B (o + b) q
  have happ : A.append_bits a B b o =
      (if a % 8 = 0 ∧ o = 0 then
        (A.resize ((a + b + 7) / 8)).withSlice
          (copyFromSlice (A.resize ((a + b + 7) / 8)).slice (a / 8)
            ((B.zero_upper_bits (o + b)).slice.take ((b + 7) / 8)))
      else
        (A.resize ((a + b + 7) / 8)).bitwise_or (a / 8)
          ((B.zero_upper_bits (o + b)).shl (16 - o % 8 + a % 8)) (2 + o / 8)
          ((a + b + 7) / 8 - a / 8)) := rfl
  rw [happ]
  by_cases hfp : a % 8 = 0 ∧ o = 0
  · rw [if_pos hfp]
    obtain ⟨ha8, ho0⟩ := hfp
    subst ho0
    simp only [blobBit, slice_withSlice]
    rw [copyFromSlice]
    simp only [getD_map_range]
    have hsrclen : ((B.zero_upper_bits (0 + b)).slice.take ((b + 7) / 8)).length
        = (b + 7) / 8 := by
      rw [List.length_take, hB1len, hBlen]
      omega
    have hsrc : ∀ m, m < (b + 7) / 8 →
        ((B.zero_upper_bits (0 + b)).slice.take ((b + 7) / 8)).getD m 0
        = (B.zero_upper_bits (0 + b)).slice.getD m 0 := by
      intro m hm
      rw [List.getD_eq_getElem?_getD, List.getElem?_take, if_pos hm,
        ← List.getD_eq_getElem?_getD]
    by_cases hp1 : p < a
    · rw [if_pos hp1,
        if_pos (show p / 8 < (A.resize ((a + b + 7) / 8)).slice.length by
          rw [hA1len]; omega),
        if_neg (by intro hcon; rw [hsrclen] at hcon; omega)]
      have hx := hAlt p (by omega)
      simp only [blobBit] at hx
      rw [hx]
    · rw [if_neg hp1]
      by_cases hp2 : p < a + b
      · rw [if_pos hp2,
          if_pos (show p / 8 < (A.resize ((a + b + 7) / 8)).slice.length by
            rw [hA1len]; omega),
          if_pos (show a / 8 ≤ p / 8 ∧ p / 8 < a / 8 +
              ((B.zero_upper_bits (0 + b)).slice.take ((b + 7) / 8)).length by
            rw [hsrclen]; omega),
          hsrc (p / 8 - a / 8) (by omega)]
        have hb := hB1bit (p - a)
        simp only [blobBit] at hb
        rw [show p / 8 - a / 8 = (p - a) / 8 by omega,
          show p % 8 = (p - a) % 8 by omega, hb,
          decide_eq_true (by omega : p - a < 0 + b), Bool.true_and,
          show p - a + 0 = p - a by omega]
      · rw [if_neg hp2]
        by_cases hp3 : p / 8 < (A.resize ((a + b + 7) / 8)).slice.length
        · rw [if_pos hp3]
          by_cases hp4 : a / 8 ≤ p / 8 ∧ p / 8 < a / 8 +
              ((B.zero_upper_bits (0 + b)).slice.take ((b + 7) / 8)).length
          · rw [if_pos hp4, hsrc (p / 8 - a / 8) (by rw [hsrclen] at hp4; omega)]
            have hb := hB1bit (p - a)
            simp only [blobBit] at hb
            rw [show p / 8 - a / 8 = (p - a) / 8 by omega,
              show p % 8 = (p - a) % 8 by omega, hb,
              decide_eq_false (by omega : ¬ p - a < 0 + b), Bool.false_and]
          · rw [if_neg hp4]
            rw [hsrclen] at hp4
            by_cases hp5 : p < 8 * ((a + b + 7) / 8)
            · have hx := hAlt p hp5
              simp only [blobBit] at hx
              rw [hx]
              have hz := hA p (by omega)
              simp only [blobBit] at hz
              rw [hz]
            · have hx := hAge p (by omega) (by omega)
              simp only [blobBit] at hx
              rw [hx]
        · rw [if_neg hp3]
          exact Nat.zero_testBit _
  · rw [if_neg hfp]
    have hor : (A.resize ((a + b + 7) / 8)).bitwise_or (a / 8)
        ((B.zero_upper_bits (o + b)).shl (16 - o % 8 + a % 8)) (2 + o / 8)
        ((a + b + 7) / 8 - a / 8)
        = (A.resize ((a + b + 7) / 8)).withSlice
            ((List.range ((a + b + 7) / 8 - a / 8)).foldl
              (fun s i => s.set (a / 8 + i) ((s.getD (a / 8 + i) 0) |||
                (((B.zero_upper_bits (o + b)).shl (16 - o % 8 + a % 8)).slice.getD
                  (2 + o / 8 + i) 0)))
              (A.resize ((a + b + 7) / 8)).slice) := rfl
    rw [hor]
    simp only [blobBit, slice_withSlice]
    rw [orLoop_getD (a / 8) (2 + o / 8)
      ((B.zero_upper_bits (o + b)).shl (16 - o % 8 + a % 8)).slice
      ((a + b + 7) / 8 - a / 8) (A.resize ((a + b + 7) / 8)).slice (p / 8)]
    have hq := shl_bit (B.zero_upper_bits (o + b)) hB1wf (16 - o % 8 + a % 8)
      (8 * (2 + o / 8 + (p / 8 - a / 8)) + p % 8)
    simp only [blobBit] at hq
    rw [show (8 * (2 + o / 8 + (p / 8 - a / 8)) + p % 8) / 8
          = 2 + o / 8 + (p / 8 - a / 8) by omega,
      show (8 * (2 + o / 8 + (p / 8 - a / 8)) + p % 8) % 8 = p % 8 by omega] at hq
    by_cases hp1 : p < a
    · rw [if_pos hp1]
      by_cases hq1 : p / 8 < a / 8
      · rw [if_neg (by intro hcon; omega)]
        have hx := hAlt p (by omega)
        simp only [blobBit] at hx
        rw [hx]
      · rw [if_pos (show a / 8 ≤ p / 8 ∧ p / 8 < a / 8 + ((a + b + 7) / 8 - a / 8)
            ∧ p / 8 < (A.resize ((a + b + 7) / 8)).slice.length by
            rw [hA1len]; omega), Nat.testBit_or]
        have hx := hAlt p (by omega)
        simp only [blobBit] at hx
        rw [hx, hq,
          if_neg (by omega : ¬ 8 * (2 + o / 8 + (p / 8 - a / 8)) + p % 8
            < (16 - o % 8 + a % 8) / 8 * 8)]
        by_cases hqs : 8 * (2 + o / 8 + (p / 8 - a / 8)) + p % 8
            < 16 - o % 8 + a % 8
        · rw [if_pos hqs, Bool.or_false]
        · rw [if_neg hqs,
            show 8 * (2 + o / 8 + (p / 8 - a / 8)) + p % 8
              - (16 - o % 8 + a % 8) = p + o - a by omega]
          have hb := hB1bit (p + o - a)
          simp only [blobBit] at hb
          rw [hb, decide_eq_true (by omega : p + o - a < o + b), Bool.true_and]
          have hw := hwin (p + o - a) (by omega) (by omega)
          simp only [blobBit] at hw
          rw [hw, Bool.or_false]
    · rw [if_neg hp1]
      by_cases hp2 : p < a + b
      · rw [if_pos hp2,
          if_pos (show a / 8 ≤ p / 8 ∧ p / 8 < a / 8 + ((a + b + 7) / 8 - a / 8)
            ∧ p / 8 < (A.resize ((a + b + 7) / 8)).slice.length by
            rw [hA1len]; omega), Nat.testBit_or]
        have hx := hAlt p (by omega)
        simp only [blobBit] at hx
        rw [hx]
        have hz := hA p (by omega)
        simp only [blobBit] at hz
        rw [hz, Bool.false_or, hq,
          if_neg (by omega : ¬ 8 * (2 + o / 8 + (p / 8 - a / 8)) + p % 8
            < (16 - o % 8 + a % 8) / 8 * 8),
          if_neg (by omega : ¬ 8 * (2 + o / 8 + (p / 8 - a / 8)) + p % 8
            < 16 - o % 8 + a % 8),
          show 8 * (2 + o / 8 + (p / 8 - a / 8)) + p % 8
            - (16 - o % 8 + a % 8) = p - a + o by omega]
        have hb := hB1bit (p - a + o)
        simp only [blobBit] at hb
        rw [hb, decide_eq_true (by omega : p - a + o < o + b), Bool.true_and]
      · rw [if_neg hp2]
        by_cases hp6 : p / 8 < (a + b + 7) / 8
        · rw [if_pos (show a / 8 ≤ p / 8 ∧ p / 8 < a / 8 + ((a + b + 7) / 8 - a / 8)
              ∧ p / 8 < (A.resize ((a + b + 7) / 8)).slice.length by
              rw [hA1len]; omega), Nat.testBit_or]
          have hx := hAlt p (by omega)
          simp only [blobBit] at hx
          rw [hx]
          have hz := hA p (by omega)
          simp only [blobBit] at hz
          rw [hz, Bool.false_or, hq,
            if_neg (by omega : ¬ 8 * (2 + o / 8 + (p / 8 - a / 8)) + p % 8
              < (16 - o % 8 + a % 8) / 8 * 8),
            if_neg (by omega : ¬ 8 * (2 + o / 8 + (p / 8 - a / 8)) + p % 8
              < 16 - o % 8 + a % 8),
            show 8 * (2 + o / 8 + (p / 8 - a / 8)) + p % 8
              - (16 - o % 8 + a % 8) = p - a + o by omega]
          have hb := hB1bit (p - a + o)
          simp only [blobBit] at hb
          rw [hb, decide_eq_false (by omega : ¬ p - a + o < o + b), Bool.false_and]
        · rw [if_neg (by intro hcon; omega)]
          have hx := hAge p (by omega) (by omega)
          simp only [blobBit] at hx
          rw [hx]

/-- C5 (amended): `ValueBlob::append_bits(a, B, b, o)` concatenates bit
strings as claimed — the first `a` bits stay those of `A`, the next `b`
bits are bits `[o, o+b)` of `B`, and all higher bits are zero — PROVIDED
that, in addition to the claimed hypotheses (`A` holds an `a`-bit string,
bits `[o, o+b)` lie within `B`'s storage), the bits of `B` in the window
`[o - a % 8, o)` are zero.  Without that extra hypothesis the claim is
false: the slow path ORs those bits of `B` into the last partial byte of
`A` (see the counterexample). -/
theorem append_bits_spec (A B : ValueBlob) (a b o : Nat)
    (hAwf : blobWf A) (hBwf : blobWf B)
    (hA : ∀ i, a ≤ i → blobBit A i = false)
    (hob : o + b ≤ 8 * B.capacity)
    (hwin : ∀ i, i < o → o ≤ i + a % 8 → blobBit B i = false) :
    (∀ p, p < a → blobBit (A.append_bits a B b o) p = blobBit A p) ∧
    (∀ p, a ≤ p → p < a + b →
      blobBit (A.append_bits a B b o) p = blobBit B (p - a + o)) ∧
    (∀ p, a + b ≤ p → blobBit (A.append_bits a B b o) p = false) := by
  refine ⟨fun p hp => ?_, fun p hp1 hp2 => ?_, fun p hp => ?_⟩
  · rw [append_bits_bit A B a b o hAwf hBwf hA hob hwin p, if_pos hp]
  · rw [append_bits_bit A B a b o hAwf hBwf hA hob hwin p, if_neg (by omega),
      if_pos hp2]
  · rw [append_bits_bit A B a b o hAwf hBwf hA hob hwin p, if_neg (by omega),
      if_neg (by omega)]

/-- C5 counterexample to the claim as stated: let `A` be a `Small` blob of
24 zero bytes holding the 1-bit string `0` (every bit of `A` is zero), and
`B` a `Small` blob whose byte 0 is `1`, so bit 0 of `B` is set and bits
`[1, 2)` of `B` — which lie within `B`'s 24-byte storage — are zero.
`append_bits(1, B, 1, 1)` must, per the claim, leave the first bit equal
to `A`'s bit 0 (`false`); instead the slow path turns it into `true`,
because `B`'s bit 0 — below the requested offset — is ORed into the
partial first byte. -/
theorem append_bits_claim_counterexample :
    blobBit ((ValueBlob.Small (List.replicate 24 0)).append_bits 1
        (ValueBlob.Small (1 :: List.replicate 23 0)) 1 1) 0 = true
    ∧ blobBit (ValueBlob.Small (List.replicate 24 0)) 0 = false
    ∧ (∀ i, 1 ≤ i → blobBit (ValueBlob.Small (List.replicate 24 0)) i = false)
    ∧ blobBit (ValueBlob.Small (1 :: List.replicate 23 0)) 1 = false
    ∧ 1 + 1 ≤ 8 * (ValueBlob.Small (1 :: List.replicate 23 0)).capacity := by
  refine ⟨by decide, by decide, fun i _ => ?_, by decide, by decide⟩
  simp only [blobBit, ValueBlob.slice]
  rw [getD_replicate_zero]
  exact Nat.zero_testBit _

/-- Witness for C5: a concrete instance of the amended theorem — appending
bits `[1, 4)` of a blob with byte 0 = `2` onto a 4-bit zero string places
bit 2 of `B` at result position 5. -/
theorem append_bits_spec_witness :
    blobBit ((ValueBlob.Small (List.replicate 24 0)).append_bits 4
      (ValueBlob.Small (2 :: List.replicate 23 0)) 3 1) 5
    = blobBit (ValueBlob.Small (2 :: List.replicate 23 0)) (5 - 4 + 1) :=
  (append_bits_spec (ValueBlob.Small (List.replicate 24 0))
    (ValueBlob.Small (2 :: List.replicate 23 0)) 4 3 1
    ⟨by decide, by decide⟩
    ⟨by decide, by decide⟩
    (fun i _ => by
      simp only [blobBit, ValueBlob.slice]
      rw [getD_replicate_zero]
      exact Nat.zero_testBit _)
    (by decide)
    (fun i h1 h2 => by
      have hi : i = 0 := by omega
      subst hi
      decide)).2.1 5 (by omega) (by omega)

/-! ## expr.rs: `eval_dwarf_expression` rejection behaviour (C8) -/

/-- Error kinds of `error.rs` used by the evaluator (err! macro's first
argument). -/
inductive ErrorKind where
  | Dwarf
  | NotImplemented
  | OptimizedAway
deriving DecidableEq

/-- An `Error`: kind plus message. -/
structure EvalError where
  kind : ErrorKind
  msg : String
deriving DecidableEq

/-- The `EvaluationResult` requests the driver loop (expr.rs:940-1049)
answers.  `Resolvable` stands for every resumable arm (memory, registers,
frame base, CFA, at-location, relocated/indexed address, base type);
its payload is that arm's outcome — resume, or fail with that arm's
error. -/
inductive EvalRequest where
  | RequiresTls
  | RequiresEntryValue
  | RequiresParameterRef
  | Resolvable (outcome : Except EvalError Unit)

/-- The request loop of `eval_dwarf_expression` (expr.rs:940-1049): resume
until complete; `RequiresTls` returns a `NotImplemented` error
(expr.rs:1044), `RequiresEntryValue` and `RequiresParameterRef` return
`OptimizedAway` errors (expr.rs:1047-1048). -/
def evalLoop : List EvalRequest → Except EvalError Unit
  | [] => .ok ()
  | .RequiresTls :: _ => .error ⟨.NotImplemented, "TLS is not supported"⟩
  | .RequiresEntryValue :: _ => .error ⟨.OptimizedAway, "requires entry value"⟩
  | .RequiresParameterRef :: _ => .error ⟨.OptimizedAway, "requires parameter ref"⟩
  | .Resolvable (.error e) :: _ => .error e
  | .Resolvable (.ok _) :: rest => evalLoop rest

/-- `gimli::Location` as matched in the pieces loop (expr.rs:1058-1087).
`Value` carries the converted integer (or the conversion's error);
`Register` carries the looked-up register value, or the error of an
unsupported / optimized-away register. -/
inductive PieceLocation where
  | Empty
  | Value (v : Except EvalError Nat)
  | Bytes (bs : List Nat)
  | Register (r : Except EvalError Nat)
  | Address (addr : Nat)
  | ImplicitPointer

/-- A `gimli::Piece`: location plus optional bit size and bit offset. -/
structure DwarfPiece where
  location : PieceLocation
  size_in_bits : Option Nat
  bit_offset : Option Nat

/-- `ValueBlob::new` (expr.rs:20): `Small([v, 0, 0])`, i.e. the 8
little-endian bytes of `v` followed by 16 zero bytes. -/
def ValueBlob.new (v : Nat) : ValueBlob :=
  .Small (natToLE 8 v ++ List.replicate 16 0)

/-- `ValueBlob::with_capacity` (expr.rs:30). -/
def ValueBlob.with_capacity (bytes : Nat) : ValueBlob :=
  if bytes ≤ 24 then .Small (List.replicate 24 0) else .Big (List.replicate bytes 0)

/-- `ValueBlob::from_slice` (expr.rs:38). -/
def ValueBlob.from_slice (s : List Nat) : ValueBlob :=
  if s.length ≤ 24 then .Small (s ++ List.replicate (24 - s.length) 0) else .Big s

/-- `AddrOrValueBlob` (expr.rs:189). -/
inductive AddrOrValueBlob where
  | Addr (a : Nat)
  | Blob (b : ValueBlob)

/-- `AddrOrValueBlob::into_value` (expr.rs:196): a blob must be long
enough; an address is read from memory (the `memory` oracle returns the
bytes read, or the read's error). -/
def AddrOrValueBlob.into_value (v : AddrOrValueBlob) (bytes : Nat)
    (memory : Nat → Nat → Except EvalError (List Nat)) : Except EvalError ValueBlob :=
  match v with
  | .Blob b => if b.capacity < bytes then .error ⟨.Dwarf, "value too short"⟩ else .ok b
  | .Addr a =>
    match memory a bytes with
    | .error e => .error e
    | .ok bs => .ok ((ValueBlob.with_capacity bytes).withSlice
        (copyFromSlice (ValueBlob.with_capacity bytes).slice 0 (bs.take bytes)))

/-- The per-piece value and `blob_bytes` (expr.rs:1057-1087): an empty
location is an `OptimizedAway` error, an implicit pointer a `Dwarf`
error. -/
def pieceVal (piece : DwarfPiece) : Except EvalError (AddrOrValueBlob × Nat) :=
  match piece.location with
  | .Empty => .error ⟨.OptimizedAway, "optimized away"⟩
  | .Value (.error e) => .error e
  | .Value (.ok v) => .ok (.Blob (ValueBlob.new v), 8)
  | .Bytes bs => .ok (.Blob (ValueBlob.from_slice bs), bs.length)
  | .Register (.error e) => .error e
  | .Register (.ok v) => .ok (.Blob (ValueBlob.new v), 8)
  | .Address a => .ok (.Addr a, (piece.size_in_bits.getD 64 + 7) / 8)
  | .ImplicitPointer => .error ⟨.Dwarf, "implicit pointer"⟩

/-- The piece-assembly loop (expr.rs:1053-1101): a zero-bit piece is a
`Dwarf` error ("empty piece"); a single full-sized piece is returned
directly; otherwise pieces are concatenated bit by bit with
`append_bits`. -/
def piecesLoop (memory : Nat → Nat → Except EvalError (List Nat)) (one_piece : Bool) :
    List DwarfPiece → ValueBlob → Nat → Except EvalError AddrOrValueBlob
  | [], res, _ => .ok (.Blob res)
  | piece :: rest, res, res_bits =>
    match pieceVal piece with
    | .error e => .error e
    | .ok (val, blob_bytes) =>
      if piece.size_in_bits.getD (blob_bytes * 8 - piece.bit_offset.getD 0) = 0 then
        .error ⟨.Dwarf, "empty piece"⟩
      else if one_piece = true ∧ piece.bit_offset.getD 0 = 0 ∧
          piece.size_in_bits.getD (blob_bytes * 8 - piece.bit_offset.getD 0)
            = blob_bytes * 8 then
        .ok val
      else
        match val.into_value
            ((piece.size_in_bits.getD (blob_bytes * 8 - piece.bit_offset.getD 0)
              + piece.bit_offset.getD 0 + 7) / 8) memory with
        | .error e => .error e
        | .ok v => piecesLoop memory one_piece rest
            (res.append_bits res_bits v
              (piece.size_in_bits.getD (blob_bytes * 8 - piece.bit_offset.getD 0))
              (piece.bit_offset.getD 0))
            (res_bits + piece.size_in_bits.getD (blob_bytes * 8 - piece.bit_offset.getD 0))

/-- `eval_dwarf_expression` (expr.rs:917-1102), with the expression's
behaviour abstracted into the request list it produces and the piece list
`eval.result()` returns on completion. -/
def eval_dwarf_expression (memory : Nat → Nat → Except EvalError (List Nat))
    (requests : List EvalRequest) (pieces : List DwarfPiece) :
    Except EvalError AddrOrValueBlob :=
  match evalLoop requests with
  | .error e => .error e
  | .ok _ => piecesLoop memory (decide (pieces.length = 1)) pieces (ValueBlob.new 0) 0

theorem evalLoop_resolves : ∀ (pre : List EvalRequest),
    (∀ r ∈ pre, r = EvalRequest.Resolvable (Except.ok ())) →
    ∀ rest, evalLoop (pre ++ rest) = evalLoop rest := by
  intro pre
  induction pre with
  | nil => intro _ rest; rfl
  | cons r pre ih =>
    intro h rest
    have hr := h r (List.mem_cons_self _ _)
    rw [hr]
    show evalLoop (EvalRequest.Resolvable (Except.ok ()) :: (pre ++ rest)) = _
    rw [evalLoop]
    exact ih (fun x hx => h x (List.mem_cons_of_mem _ hx)) rest

theorem piecesLoop_false_bad (memory : Nat → Nat → Except EvalError (List Nat)) :
    ∀ (pieces : List DwarfPiece) (res : ValueBlob) (rb : Nat),
      (∃ p ∈ pieces, p.location = PieceLocation.Empty ∨ p.size_in_bits = some 0) →
      ∀ v, piecesLoop memory false pieces res rb ≠ Except.ok v := by
  intro pieces
  induction pieces with
  | nil =>
    intro res rb hbad v
    obtain ⟨p, hp, _⟩ := hbad
    exact absurd hp (List.not_mem_nil _)
  | cons piece rest ih =>
    intro res rb hbad v hok
    rw [piecesLoop] at hok
    cases hpv : pieceVal piece with
    | error e =>
      rw [hpv] at hok
      simp at hok
    | ok pr =>
      obtain ⟨val, blob_bytes⟩ := pr
      rw [hpv] at hok
      simp only [] at hok
      by_cases hsz : piece.size_in_bits.getD (blob_bytes * 8 - piece.bit_offset.getD 0) = 0
      · rw [if_pos hsz] at hok
        simp at hok
      · rw [if_neg hsz, if_neg (by intro hcon; simp at hcon)] at hok
        cases hiv : val.into_value ((piece.size_in_bits.getD
            (blob_bytes * 8 - piece.bit_offset.getD 0) + piece.bit_offset.getD 0 + 7) / 8)
            memory with
        | error e =>
          rw [hiv] at hok
          simp at hok
        | ok w =>
          rw [hiv] at hok
          refine ih _ _ ?_ v hok
          obtain ⟨p, hp, hb⟩ := hbad
          rcases List.mem_cons.mp hp with h | h
          · subst h
            rcases hb with hb | hb
            · rw [pieceVal, hb] at hpv
              exact absurd hpv (by simp)
            · rw [hb] at hsz
              exact absurd rfl hsz
          · exact ⟨p, h, hb⟩

/-- C8 (amended): `eval_dwarf_expression` never produces a value for a
location expression that requires TLS or an entry value, but the two are
reported differently: TLS is rejected with a `NotImplemented` error
("TLS is not supported"), while an entry value is rejected as
`OptimizedAway` ("requires entry value"); and a piece whose location is
empty or whose size is zero bits makes the whole evaluation return an
error rather than a value.  The claim's assertion that TLS is reported as
"optimized away" is false (see the counterexample). -/
theorem eval_dwarf_rejects (memory : Nat → Nat → Except EvalError (List Nat))
    (pieces : List DwarfPiece) :
    (∀ pre post, (∀ r ∈ pre, r = EvalRequest.Resolvable (Except.ok ())) →
      eval_dwarf_expression memory (pre ++ EvalRequest.RequiresTls :: post) pieces
        = Except.error ⟨ErrorKind.NotImplemented, "TLS is not supported"⟩) ∧
    (∀ pre post, (∀ r ∈ pre, r = EvalRequest.Resolvable (Except.ok ())) →
      eval_dwarf_expression memory (pre ++ EvalRequest.RequiresEntryValue :: post) pieces
        = Except.error ⟨ErrorKind.OptimizedAway, "requires entry value"⟩) ∧
    (∀ requests,
      (∃ p ∈ pieces, p.location = PieceLocation.Empty ∨ p.size_in_bits = some 0) →
      ∀ v, eval_dwarf_expression memory requests pieces ≠ Except.ok v) := by
  refine ⟨fun pre post hpre => ?_, fun pre post hpre => ?_, fun requests hbad v hok => ?_⟩
  · rw [eval_dwarf_expression, evalLoop_resolves pre hpre]
    rfl
  · rw [eval_dwarf_expression, evalLoop_resolves pre hpre]
    rfl
  · rw [eval_dwarf_expression] at hok
    cases hev : evalLoop requests with
    | error e =>
      rw [hev] at hok
      simp at hok
    | ok u =>
      rw [hev] at hok
      simp only [] at hok
      by_cases hl : pieces.length = 1
      · obtain ⟨p, hrest⟩ := List.length_eq_one.mp hl
        subst hrest
        obtain ⟨q, hq, hbadq⟩ := hbad
        rw [List.mem_singleton] at hq
        subst hq
        rw [piecesLoop] at hok
        cases hpv : pieceVal q with
        | error e =>
          rw [hpv] at hok
          simp at hok
        | ok pr =>
          obtain ⟨val, blob_bytes⟩ := pr
          rw [hpv] at hok
          simp only [] at hok
          rcases hbadq with hb | hb
          · rw [pieceVal, hb] at hpv
            exact absurd hpv (by simp)
          · rw [hb] at hok
            rw [if_pos (show (some 0).getD (blob_bytes * 8 - q.bit_offset.getD 0) = 0
              from rfl)] at hok
            simp at hok
      · rw [decide_eq_false hl] at hok
        exact piecesLoop_false_bad memory _ _ _ hbad v hok

/-- C8 counterexample to the claim as stated: a location expression that
requires TLS is rejected with error kind `NotImplemented` and message
"TLS is not supported" — not reported as "optimized away"
(`ErrorKind.OptimizedAway`), which is what entry values get. -/
theorem eval_tls_counterexample :
    eval_dwarf_expression (fun _ _ => Except.error ⟨ErrorKind.Dwarf, "unused"⟩)
      [EvalRequest.RequiresTls] []
      = Except.error ⟨ErrorKind.NotImplemented, "TLS is not supported"⟩
    ∧ ErrorKind.NotImplemented ≠ ErrorKind.OptimizedAway :=
  ⟨rfl, by decide⟩

/-- Witness for C8: with one resolvable request before it, a TLS request
makes the evaluation fail with the `NotImplemented` error. -/
theorem eval_dwarf_rejects_witness :
    eval_dwarf_expression (fun _ _ => Except.error ⟨ErrorKind.Dwarf, "unused"⟩)
      [EvalRequest.Resolvable (Except.ok ()), EvalRequest.RequiresTls]
      [⟨PieceLocation.Empty, none, none⟩]
      = Except.error ⟨ErrorKind.NotImplemented, "TLS is not supported"⟩ :=
  (eval_dwarf_rejects (fun _ _ => Except.error ⟨ErrorKind.Dwarf, "unused"⟩)
    [⟨PieceLocation.Empty, none, none⟩]).1
    [EvalRequest.Resolvable (Except.ok ())] []
    (fun r hr => by
      rw [List.mem_singleton] at hr
      exact hr)

/-! ## search.rs: `memmem_maybe_case_sensitive` (C9) -/

/-- First index `i` in `[start, start + count)` with `f i = true` — the
shape of the search loops (`for i in a..b { if hit { return Some(i) } }`). -/
def findFirst (f : Nat → Bool) : Nat → Nat → Option Nat
  | _, 0 => none
  | start, n + 1 => if f start then some start else findFirst f (start + 1) n

/-- One lane of the `compare` helper (search.rs:423-429): `offset = hay - b'A'`
in wrapping i8 arithmetic, `is_upper = 26 >(signed) offset` (all-ones when
true), and `hay | (is_upper & lowercase_mask)`.  The signed comparison on the
byte `(h + 191) % 256` holds iff that byte is below 26 or at least 128. -/
def simdLower (lowercase_mask h : Nat) : Nat :=
  h ||| ((if (h + 191) % 256 < 26 ∨ 128 ≤ (h + 191) % 256 then 255 else 0) &&& lowercase_mask)

/-- Bits `0..n` of a 32-lane movemask: bit `l` is set iff lane `l` matched. -/
def laneBits (eq : Nat → Bool) : Nat → Nat
  | 0 => 0
  | l + 1 => laneBits eq l + (if eq l then 2 ^ l else 0)

/-- `_mm256_movemask_epi8(_mm256_cmpeq_epi8(lowered hay, need))` as a `u32`:
bit `l` set iff `simdLower` of hay lane `l` equals needle lane `l`. -/
def compareMask (lowercase_mask : Nat) (hayb needb : Nat → Nat) : Nat :=
  laneBits (fun l => decide (simdLower lowercase_mask (hayb l) = needb l)) 32

/-- A byte of the haystack's address space, indexed from 32 bytes before the
slice so that the suffix loads' up-to-32-byte under-run stays in `Nat`:
`t = 32 + k` addresses haystack byte `k`; everything outside the slice is
unspecified adjacent memory, provided by the `junk` oracle (those lanes are
always masked off). -/
def hayAt (junk : Nat → Nat) (hay : List Nat) (t : Nat) : Nat :=
  if 32 ≤ t ∧ t < 32 + hay.length then hay.getD (t - 32) 0 else junk t

/-- A byte of the needle's padded buffer (`PaddedString` guarantees 32
readable bytes on both sides): `t = 32 + k` addresses needle byte `k`, and
`t < 32` / `t ≥ 32 + len` fall into the zero padding. -/
def needleAt (needle : PaddedString) (t : Nat) : Nat :=
  needle.s.getD t 0

/-- The middle 32-byte blocks of the long-needle path (search.rs:451-459):
`while j < needle_len - 32 { if chunk j mismatches { break } j += 32 }`,
successful iff the loop runs to `j ≥ needle_len - 32`. -/
def midLoop (chunkOk : Nat → Bool) (nl : Nat) (j : Nat) : Bool :=
  if _h : j < nl - 32 then
    if chunkOk j then midLoop chunkOk nl (j + 32) else false
  else true
termination_by nl - 32 - j
decreasing_by omega

/-- `memmem_maybe_case_sensitive` (search.rs:406-500).  `junk` supplies the
out-of-slice bytes unaligned loads can see (always masked off), `alignMod64`
is `haystack.as_ptr() % 64` (which picks the switch point between the
prefix-compare and suffix-compare variants of the short-needle path). -/
def memmem_maybe_case_sensitive (junk : Nat → Nat) (alignMod64 : Nat)
    (haystack : List Nat) (needle : PaddedString) (case_sensitive : Bool) :
    Option Nat :=
  if needle.get.isEmpty then some 0
  else if haystack.length < needle.get.length then none
  else if 32 < needle.get.length then
    findFirst (fun i =>
      decide (compareMask (if case_sensitive = true then 0 else 32)
        (fun l => hayAt junk haystack (32 + i + l))
        (fun l => needleAt needle (32 + l)) = 2 ^ 32 - 1)
      && decide (compareMask (if case_sensitive = true then 0 else 32)
        (fun l => hayAt junk haystack (i + needle.get.length + l))
        (fun l => needleAt needle (needle.get.length + l)) = 2 ^ 32 - 1)
      && midLoop (fun j =>
        decide (compareMask (if case_sensitive = true then 0 else 32)
          (fun l => hayAt junk haystack (32 + i + j + l))
          (fun l => needleAt needle (32 + j + l)) = 2 ^ 32 - 1))
        needle.get.length 32)
      0 (haystack.length - needle.get.length + 1)
  else
    match findFirst (fun i =>
        decide (compareMask (if case_sensitive = true then 0 else 32)
          (fun l => hayAt junk haystack (32 + i + l))
          (fun l => needleAt needle (32 + l))
          &&& ((2 ^ 32 - 1) >>> (32 - needle.get.length))
          = (2 ^ 32 - 1) >>> (32 - needle.get.length)))
        0 (min (if 32 < (2 ^ 64 + 32 - alignMod64 % 64) % 2 ^ 64 then 0
            else (2 ^ 64 + 32 - alignMod64 % 64) % 2 ^ 64)
          (haystack.length - needle.get.length + 1)) with
    | some i => some i
    | none => findFirst (fun i =>
        decide (compareMask (if case_sensitive = true then 0 else 32)
          (fun l => hayAt junk haystack (i + needle.get.length + l))
          (fun l => needleAt needle (needle.get.length + l))
          &&& (((2 ^ 32 - 1) <<< (32 - needle.get.length)) % 2 ^ 32)
          = ((2 ^ 32 - 1) <<< (32 - needle.get.length)) % 2 ^ 32))
        (if 32 < (2 ^ 64 + 32 - alignMod64 % 64) % 2 ^ 64 then 0
          else (2 ^ 64 + 32 - alignMod64 % 64) % 2 ^ 64)
        (haystack.length - needle.get.length + 1
          - (if 32 < (2 ^ 64 + 32 - alignMod64 % 64) % 2 ^ 64 then 0
            else (2 ^ 64 + 32 - alignMod64 % 64) % 2 ^ 64))

/-- Reference, from the claim's words: ASCII-lowercase a byte (only the
letters `A`..`Z` change). -/
def asciiLowerByte (h : Nat) : Nat :=
  if 65 ≤ h ∧ h ≤ 90 then h + 32 else h

/-- Reference, from the claim's words: naive substring search — `Some` of
the smallest index at which the needle matches, comparing bytes exactly when
case sensitive and after ASCII-lowercasing haystack bytes when not, `Some 0`
for the empty needle, `None` when there is no occurrence. -/
def naive_memmem (haystack needle : List Nat) (case_sensitive : Bool) : Option Nat :=
  if needle.length = 0 then some 0
  else if haystack.length < needle.length then none
  else findFirst (fun i => decide (∀ l, l < needle.length →
      (if case_sensitive = true then haystack.getD (i + l) 0
       else asciiLowerByte (haystack.getD (i + l) 0)) = needle.getD l 0))
    0 (haystack.length - needle.length + 1)

/-- The branchless "lowercase" the AVX2 compare actually applies to haystack
bytes: `h ||| 32` whenever the wrapping signed test classifies `h` as
"upper", i.e. for `h ≤ 90` or `h ≥ 193` — not only for ASCII uppercase. -/
def branchlessLower (h : Nat) : Nat :=
  if (h + 191) % 256 < 26 ∨ 128 ≤ (h + 191) % 256 then h ||| 32 else h

/-- Reference for the amended claim: the same naive search with
`branchlessLower` in place of ASCII lowercasing. -/
def naive_memmem_branchless (haystack needle : List Nat) (case_sensitive : Bool) :
    Option Nat :=
  if needle.length = 0 then some 0
  else if haystack.length < needle.length then none
  else findFirst (fun i => decide (∀ l, l < needle.length →
      (if case_sensitive = true then haystack.getD (i + l) 0
       else branchlessLower (haystack.getD (i + l) 0)) = needle.getD l 0))
    0 (haystack.length - needle.length + 1)

theorem laneBits_lt (eq : Nat → Bool) : ∀ n, laneBits eq n < 2 ^ n := by
  intro n
  induction n with
  | zero => rw [laneBits]; norm_num
  | succ n ih =>
    rw [laneBits]
    have h2 : (2 : Nat) ^ (n + 1) = 2 ^ n + 2 ^ n := by ring
    by_cases h : eq n
    · rw [if_pos h]; omega
    · rw [if_neg h]; omega

theorem testBit_laneBits (eq : Nat → Bool) :
    ∀ n l, (laneBits eq n).testBit l = (decide (l < n) && eq l) := by
  intro n
  induction n with
  | zero =>
    intro l
    rw [laneBits]
    simp [Nat.zero_testBit]
  | succ n ih =>
    intro l
    rw [laneBits]
    by_cases hl : l < n
    · have hx := laneBits_lt eq n
      have hmod : (laneBits eq n + (if eq n then 2 ^ n else 0)) % 2 ^ n
          = laneBits eq n := by
        by_cases h : eq n
        · rw [if_pos h, Nat.add_mod_right, Nat.mod_eq_of_lt hx]
        · rw [if_neg h, Nat.add_zero, Nat.mod_eq_of_lt hx]
      have h1 : Nat.testBit (laneBits eq n + (if eq n then 2 ^ n else 0)) l
          = Nat.testBit ((laneBits eq n + (if eq n then 2 ^ n else 0)) % 2 ^ n) l := by
        rw [Nat.testBit_mod_two_pow, decide_eq_true hl, Bool.true_and]
      rw [h1, hmod, ih l, decide_eq_true hl, decide_eq_true (by omega : l < n + 1)]
    · by_cases he : l = n
      · subst he
        have hx := laneBits_lt eq l
        by_cases h : eq l
        · rw [if_pos h]
          have hdiv : (laneBits eq l + 2 ^ l) / 2 ^ l = 1 := by
            rw [Nat.add_div_right _ (Nat.pos_pow_of_pos l (by norm_num)),
              Nat.div_eq_of_lt hx]
          rw [Nat.testBit_to_div_mod, hdiv]
          simp [h]
        · rw [if_neg h, Nat.add_zero, Nat.testBit_lt_two_pow hx]
          simp [h]
      · have hlt : laneBits eq n + (if eq n then 2 ^ n else 0) < 2 ^ (n + 1) := by
          have hx := laneBits_lt eq n
          have h2 : (2 : Nat) ^ (n + 1) = 2 ^ n + 2 ^ n := by ring
          by_cases h : eq n
          · rw [if_pos h]; omega
          · rw [if_neg h]; omega
        rw [Nat.testBit_lt_two_pow (lt_of_lt_of_le hlt
          (Nat.pow_le_pow_right (by norm_num) (by omega))),
          decide_eq_false (by omega : ¬ l < n + 1), Bool.false_and]

theorem and_mask_eq (m p : Nat) :
    m &&& p = p ↔ ∀ l, p.testBit l = true → m.testBit l = true := by
  constructor
  · intro h l hp
    have h2 := congrArg (fun x => Nat.testBit x l) h
    simp only [Nat.testBit_and] at h2
    rw [hp, Bool.and_true] at h2
    exact h2
  · intro h
    apply Nat.eq_of_testBit_eq
    intro l
    rw [Nat.testBit_and]
    by_cases hp : p.testBit l = true
    · rw [hp, h l hp]
      rfl
    · have hf : p.testBit l = false := by
        revert hp
        cases p.testBit l <;> simp
      rw [hf, Bool.and_false]

theorem movemask_eq_max (eq : Nat → Bool) :
    laneBits eq 32 = 2 ^ 32 - 1 ↔ ∀ l, l < 32 → eq l = true := by
  constructor
  · intro h l hl
    have h2 := testBit_laneBits eq 32 l
    rw [h, Nat.testBit_two_pow_sub_one, decide_eq_true hl, Bool.true_and] at h2
    exact h2.symm
  · intro h
    apply Nat.eq_of_testBit_eq
    intro l
    rw [testBit_laneBits, Nat.testBit_two_pow_sub_one]
    by_cases hl : l < 32
    · rw [decide_eq_true hl, Bool.true_and, h l hl]
    · rw [decide_eq_false hl, Bool.false_and]

theorem testBit_pmask (nl l : Nat) (h : nl ≤ 32) :
    Nat.testBit ((2 ^ 32 - 1) >>> (32 - nl)) l = decide (l < nl) := by
  rw [Nat.testBit_shiftRight, Nat.testBit_two_pow_sub_one, decide_eq_decide]
  omega

theorem testBit_smask (nl l : Nat) (h : nl ≤ 32) :
    Nat.testBit (((2 ^ 32 - 1) <<< (32 - nl)) % 2 ^ 32) l
      = decide (32 - nl ≤ l ∧ l < 32) := by
  rw [Nat.testBit_mod_two_pow, Nat.testBit_shiftLeft, Nat.testBit_two_pow_sub_one]
  by_cases h1 : l < 32
  · by_cases h2 : 32 - nl ≤ l
    · simp [h1, h2, ge_iff_le, (by omega : l - (32 - nl) < 32)]
    · simp [h1, h2, ge_iff_le]
  · simp [h1]

theorem prefix_mask_iff (eq : Nat → Bool) (nl : Nat) (h : nl ≤ 32) :
    (laneBits eq 32 &&& ((2 ^ 32 - 1) >>> (32 - nl)) = (2 ^ 32 - 1) >>> (32 - nl))
      ↔ ∀ l, l < nl → eq l = true := by
  rw [and_mask_eq]
  constructor
  · intro hh l hl
    have h2 := hh l (by rw [testBit_pmask _ _ h]; exact decide_eq_true hl)
    rw [testBit_laneBits] at h2
    rw [Bool.and_eq_true] at h2
    exact h2.2
  · intro hh l hl
    rw [testBit_pmask _ _ h] at hl
    have hlnl : l < nl := of_decide_eq_true hl
    rw [testBit_laneBits, decide_eq_true (by omega : l < 32), Bool.true_and]
    exact hh l hlnl

theorem suffix_mask_iff (eq : Nat → Bool) (nl : Nat) (h : nl ≤ 32) :
    (laneBits eq 32 &&& (((2 ^ 32 - 1) <<< (32 - nl)) % 2 ^ 32)
        = ((2 ^ 32 - 1) <<< (32 - nl)) % 2 ^ 32)
      ↔ ∀ l, 32 - nl ≤ l → l < 32 → eq l = true := by
  rw [and_mask_eq]
  constructor
  · intro hh l hl1 hl2
    have h2 := hh l (by rw [testBit_smask _ _ h]; exact decide_eq_true ⟨hl1, hl2⟩)
    rw [testBit_laneBits] at h2
    rw [Bool.and_eq_true] at h2
    exact h2.2
  · intro hh l hl
    rw [testBit_smask _ _ h] at hl
    have hc := of_decide_eq_true hl
    rw [testBit_laneBits, decide_eq_true hc.2, Bool.true_and]
    exact hh l hc.1 hc.2

theorem midLoop_true_iff (c : Nat → Bool) (nl : Nat) :
    ∀ (k j : Nat), nl - 32 - j ≤ k →
      (midLoop c nl j = true ↔
        ∀ m : Nat, j + 32 * m < nl - 32 → c (j + 32 * m) = true) := by
  intro k
  induction k with
  | zero =>
    intro j hk
    rw [midLoop, dif_neg (by omega)]
    constructor
    · intro _ m hm
      exact absurd hm (by omega)
    · intro _
      rfl
  | succ k ih =>
    intro j hk
    rw [midLoop]
    by_cases hj : j < nl - 32
    · rw [dif_pos hj]
      by_cases hc : c j = true
      · rw [if_pos hc, ih (j + 32) (by omega)]
        constructor
        · intro hall m hm
          cases m with
          | zero =>
            rw [show j + 32 * 0 = j by ring]
            exact hc
          | succ m =>
            have h2 := hall m (by omega)
            rw [show j + 32 + 32 * m = j + 32 * (m + 1) by ring] at h2
            exact h2
        · intro hall m hm
          have h2 := hall (m + 1) (by omega)
          rw [show j + 32 * (m + 1) = j + 32 + 32 * m by ring] at h2
          exact h2
      · rw [if_neg hc]
        constructor
        · intro hfalse
          exact absurd hfalse (by simp)
        · intro hall
          have h2 := hall 0 (by omega)
          rw [show j + 32 * 0 = j by ring] at h2
          exact absurd h2 hc
    · rw [dif_neg hj]
      constructor
      · intro _ m hm
        exact absurd hm (by omega)
      · intro _
        rfl

theorem findFirst_congr (f g : Nat → Bool) : ∀ (n start : Nat),
    (∀ i, start ≤ i → i < start + n → f i = g i) →
    findFirst f start n = findFirst g start n := by
  intro n
  induction n with
  | zero => intro start _; rfl
  | succ n ih =>
    intro start h
    rw [findFirst, findFirst, h start (le_refl _) (by omega)]
    by_cases hg : g start = true
    · rw [if_pos hg, if_pos hg]
    · rw [if_neg hg, if_neg hg]
      exact ih (start + 1) (fun i h1 h2 => h i (by omega) (by omega))

theorem findFirst_append (f : Nat → Bool) : ∀ (m n start : Nat),
    findFirst f start (m + n)
      = match findFirst f start m with
        | some i => some i
        | none => findFirst f (start + m) n := by
  intro m
  induction m with
  | zero =>
    intro n start
    rw [show 0 + n = n by omega, show start + 0 = start by omega]
    rfl
  | succ m ih =>
    intro n start
    rw [show m + 1 + n = m + n + 1 by ring, findFirst]
    by_cases hf : f start = true
    · rw [if_pos hf]
      have h1 : findFirst f start (m + 1) = some start := by
        rw [findFirst, if_pos hf]
      rw [h1]
    · rw [if_neg hf]
      have h1 : findFirst f start (m + 1) = findFirst f (start + 1) m := by
        rw [findFirst, if_neg hf]
      rw [h1, ih n (start + 1), show start + 1 + m = start + (m + 1) by ring]

theorem get_new (a : List Nat) : (PaddedString.new a).get = a := by
  rw [PaddedString.new, PaddedString.get]
  rw [if_neg (by simp)]
  show ((List.replicate 32 0 ++ a ++ List.replicate 32 0).drop 32).take
      ((List.replicate 32 0 ++ a ++ List.replicate 32 0).length - 64) = a
  rw [List.append_assoc]
  have h1 : (List.replicate 32 0 ++ (a ++ List.replicate 32 0)).length - 64
      = a.length := by
    simp
  rw [h1]
  have h2 : (List.replicate 32 0 ++ (a ++ List.replicate 32 0)).drop 32
      = a ++ List.replicate 32 0 := by
    have h3 := List.drop_left (List.replicate 32 (0 : Nat)) (a ++ List.replicate 32 0)
    simpa using h3
  rw [h2]
  exact List.take_left a _

theorem needleAt_new (a : List Nat) (t : Nat) :
    needleAt (PaddedString.new a) t
      = if 32 ≤ t ∧ t < 32 + a.length then a.getD (t - 32) 0 else 0 := by
  rw [needleAt, PaddedString.new]
  show (List.replicate 32 0 ++ a ++ List.replicate 32 0).getD t 0 = _
  by_cases h1 : t < 32
  · rw [if_neg (by omega), List.getD_append _ _ _ _ (by simp; omega),
      List.getD_append _ _ _ _ (by simp; omega), getD_replicate_zero]
  · by_cases h2 : t < 32 + a.length
    · rw [if_pos ⟨by omega, h2⟩,
        List.getD_append _ _ _ _ (by simp; omega),
        List.getD_append_right _ _ _ _ (by simp; omega)]
      have h3 : t - (List.replicate 32 (0 : Nat)).length = t - 32 := by simp
      rw [h3]
    · rw [if_neg (by omega),
        List.getD_append_right _ _ _ _ (by simp; omega), getD_replicate_zero]

theorem hayAt_in (junk : Nat → Nat) (hay : List Nat) (t : Nat)
    (h1 : 32 ≤ t) (h2 : t < 32 + hay.length) :
    hayAt junk hay t = hay.getD (t - 32) 0 := by
  rw [hayAt, if_pos ⟨h1, h2⟩]

theorem simdLower_zero (h : Nat) : simdLower 0 h = h := by
  rw [simdLower, Nat.and_zero, Nat.or_zero]

theorem simdLower_32 (h : Nat) : simdLower 32 h = branchlessLower h := by
  rw [simdLower, branchlessLower]
  by_cases hc : (h + 191) % 256 < 26 ∨ 128 ≤ (h + 191) % 256
  · rw [if_pos hc, if_pos hc, show (255 &&& 32 : Nat) = 32 from rfl]
  · rw [if_neg hc, if_neg hc, show ((0 &&& 32) : Nat) = 0 from rfl, Nat.or_zero]

/-- Needle byte `x` matches the lowered haystack byte at position `i + x`. -/
def laneOk (m : Nat) (hay ns : List Nat) (i x : Nat) : Prop :=
  simdLower m (hay.getD (i + x) 0) = ns.getD x 0

theorem naiveP_iff_laneOk (cs : Bool) (hay ns : List Nat) (i : Nat) :
    (∀ l, l < ns.length → (if cs = true then hay.getD (i + l) 0
        else branchlessLower (hay.getD (i + l) 0)) = ns.getD l 0)
    ↔ ∀ l, l < ns.length → laneOk (if cs = true then 0 else 32) hay ns i l := by
  apply forall_congr'
  intro l
  apply imp_congr_right
  intro _
  rw [laneOk]
  cases cs with
  | true => rw [if_pos rfl, if_pos rfl, simdLower_zero]
  | false => rw [if_neg (by simp), if_neg (by simp), simdLower_32]

theorem bool_eq_of_iff {a b : Bool} (h : a = true ↔ b = true) : a = b := by
  cases a <;> cases b <;> simp_all

theorem prefix_hit_iff (junk : Nat → Nat) (m : Nat) (hay ns : List Nat) (i : Nat)
    (hnl : ns.length ≤ 32) (hin : i + ns.length ≤ hay.length) :
    (compareMask m (fun l => hayAt junk hay (32 + i + l))
        (fun l => needleAt (PaddedString.new ns) (32 + l))
      &&& ((2 ^ 32 - 1) >>> (32 - ns.length)) = (2 ^ 32 - 1) >>> (32 - ns.length))
    ↔ ∀ x, x < ns.length → laneOk m hay ns i x := by
  rw [compareMask, prefix_mask_iff _ _ hnl]
  constructor
  · intro h x hx
    have h2 := of_decide_eq_true (h x hx)
    rw [hayAt_in _ _ _ (by omega) (by omega), needleAt_new, if_pos (by omega),
      show 32 + i + x - 32 = i + x by omega, show 32 + x - 32 = x by omega] at h2
    exact h2
  · intro h x hx
    apply decide_eq_true
    rw [hayAt_in _ _ _ (by omega) (by omega), needleAt_new, if_pos (by omega),
      show 32 + i + x - 32 = i + x by omega, show 32 + x - 32 = x by omega]
    exact h x hx

theorem suffix_hit_iff (junk : Nat → Nat) (m : Nat) (hay ns : List Nat) (i : Nat)
    (hnl : ns.length ≤ 32) (h1 : 1 ≤ ns.length) (hin : i + ns.length ≤ hay.length) :
    (compareMask m (fun l => hayAt junk hay (i + ns.length + l))
        (fun l => needleAt (PaddedString.new ns) (ns.length + l))
      &&& (((2 ^ 32 - 1) <<< (32 - ns.length)) % 2 ^ 32)
      = ((2 ^ 32 - 1) <<< (32 - ns.length)) % 2 ^ 32)
    ↔ ∀ x, x < ns.length → laneOk m hay ns i x := by
  rw [compareMask, suffix_mask_iff _ _ hnl]
  constructor
  · intro h x hx
    have h2 := of_decide_eq_true (h (32 - ns.length + x) (by omega) (by omega))
    rw [hayAt_in _ _ _ (by omega) (by omega), needleAt_new, if_pos (by omega),
      show i + ns.length + (32 - ns.length + x) - 32 = i + x by omega,
      show ns.length + (32 - ns.length + x) - 32 = x by omega] at h2
    exact h2
  · intro h l hl1 hl2
    apply decide_eq_true
    rw [hayAt_in _ _ _ (by omega) (by omega), needleAt_new, if_pos (by omega),
      show i + ns.length + l - 32 = i + (l - (32 - ns.length)) by omega,
      show ns.length + l - 32 = l - (32 - ns.length) by omega]
    exact h (l - (32 - ns.length)) (by omega)

theorem long_first_iff (junk : Nat → Nat) (m : Nat) (hay ns : List Nat) (i : Nat)
    (hnl : 32 ≤ ns.length) (hin : i + ns.length ≤ hay.length) :
    (compareMask m (fun l => hayAt junk hay (32 + i + l))
        (fun l => needleAt (PaddedString.new ns) (32 + l)) = 2 ^ 32 - 1)
    ↔ ∀ x, x < 32 → laneOk m hay ns i x := by
  rw [compareMask, movemask_eq_max]
  constructor
  · intro h x hx
    have h2 := of_decide_eq_true (h x hx)
    rw [hayAt_in _ _ _ (by omega) (by omega), needleAt_new, if_pos (by omega),
      show 32 + i + x - 32 = i + x by omega, show 32 + x - 32 = x by omega] at h2
    exact h2
  · intro h x hx
    apply decide_eq_true
    rw [hayAt_in _ _ _ (by omega) (by omega), needleAt_new, if_pos (by omega),
      show 32 + i + x - 32 = i + x by omega, show 32 + x - 32 = x by omega]
    exact h x hx

theorem long_last_iff (junk : Nat → Nat) (m : Nat) (hay ns : List Nat) (i : Nat)
    (hnl : 32 ≤ ns.length) (hin : i + ns.length ≤ hay.length) :
    (compareMask m (fun l => hayAt junk hay (i + ns.length + l))
        (fun l => needleAt (PaddedString.new ns) (ns.length + l)) = 2 ^ 32 - 1)
    ↔ ∀ x, ns.length - 32 ≤ x → x < ns.length → laneOk m hay ns i x := by
  rw [compareMask, movemask_eq_max]
  constructor
  · intro h x hx1 hx2
    have h2 := of_decide_eq_true (h (x - (ns.length - 32)) (by omega))
    rw [hayAt_in _ _ _ (by omega) (by omega), needleAt_new, if_pos (by omega),
      show i + ns.length + (x - (ns.length - 32)) - 32 = i + x by omega,
      show ns.length + (x - (ns.length - 32)) - 32 = x by omega] at h2
    exact h2
  · intro h l hl
    apply decide_eq_true
    rw [hayAt_in _ _ _ (by omega) (by omega), needleAt_new, if_pos (by omega),
      show i + ns.length + l - 32 = i + (ns.length - 32 + l) by omega,
      show ns.length + l - 32 = ns.length - 32 + l by omega]
    exact h (ns.length - 32 + l) (by omega) (by omega)

theorem long_chunk_iff (junk : Nat → Nat) (m : Nat) (hay ns : List Nat) (i j : Nat)
    (hj : j + 32 ≤ ns.length) (hin : i + ns.length ≤ hay.length) :
    (compareMask m (fun l => hayAt junk hay (32 + i + j + l))
        (fun l => needleAt (PaddedString.new ns) (32 + j + l)) = 2 ^ 32 - 1)
    ↔ ∀ x, j ≤ x → x < j + 32 → laneOk m hay ns i x := by
  rw [compareMask, movemask_eq_max]
  constructor
  · intro h x hx1 hx2
    have h2 := of_decide_eq_true (h (x - j) (by omega))
    rw [hayAt_in _ _ _ (by omega) (by omega), needleAt_new, if_pos (by omega),
      show 32 + i + j + (x - j) - 32 = i + x by omega,
      show 32 + j + (x - j) - 32 = x by omega] at h2
    exact h2
  · intro h l hl
    apply decide_eq_true
    rw [hayAt_in _ _ _ (by omega) (by omega), needleAt_new, if_pos (by omega),
      show 32 + i + j + l - 32 = i + (j + l) by omega,
      show 32 + j + l - 32 = j + l by omega]
    exact h (j + l) (by omega) (by omega)

theorem short_compose (f1 f2 g : Nat → Bool) (sp N : Nat)
    (h1 : ∀ i, i < min sp N → f1 i = g i)
    (h2 : ∀ i, sp ≤ i → i < N → f2 i = g i) :
    (match findFirst f1 0 (min sp N) with
     | some i => some i
     | none => findFirst f2 sp (N - sp)) = findFirst g 0 N := by
  have hA : findFirst f1 0 (min sp N) = findFirst g 0 (min sp N) :=
    findFirst_congr _ _ _ _ (fun i _ hi2 => h1 i (by omega))
  have hB : findFirst f2 sp (N - sp) = findFirst g sp (N - sp) :=
    findFirst_congr _ _ _ _ (fun i hi1 hi2 => h2 i hi1 (by omega))
  rw [hA, hB]
  by_cases hsp : sp ≤ N
  · rw [min_eq_left hsp]
    have happ := findFirst_append g sp (N - sp) 0
    rw [show sp + (N - sp) = N by omega, show (0 : Nat) + sp = sp by omega] at happ
    rw [happ]
  · rw [min_eq_right (by omega), show N - sp = 0 by omega]
    cases hF : findFirst g 0 N with
    | some i => rfl
    | none => rfl

/-- C9 (amended): for every haystack, alignment and adjacent memory, and every
needle built as a `PaddedString`, `memmem_maybe_case_sensitive` equals the
naive smallest-index substring search in which, when case-insensitive,
haystack bytes are lowered by the BRANCHLESS transform the AVX2 compare
implements (`h ||| 32` for `h ≤ 90` or `h ≥ 193`) — not by ASCII
lowercasing; when case sensitive the branchless reference coincides with
the claim's exact-comparison reference.  The claim as stated (with ASCII
lowercasing) is false even for needles with no ASCII uppercase byte (see
the counterexample). -/
theorem memmem_matches_naive (junk : Nat → Nat) (alignMod64 : Nat)
    (haystack ns : List Nat) (case_sensitive : Bool) :
    memmem_maybe_case_sensitive junk alignMod64 haystack (PaddedString.new ns)
        case_sensitive
      = naive_memmem_branchless haystack ns case_sensitive
    ∧ (case_sensitive = true →
      naive_memmem_branchless haystack ns true = naive_memmem haystack ns true) := by
  constructor
  · rw [memmem_maybe_case_sensitive, get_new, naive_memmem_branchless]
    by_cases h0 : ns.length = 0
    · rw [if_pos (show ns.isEmpty = true by
          rw [List.isEmpty_iff]
          exact List.length_eq_zero.mp h0),
        if_pos h0]
    · rw [if_neg (show ¬ ns.isEmpty = true by
          rw [List.isEmpty_iff]
          intro hc
          exact h0 (by rw [hc]; rfl)),
        if_neg h0]
      by_cases hlen : haystack.length < ns.length
      · rw [if_pos hlen, if_pos hlen]
      · rw [if_neg hlen, if_neg hlen]
        by_cases h32 : 32 < ns.length
        · rw [if_pos h32]
          have keyLong : ∀ i, i + ns.length ≤ haystack.length →
              (decide (compareMask (if case_sensitive = true then 0 else 32)
                  (fun l => hayAt junk haystack (32 + i + l))
                  (fun l => needleAt (PaddedString.new ns) (32 + l)) = 2 ^ 32 - 1)
                && decide (compareMask (if case_sensitive = true then 0 else 32)
                  (fun l => hayAt junk haystack (i + ns.length + l))
                  (fun l => needleAt (PaddedString.new ns) (ns.length + l))
                  = 2 ^ 32 - 1)
                && midLoop (fun j =>
                  decide (compareMask (if case_sensitive = true then 0 else 32)
                    (fun l => hayAt junk haystack (32 + i + j + l))
                    (fun l => needleAt (PaddedString.new ns) (32 + j + l))
                    = 2 ^ 32 - 1))
                  ns.length 32)
              = decide (∀ l, l < ns.length →
                  (if case_sensitive = true then haystack.getD (i + l) 0
                   else branchlessLower (haystack.getD (i + l) 0)) = ns.getD l 0) := by
            intro i hin
            apply bool_eq_of_iff
            rw [Bool.and_eq_true, Bool.and_eq_true, decide_eq_true_eq,
              decide_eq_true_eq, decide_eq_true_eq,
              long_first_iff junk (if case_sensitive = true then 0 else 32)
                haystack ns i (by omega) hin,
              long_last_iff junk (if case_sensitive = true then 0 else 32)
                haystack ns i (by omega) hin,
              naiveP_iff_laneOk,
              midLoop_true_iff _ _ ns.length 32 (by omega)]
            constructor
            · rintro ⟨⟨hA, hB⟩, hC⟩ l hl
              by_cases c1 : l < 32
              · exact hA l c1
              · by_cases c2 : ns.length - 32 ≤ l
                · exact hB l c2 hl
                · have hcj := hC ((l - 32) / 32) (by omega)
                  have h3 := (long_chunk_iff junk
                    (if case_sensitive = true then 0 else 32) haystack ns i
                    (32 + 32 * ((l - 32) / 32)) (by omega) hin).mp
                    (of_decide_eq_true hcj)
                  exact h3 l (by omega) (by omega)
            · intro h
              refine ⟨⟨fun x hx => h x (by omega), fun x _ hx2 => h x hx2⟩, ?_⟩
              intro m hm
              apply decide_eq_true
              apply (long_chunk_iff junk (if case_sensitive = true then 0 else 32)
                haystack ns i (32 + 32 * m) (by omega) hin).mpr
              intro x hx1 hx2
              exact h x (by omega)
          apply findFirst_congr
          intro i _ hi2
          exact keyLong i (by omega)
        · rw [if_neg h32]
          have keyPref : ∀ i, i + ns.length ≤ haystack.length →
              decide (compareMask (if case_sensitive = true then 0 else 32)
                  (fun l => hayAt junk haystack (32 + i + l))
                  (fun l => needleAt (PaddedString.new ns) (32 + l))
                &&& ((2 ^ 32 - 1) >>> (32 - ns.length))
                = (2 ^ 32 - 1) >>> (32 - ns.length))
              = decide (∀ l, l < ns.length →
                  (if case_sensitive = true then haystack.getD (i + l) 0
                   else branchlessLower (haystack.getD (i + l) 0)) = ns.getD l 0) := by
            intro i hin
            apply bool_eq_of_iff
            rw [decide_eq_true_eq, decide_eq_true_eq,
              prefix_hit_iff junk (if case_sensitive = true then 0 else 32)
                haystack ns i (by omega) hin,
              naiveP_iff_laneOk]
          have keySuff : ∀ i, i + ns.length ≤ haystack.length →
              decide (compareMask (if case_sensitive = true then 0 else 32)
                  (fun l => hayAt junk haystack (i + ns.length + l))
                  (fun l => needleAt (PaddedString.new ns) (ns.length + l))
                &&& (((2 ^ 32 - 1) <<< (32 - ns.length)) % 2 ^ 32)
                = ((2 ^ 32 - 1) <<< (32 - ns.length)) % 2 ^ 32)
              = decide (∀ l, l < ns.length →
                  (if case_sensitive = true then haystack.getD (i + l) 0
                   else branchlessLower (haystack.getD (i + l) 0)) = ns.getD l 0) := by
            intro i hin
            apply bool_eq_of_iff
            rw [decide_eq_true_eq, decide_eq_true_eq,
              suffix_hit_iff junk (if case_sensitive = true then 0 else 32)
                haystack ns i (by omega) (by omega) hin,
              naiveP_iff_laneOk]
          apply short_compose
          · intro i hi
            have hi2 := lt_of_lt_of_le hi (min_le_right _ _)
            exact keyPref i (by omega)
          · intro i _ hiN
            exact keySuff i (by omega)
  · intro hcs
    rw [naive_memmem_branchless, naive_memmem]
    by_cases h0 : ns.length = 0
    · rw [if_pos h0, if_pos h0]
    · rw [if_neg h0, if_neg h0]
      by_cases h1 : haystack.length < ns.length
      · rw [if_pos h1, if_pos h1]
      · rw [if_neg h1, if_neg h1]
        apply findFirst_congr
        intro i _ _
        exact decide_eq_decide.mpr (forall_congr' fun l => imp_congr_right fun _ =>
          by rw [if_pos rfl, if_pos rfl])

/-- C9 counterexample: the claim's case-insensitive reference (ASCII
lowercasing) disagrees with the code.  With haystack `[64]` (the byte `'@'`,
not an ASCII letter) and needle `[64]`, the naive ASCII-lowercase search
finds the match at index 0, but `memmem_maybe_case_sensitive` returns none:
the AVX2 path ORs 32 into the byte 64 (it treats every byte `b` with
`b+191 ≡ 0..25 or ≥ 128 (mod 256)` as uppercase), turning `'@'` into a
byte that no longer equals the needle byte. -/
theorem memmem_claim_counterexample :
    memmem_maybe_case_sensitive (fun _ => 0) 0 [64] (PaddedString.new [64]) false
      = none
    ∧ naive_memmem [64] [64] false = some 0
    ∧ ∀ c ∈ [64], isAsciiUppercase c = false := by
  refine ⟨by decide, by decide, by decide⟩

theorem memmem_matches_naive_witness :
    (memmem_maybe_case_sensitive (fun _ => 7) 3 [72, 105] (PaddedString.new [105])
        true
      = naive_memmem_branchless [72, 105] [105] true)
    ∧ naive_memmem_branchless [72, 105] [105] true = naive_memmem [72, 105] [105] true := by
  exact ⟨(memmem_matches_naive (fun _ => 7) 3 [72, 105] [105] true).1,
    (memmem_matches_naive (fun _ => 7) 3 [72, 105] [105] true).2 rfl⟩

end Nnd
